import Mathlib

/-!
Verification of the diff core of `rdiff`/`sdiff` (a structural
file-comparison tool) against its natural-language specification.

The development shallowly embeds the Python sources:

* `sdiff/sequence.py` — `diff`, `canonize`, `codes_to_chunks`;
* `sdiff/chunk.py`    — `Chunk`, `Diff`, chunk algebra (`__add__`,
  `iter_compressed_chunks`, `iter_coarse_chunks`, `get_coarse`,
  `get_a`, `get_b`, `iter_important`);
* `rdiff/myers.py`    — `search_graph_recursive`, the pure-python Myers
  engine kernel (the compiled cython kernel is not part of the sources;
  the test-suite drives both kernels through identical expectations, so
  the python kernel is taken as the engine's definition).

Python integers are embedded as `ℤ` (with `Int.fdiv`/`Int.emod` for the
Python floor-division `//` and remainder `%` against positive moduli),
Python floats as `ℚ`, Python sequences as `List`, and in-place mutation
of buffers as explicit state passing.  Loops without a structural
measure carry an explicit fuel argument; every use instantiates the
fuel large enough, which the corresponding lemmas discharge.
-/

set_option autoImplicit false

namespace Rdiff

/-! ### Python helpers: indexing, slicing, ranges -/

/-- Python list read `l[i]`, including the negative-index convention
`l[-k] == l[len l - k]`.  Out-of-range reads return `0`; every verified
call path proves its indexes in range. -/
def pyGet (l : List ℤ) (i : ℤ) : ℤ :=
  if i < 0 then l.getD (l.length + i).toNat 0 else l.getD i.toNat 0

/-- Python list write `l[i] = v`, including the negative-index
convention.  Out-of-range writes are dropped (Python raises there;
verified call paths prove their indexes in range). -/
def pySet (l : List ℤ) (i v : ℤ) : List ℤ :=
  if i < 0 then l.set (l.length + i).toNat v else l.set i.toNat v

/-- Python slice `l[lo:hi]` for `0 ≤ lo`, `0 ≤ hi` (clamping, empty when
`hi ≤ lo`), with the negative-index convention on either bound. -/
def pySlice {α : Type} (l : List α) (lo hi : ℤ) : List α :=
  let norm : ℤ → ℤ := fun i => if i < 0 then (l.length : ℤ) + i else i
  (l.take (norm hi).toNat).drop (norm lo).toNat

/-- Python `range(a, b, 2)` as a list (ascending, step 2). -/
def pyRange2 (a b : ℤ) : List ℤ :=
  (List.range ((b - a).toNat / 2 + if (b - a).toNat % 2 = 0 then 0 else 1)).map
    (fun k : ℕ => a + 2 * (k : ℤ))

/-- Python `int(q)` on a float: truncation toward zero. -/
def pyInt (q : ℚ) : ℤ :=
  if q < 0 then -((-q).floor) else q.floor

/-- Python `itertools.groupby`: split a list into maximal runs of
adjacent elements sharing a key.  Returns `(key, run)` pairs; runs are
nonempty and adjacent keys differ (proved below). -/
def groupByKey {β κ : Type} [DecidableEq κ] (key : β → κ) : List β → List (κ × List β)
  | [] => []
  | x :: xs =>
    match groupByKey key xs with
    | [] => [(key x, [x])]
    | (k, run) :: rest =>
      if key x = k then (k, x :: run) :: rest
      else (key x, [x]) :: (k, run) :: rest

/-! ### Data model (`sdiff/chunk.py`)

`Chunk.eq` in Python is `True`, `False`, or a list whose entries are
`True`, `False` or a nested `Diff`.  The nested-diff payload is an
opaque type parameter `δ`: no verified claim inspects the inside of a
nested diff. -/

/-- One entry of a nested `Chunk.eq` list: the Python values `True`,
`False`, or a nested `Diff` object. -/
inductive EqEntry (δ : Type) : Type
  | tt : EqEntry δ
  | ff : EqEntry δ
  | dd : δ → EqEntry δ
  deriving DecidableEq

/-- The `Chunk.eq` field: a Python bool or a list of entries. -/
inductive ChunkEq (δ : Type) : Type
  | b : Bool → ChunkEq δ
  | list : List (EqEntry δ) → ChunkEq δ
  deriving DecidableEq

/-- `Chunk` from `sdiff/chunk.py`. -/
structure Chunk (α δ : Type) : Type where
  data_a : List α
  data_b : List α
  eq : ChunkEq δ
  deriving DecidableEq

/-- `Diff` from `sdiff/chunk.py`; `diffs = none` embeds Python `None`. -/
structure PyDiff (α δ : Type) : Type where
  ratio : ℚ
  diffs : Option (List (Chunk α δ))
  deriving DecidableEq

/-- `Item` from `sdiff/chunk.py` (`a`/`b` may be absent; `diff` holds
the aligned position's nested entry when present). -/
structure Item (α δ : Type) : Type where
  a : Option α
  b : Option α
  ix_a : Option ℤ
  ix_b : Option ℤ
  d : Option (EqEntry δ)
  deriving DecidableEq

/-- One element yielded by `Diff.iter_important`: a diff item or an
integer skip marker. -/
inductive ImpOut (α δ : Type) : Type
  | item : Item α δ → ImpOut α δ
  | skip : ℤ → ImpOut α δ
  deriving DecidableEq

/-! ### The Myers engine (`rdiff/myers.py`, `search_graph_recursive`)

The Python function mutates an optional `out` code buffer and two
"front" arrays in place and recurses on the two halves of the problem
once the middle snake is found.  The embedding threads the buffer and
the fronts explicitly and carries a fuel for the recursion (Python's
recursion terminates because the cost budget of a recursive call is at
most half the parent's positive cost; each verified top-level use
instantiates the fuel at `n + m + 1`, which the lemmas show ample). -/

/-- `MAX_COST` from `rdiff/myers.py`. -/
def max_cost_default : ℤ := 0xFFFFFFFF

/-- `MAX_CALLS` from `rdiff/myers.py`. -/
def max_calls_default : ℤ := 0xFFFFFFFF

/-- `MIN_RATIO` from `rdiff/myers.py` (the float literal `0.749`,
written with `mkRat` so that it evaluates by kernel reduction). -/
def min_ratio_default : ℚ := mkRat 749 1000

/-- `min_ratio_default` as a division literal. -/
lemma min_ratio_default_eq : min_ratio_default = 749 / 1000 := by
  rw [min_ratio_default, Rat.mkRat_eq_div]; norm_num

/-- Buffer write `out[ix] = v` (no-op when the buffer is `None`). -/
def outWrite (out : Option (List ℤ)) (ix v : ℤ) : Option (List ℤ) :=
  out.map (fun l => pySet l ix v)

/-- Write `v` to `len` consecutive cells starting at `lo`. -/
def outWriteRun (out : Option (List ℤ)) (lo : ℤ) (len : ℕ) (v : ℤ) :
    Option (List ℤ) :=
  match len with
  | 0 => out
  | len' + 1 => outWriteRun (outWrite out lo v) (lo + 1) len' v

/-- The two trailing write loops of `search_graph_recursive`: `1`s over
`[i+j, i+j+n)` then `2`s over `[i+j+n, i+j+n+m)` (used by the stripped
`n*m == 0` exit and by the give-up fallback). -/
def write_trivial (out : Option (List ℤ)) (n m i j : ℤ) : Option (List ℤ) :=
  outWriteRun (outWriteRun out (i + j) n.toNat 1) (i + j + n) m.toNat 2

/-- Engine state while stripping matching sequence ends. -/
structure StripSt : Type where
  n : ℤ
  m : ℤ
  i : ℤ
  j : ℤ
  out : Option (List ℤ)
  ncalls : ℤ
  deriving DecidableEq

/-- Forward strip loop: advance `i, j` over `3,0` pairs while the first
elements match (`similarity >= accept`). -/
def strip_forward (sim : ℤ → ℤ → ℚ) (accept : ℚ) :
    ℕ → StripSt → StripSt
  | 0, st => st
  | fuel + 1, st =>
    if st.n * st.m > 0 ∧ accept ≤ sim st.i st.j then
      strip_forward sim accept fuel
        { n := st.n - 1
          m := st.m - 1
          i := st.i + 1
          j := st.j + 1
          out := outWrite (outWrite st.out (st.i + st.j) 3) (st.i + st.j + 1) 0
          ncalls := st.ncalls + 1 }
    else st

/-- Reverse strip loop: shrink `n, m` over `3,0` pairs written at the
tail while the last elements match. -/
def strip_reverse (sim : ℤ → ℤ → ℚ) (accept : ℚ) :
    ℕ → StripSt → StripSt
  | 0, st => st
  | fuel + 1, st =>
    if st.n * st.m > 0 ∧ accept ≤ sim (st.i + st.n - 1) (st.j + st.m - 1) then
      strip_reverse sim accept fuel
        { st with
          n := st.n - 1
          m := st.m - 1
          out := outWrite (outWrite st.out (st.i + st.j + st.n + st.m - 2) 3)
            (st.i + st.j + st.n + st.m - 1) 0
          ncalls := st.ncalls + 1 }
    else st

/-- Phase-1 slide along free diagonal edges; returns the final progress
and call counter. -/
def slide (sim : ℤ → ℤ → ℚ) (accept : ℚ) (n m i j sign : ℤ) :
    ℕ → ℤ → ℤ → ℤ → ℤ → ℤ × ℤ
  | 0, _, _, progress, nc => (progress, nc)
  | fuel + 1, x, y, progress, nc =>
    if 0 ≤ x ∧ x < n ∧ 0 ≤ y ∧ y < m then
      if sim (x + i) (y + j) < accept then (progress, nc + 1)
      else slide sim accept n m i j sign fuel (x + sign) (y + sign)
        (progress + 2 * sign) (nc + 1)
    else (progress, nc)

/-- Data captured when the two fronts meet on a diagonal. -/
structure Phase1Fire : Type where
  diag : ℤ
  progress_start : ℤ
  progress : ℤ
  deriving DecidableEq

/-- Phase 1 of a cost round: slide each admissible diagonal, store the
new progress, and stop at the first diagonal where the updated front
overlaps the facing one.  Returns the two fronts, the call counter and
the overlap data if any. -/
def phase1 (sim : ℤ → ℤ → ℚ) (accept : ℚ) (n m i j nm : ℤ) (isRev : Bool)
    (facingFrom facingTo : ℤ) :
    List ℤ → List ℤ → List ℤ → ℤ → List ℤ × List ℤ × ℤ × Option Phase1Fire
  | [], ff, fr, nc => (ff, fr, nc, none)
  | diag :: rest, ff, fr, nc =>
    let sign : ℤ := if isRev then -1 else 1
    let irf : ℤ := if isRev then 1 else 0
    let ix : ℤ := (diag.fdiv 2).emod nm
    let fu : List ℤ := if isRev then fr else ff
    let progress_start : ℤ := pyGet fu ix
    let x : ℤ := (progress_start + diag - m).fdiv 2 - irf
    let y : ℤ := (progress_start - diag + m).fdiv 2 - irf
    let sl := slide sim accept n m i j sign (n.toNat + m.toNat + 1) x y
      progress_start nc
    let progress : ℤ := sl.1
    let fu' : List ℤ := pySet fu ix progress
    let ff' : List ℤ := if isRev then ff else fu'
    let fr' : List ℤ := if isRev then fu' else fr
    if facingFrom ≤ diag ∧ diag ≤ facingTo ∧ (diag - facingFrom).emod 2 = 0 ∧
        pyGet fr' ix ≤ pyGet ff' ix then
      (ff', fr', sl.2, some ⟨diag, progress_start, progress⟩)
    else
      phase1 sim accept n m i j nm isRev facingFrom facingTo rest ff' fr' sl.2

/-- Phase 2 of a cost round: one horizontal/vertical step into each
adjacent diagonal, with the front writes delayed by one iteration (the
trailing unconditional write included; `ix = -1` on an empty range hits
Python's negative-index convention, proved unreachable). -/
def phase2 (isRev : Bool) (nm dUF dUT : ℤ) :
    List ℤ → List ℤ → ℤ → ℤ → List ℤ
  | [], fu, previous, ix =>
    pySet fu ix (previous + if isRev then -1 else 1)
  | diag' :: rest, fu, previous, ix =>
    let pl : ℤ := pyGet fu (((diag' - 1).fdiv 2).emod nm)
    let pr : ℤ := pyGet fu (((diag' + 1).fdiv 2).emod nm)
    let progress : ℤ :=
      if diag' = dUF - 1 then pr
      else if diag' = dUT + 1 then pl
      else if isRev then min pl pr
      else max pl pr
    let fu' : List ℤ :=
      if ix ≠ -1 then pySet fu ix (previous + if isRev then -1 else 1) else fu
    phase2 isRev nm dUF dUT rest fu' progress ((diag'.fdiv 2).emod nm)

/-- Argument record of a `search_graph_recursive` call (the two oracle
fast-path arguments are resolved before this point and the plain
similarity callable is passed separately). -/
structure SearchArgs : Type where
  n : ℤ
  m : ℤ
  out : Option (List ℤ)
  accept : ℚ
  max_cost : ℤ
  max_calls : ℤ
  i : ℤ
  j : ℤ

/-- Indexes of the middle-snake write loop
`range(ps - 2*irf, p - 2*irf, 2*sign)`. -/
def snakeIdx (isRev : Bool) (ps p : ℤ) : List ℤ :=
  let sign : ℤ := if isRev then -1 else 1
  let irf : ℤ := if isRev then 2 else 0
  (List.range (((p - ps) * sign).toNat / 2)).map
    (fun k => ps - irf + 2 * sign * (k : ℤ))

/-- The overlap branch: write the middle snake, recurse on the top-left
and bottom-right sub-problems, and return the buffer (only entered with
a non-`None` buffer). -/
def fireWrites (search : SearchArgs → ℤ × Option (List ℤ))
    (isRev : Bool) (accept : ℚ) (n m i j cost : ℤ) (f : Phase1Fire)
    (out : Option (List ℤ)) : Option (List ℤ) :=
  let snake := (snakeIdx isRev f.progress_start f.progress).foldl
    (fun o ix2 => outWrite (outWrite o (i + j + ix2) 3) (i + j + ix2 + 1) 0) out
  let x : ℤ := (f.progress_start + f.diag - m).fdiv 2
  let y : ℤ := (f.progress_start - f.diag + m).fdiv 2
  let x2 : ℤ := (f.progress + f.diag - m).fdiv 2
  let y2 : ℤ := (f.progress - f.diag + m).fdiv 2
  let q : ℤ × ℤ × ℤ × ℤ := if isRev then (x2, y2, x, y) else (x, y, x2, y2)
  let out1 := (search ⟨q.1, q.2.1, snake, accept, cost.fdiv 2 + cost.emod 2,
    max_calls_default, i, j⟩).2
  (search ⟨n - q.2.2.1, m - q.2.2.2, out1, accept, cost.fdiv 2,
    max_calls_default, i + q.2.2.1, j + q.2.2.2⟩).2

/-- One iteration of the cost loop: either a final engine result
(`Sum.inl`: overlap found, or the call budget exhausted) or the state
carried to the next round (`Sum.inr`: the two fronts and the call
counter). -/
def round_step (search : SearchArgs → ℤ × Option (List ℤ))
    (sim : ℤ → ℤ → ℚ) (accept : ℚ) (n m i j nm n_m max_calls : ℤ)
    (out : Option (List ℤ)) (cost : ℤ) (ff fr : List ℤ) (nc : ℤ) :
    (ℤ × Option (List ℤ)) ⊕ (List ℤ × List ℤ × ℤ) :=
  let isRev : Bool := cost.emod 2 = 1
  let diag_src : ℤ := if isRev then n else m
  let diag_dst : ℤ := if isRev then m else n
  let p1 : ℤ := cost.fdiv 2
  let dUF : ℤ := |diag_src - p1|
  let dUT : ℤ := n_m - |diag_dst - p1|
  let p2 : ℤ := (cost - 1).fdiv 2 + 1
  let dFF : ℤ := |diag_dst - p2|
  let dFT : ℤ := n_m - |diag_src - p2|
  let ph1 := phase1 sim accept n m i j nm isRev dFF dFT
    (pyRange2 dUF (dUT + 2)) ff fr nc
  match ph1.2.2.2 with
  | some f =>
    Sum.inl (cost,
      if out ≠ none then fireWrites search isRev accept n m i j cost f out
      else out)
  | none =>
    if max_calls < ph1.2.2.1 then Sum.inl (n + m, write_trivial out n m i j)
    else
      let cost2 : ℤ := cost.fdiv 2 + 1
      let dUF' : ℤ := |diag_src - cost2|
      let dUT' : ℤ := n_m - |diag_dst - cost2|
      let fu' := phase2 isRev nm dUF dUT (pyRange2 dUF' (dUT' + 2))
        (if isRev then ph1.2.1 else ph1.1) (-1) (-1)
      Sum.inr (if isRev then ph1.1 else fu', if isRev then fu' else ph1.2.1,
        ph1.2.2.1)

/-- The cost-round loop (`for cost in range(max_cost + 1)`), running one
phase-1/phase-2 pair per round; `rfuel` counts the rounds still allowed
by the budget, so the loop falls through to the trivial-script fallback
when it reaches `0`.  `search` is the recursive engine entry used by the
overlap branch. -/
def rounds (search : SearchArgs → ℤ × Option (List ℤ))
    (sim : ℤ → ℤ → ℚ) (accept : ℚ) (n m i j nm n_m max_calls : ℤ)
    (out : Option (List ℤ)) :
    ℕ → ℤ → List ℤ → List ℤ → ℤ → ℤ × Option (List ℤ)
  | 0, _, _, _, _ => (n + m, write_trivial out n m i j)
  | rfuel + 1, cost, ff, fr, nc =>
    match round_step search sim accept n m i j nm n_m max_calls out cost
      ff fr nc with
    | Sum.inl res => res
    | Sum.inr s =>
      rounds search sim accept n m i j nm n_m max_calls out rfuel (cost + 1)
        s.1 s.2.1 s.2.2

/-- `search_graph_recursive` with an explicit recursion fuel: strip the
matching ends, exit on an empty dimension, otherwise run the dual-front
search.  The `eq_only` flag of the source only emits a warning in the
python kernel and is dropped here. -/
def search_fuel (sim : ℤ → ℤ → ℚ) :
    ℕ → SearchArgs → ℤ × Option (List ℤ)
  | 0, a => (a.n + a.m, a.out)
  | fuel + 1, a =>
    let mc : ℤ := min a.max_cost (a.n + a.m)
    let st0 : StripSt := ⟨a.n, a.m, a.i, a.j, a.out, 2⟩
    let st1 := strip_forward sim a.accept (a.n.toNat + 1) st0
    let st := strip_reverse sim a.accept (st1.n.toNat + 1) st1
    if st.n * st.m = 0 then
      (st.n + st.m, write_trivial st.out st.n st.m st.i st.j)
    else
      let nm : ℤ := min st.n st.m + 1
      let n_m : ℤ := st.n + st.m
      rounds (fun a' => search_fuel sim fuel a')
        sim a.accept st.n st.m st.i st.j nm n_m a.max_calls st.out
        ((mc + 1).toNat) 0 (List.replicate nm.toNat 0)
        (List.replicate nm.toNat n_m) st.ncalls

/-- `search_graph_recursive` from `rdiff/myers.py` (callable-oracle
form), with the fuel fixed at `n + m + 1`. -/
def search_graph_recursive (n m : ℤ) (sim : ℤ → ℤ → ℚ)
    (out : Option (List ℤ)) (accept : ℚ := 1)
    (max_cost : ℤ := max_cost_default) (max_calls : ℤ := max_calls_default)
    (i : ℤ := 0) (j : ℤ := 0) : ℤ × Option (List ℤ) :=
  search_fuel sim (n + m + 1).toNat ⟨n, m, out, accept, max_cost, max_calls, i, j⟩

/-- The pair-of-sequences oracle built by `search_graph_recursive` when
`similarity_ratio_getter` is a tuple `(a_, b_)` (plain 1D equality). -/
def pair_oracle {α : Type} [DecidableEq α] (a b : List α) : ℤ → ℤ → ℚ :=
  fun i j =>
    match a.get? i.toNat, b.get? j.toNat with
    | some x, some y => if x = y then 1 else 0
    | _, _ => 0

/-! ### Edit-script codec (`sdiff/sequence.py`: `canonize`,
`codes_to_chunks`) -/

/-- The loop of `canonize` as a pure recursion.  The source walks the
buffer once, counting the pending horizontal (`1`) and vertical (`2`)
moves; at every boundary code (`code % 4` not in `{1, 2}`, or the end
of the buffer) it rewrites the pending run in place as all `1`s
followed by all `2`s.  Since the rewrite touches exactly the positions
of the pending run, the pass is equivalent to re-emitting each run in
sorted order, which is what this recursion does. -/
def canonize_go : List ℤ → ℕ → ℕ → List ℤ
  | [], h, v => List.replicate h 1 ++ List.replicate v 2
  | c :: rest, h, v =>
    if c.emod 4 = 1 then canonize_go rest (h + 1) v
    else if c.emod 4 = 2 then canonize_go rest h (v + 1)
    else List.replicate h 1 ++ List.replicate v 2 ++ c :: canonize_go rest 0 0

/-- `canonize` from `sdiff/sequence.py`. -/
def canonize (codes : List ℤ) : List ℤ := canonize_go codes 0 0

/-- Truthiness of `code % 3` — the grouping key of `codes_to_chunks`. -/
def code_neq (c : ℤ) : Bool := c.emod 3 ≠ 0

/-- The `is True` grouping key of the `dig` branch. -/
def entry_is_true {δ : Type} : EqEntry δ → Bool
  | .tt => true
  | _ => false

/-- The inner `dig` loop of `codes_to_chunks`: group the `dig` results
of one aligned run by `is True` and emit one chunk per group; offsets
advance with each emitted chunk.  Returns the emitted chunks and the
final offsets. -/
def dig_chunks {α δ : Type} (a b : List α) :
    List (Bool × List (EqEntry δ)) → ℤ → ℤ → List (Chunk α δ) × ℤ × ℤ
  | [], offA, offB => ([], offA, offB)
  | (key, es) :: rest, offA, offB =>
    let n' : ℤ := offA + es.length
    let m' : ℤ := offB + es.length
    let c : Chunk α δ :=
      ⟨pySlice a offA n', pySlice b offB m', if key then .b true else .list es⟩
    let r := dig_chunks a b rest n' m'
    (c :: r.1, r.2)

/-- The group loop of `codes_to_chunks`: one pass over the groups of
nonzero codes keyed by `bool(code % 3)`. -/
def codes_to_chunks_go {α δ : Type} (a b : List α)
    (dig : Option (ℤ → ℤ → EqEntry δ)) :
    List (Bool × List ℤ) → ℤ → ℤ → List (Chunk α δ)
  | [], _, _ => []
  | (neq, g) :: rest, offA, offB =>
    let n' : ℤ := offA + (g.map (fun c => c.emod 2)).sum
    let m' : ℤ := offB + (g.map (fun c => c.fdiv 2)).sum
    match dig, neq with
    | some digf, false =>
      let len : ℕ := (min (n' - offA) (m' - offB)).toNat
      let entries := (List.range len).map
        (fun k : ℕ => digf (offA + (k : ℤ)) (offB + (k : ℤ)))
      let inner := dig_chunks a b (groupByKey entry_is_true entries) offA offB
      inner.1 ++ codes_to_chunks_go a b dig rest inner.2.1 inner.2.2
    | _, _ =>
      Chunk.mk (pySlice a offA n') (pySlice b offB m') (.b !neq) ::
        codes_to_chunks_go a b dig rest n' m'

/-- `codes_to_chunks` from `sdiff/sequence.py`. -/
def codes_to_chunks {α δ : Type} (a b : List α) (codes : List ℤ)
    (dig : Option (ℤ → ℤ → EqEntry δ)) : List (Chunk α δ) :=
  codes_to_chunks_go a b dig
    (groupByKey code_neq (codes.filter (fun c => c ≠ 0))) 0 0

/-! ### Sequence diff (`sdiff/sequence.py`: `diff`)

The embedding covers the default oracle `eq = (a, b)` (the pair of the
input sequences themselves) and a boolean `rtn_diff`; passing an `array`
as `rtn_diff` returns the same `Diff` value as `rtn_diff=False`.  The
default kernel dispatches to the compiled cython engine, whose source is
not part of the repository; the python kernel (`kernel="py"`), driven by
the test-suite through expectations identical to the compiled one, is
used as the engine's definition.  The `ValueError` raised for
`accept <= 0` is embedded as `none`. -/

/-- The effective cost bound computed at the head of `diff`
(`max_cost = min(max_cost, int(total_len - total_len * min_ratio))`). -/
def effective_bound (total_len : ℤ) (min_ratio : ℚ) (max_cost : ℤ) : ℤ :=
  min max_cost (pyInt ((total_len : ℚ) - (total_len : ℚ) * min_ratio))

/-- `diff` from `sdiff/sequence.py` (full parameter form). -/
def diff_full {α δ : Type} [DecidableEq α] (a b : List α)
    (accept min_ratio : ℚ) (max_cost max_calls : ℤ)
    (eq_only rtn_diff : Bool) (dig : Option (ℤ → ℤ → EqEntry δ))
    (strict : Bool) : Option (PyDiff α δ) :=
  let rtn_diff := if eq_only then false else rtn_diff
  let n : ℤ := a.length
  let m : ℤ := b.length
  if accept ≤ 0 then none
  else
    let codes : Option (List ℤ) :=
      if rtn_diff then some (List.replicate (a.length + b.length) (-1)) else none
    let total_len : ℤ := n + m
    if total_len = 0 then some ⟨1, some []⟩
    else
      let mc : ℤ := effective_bound total_len min_ratio max_cost
      let res := search_graph_recursive n m (pair_oracle a b) codes accept mc
        max_calls
      if strict ∧ mc < res.1 then
        if rtn_diff then some ⟨0, some [⟨a, b, .b false⟩]⟩
        else some ⟨0, none⟩
      else
        let ratio : ℚ := ((total_len : ℚ) - res.1) / total_len
        if rtn_diff then
          some ⟨ratio, some (codes_to_chunks a b (canonize (res.2.getD [])) dig)⟩
        else some ⟨ratio, none⟩

/-- `diff(a, b)` with the source's default arguments. -/
def diff {α : Type} [DecidableEq α] (a b : List α) : Option (PyDiff α Unit) :=
  diff_full a b min_ratio_default min_ratio_default max_cost_default
    max_calls_default false true none true

/-! ### Chunk algebra (`sdiff/chunk.py`) -/

/-- `Chunk.__add__`; adding chunks with a nested-diff `eq` raises
`TypeError`, embedded as `none`. -/
def chunk_add {α δ : Type} (c1 c2 : Chunk α δ) : Option (Chunk α δ) :=
  match c1.eq, c2.eq with
  | .b e1, .b e2 =>
    some ⟨c1.data_a ++ c2.data_a, c1.data_b ++ c2.data_b, .b (e1 && e2)⟩
  | _, _ => none

/-- `functools.reduce(operator.add, chunks)` over a nonempty chunk
list. -/
def chunk_reduce {α δ : Type} (c : Chunk α δ) :
    List (Chunk α δ) → Option (Chunk α δ)
  | [] => some c
  | c' :: rest => match chunk_add c c' with
    | none => none
    | some c'' => chunk_reduce c'' rest

/-- `iter_compressed_chunks`: merge adjacent chunks sharing the same
`eq` value. -/
def iter_compressed_chunks {α δ : Type} [DecidableEq α] [DecidableEq δ]
    (chunks : List (Chunk α δ)) : Option (List (Chunk α δ)) :=
  (groupByKey Chunk.eq chunks).mapM
    (fun g => match g.2 with
      | [] => none
      | c :: rest => chunk_reduce c rest)

/-- Python truthiness of a `Chunk.eq` value (`if chunk.eq and ...`). -/
def eq_truthy {δ : Type} : ChunkEq δ → Bool
  | .b bv => bv
  | .list l => !l.isEmpty

/-- The buffer loop of `iter_coarse_chunks`. -/
def coarse_go {α δ : Type} (consume_size : ℤ) :
    List (Chunk α δ) → List (Chunk α δ) → Option (List (Chunk α δ))
  | [], buffer =>
    match buffer with
    | [] => some []
    | c :: rest => (chunk_reduce c rest).map (fun fb => [fb])
  | c :: rest, buffer =>
    if eq_truthy c.eq ∧ consume_size < (c.data_a.length : ℤ) then
      match buffer with
      | [] => (coarse_go consume_size rest []).map (fun r => c :: r)
      | b0 :: brest =>
        match chunk_reduce b0 brest with
        | none => none
        | some fb => (coarse_go consume_size rest []).map (fun r => fb :: c :: r)
    else coarse_go consume_size rest (buffer ++ [c])

/-- `iter_coarse_chunks` from `sdiff/chunk.py`. -/
def iter_coarse_chunks {α δ : Type} [DecidableEq α] [DecidableEq δ]
    (chunks : List (Chunk α δ)) (consume_size : ℤ) :
    Option (List (Chunk α δ)) :=
  match iter_compressed_chunks chunks with
  | none => none
  | some comp => coarse_go consume_size comp []

/-- `Diff.get_coarse`; iterating a `None` chunk list raises, embedded
as `none`. -/
def get_coarse {α δ : Type} [DecidableEq α] [DecidableEq δ]
    (d : PyDiff α δ) (consume_size : ℤ) : Option (PyDiff α δ) :=
  match d.diffs with
  | none => none
  | some l => (iter_coarse_chunks l consume_size).map
      (fun l' => ⟨d.ratio, some l'⟩)

/-- `Diff.get_a`: `reduce(add, ...)` of the chunks' `data_a`; raises on
a missing (`None`) or empty chunk list, embedded as `none`. -/
def get_a {α δ : Type} (d : PyDiff α δ) : Option (List α) :=
  match d.diffs with
  | none => none
  | some [] => none
  | some (c :: rest) =>
    some (rest.foldl (fun acc c' => acc ++ c'.data_a) c.data_a)

/-- `Diff.get_b`, symmetric to `get_a`. -/
def get_b {α δ : Type} (d : PyDiff α δ) : Option (List α) :=
  match d.diffs with
  | none => none
  | some [] => none
  | some (c :: rest) =>
    some (rest.foldl (fun acc c' => acc ++ c'.data_b) c.data_b)

/-! ### `Diff.iter_important` (`sdiff/chunk.py`) -/

/-- The `_head` generator: up to `context_size` leading equal pairs of
a chunk. -/
def head_entries {α δ : Type} (ctx : ℕ) (da db : List α) (ca cb : ℤ) :
    List (ImpOut α δ) :=
  ((da.take ctx).zip (db.take ctx)).enum.map
    (fun e => .item ⟨some e.2.1, some e.2.2, some (ca + e.1), some (cb + e.1),
      none⟩)

/-- The `_tail` generator: the skipped-gap marker (when positive)
followed by the chunk's remaining equal pairs. -/
def tail_entries {α δ : Type} (ctx : ℕ) (da db : List α) (ca cb : ℤ)
    (head_size : ℕ) : List (ImpOut α δ) :=
  let gap : ℤ := (da.length : ℤ) - ctx - head_size
  let g : ℕ := (if 0 < gap then gap.toNat else 0) + head_size
  (if 0 < gap then [ImpOut.skip gap] else []) ++
    ((da.drop g).zip (db.drop g)).enum.map
      (fun e => .item ⟨some e.2.1, some e.2.2, some (ca + g + e.1),
        some (cb + g + e.1), none⟩)

/-- The chunk loop of `iter_important`: `first` is false once a chunk
has been consumed, `pending` is the held-back `context_tail`
generator. -/
def iter_important_go {α δ : Type} (ctx : ℕ) :
    List (Chunk α δ) → Bool → ℤ → ℤ → List (ImpOut α δ) →
    List (ImpOut α δ)
  | [], _, _, _, pending =>
    let leftover : ℤ := pending.foldl
      (fun s e => s + match e with | .skip k => k | .item _ => 1) 0
    if leftover ≠ 0 then [.skip leftover] else []
  | c :: rest, first, ca, cb, pending =>
    let ca' : ℤ := ca + c.data_a.length
    let cb' : ℤ := cb + c.data_b.length
    match c.eq with
    | .b true =>
      (if first then [] else head_entries ctx c.data_a c.data_b ca cb) ++
        iter_important_go ctx rest false ca' cb'
          (tail_entries ctx c.data_a c.data_b ca cb (if first then 0 else ctx))
    | .b false =>
      pending ++
        c.data_a.enum.map
          (fun e => .item ⟨some e.2, none, some (ca + e.1), none, none⟩) ++
        c.data_b.enum.map
          (fun e => .item ⟨none, some e.2, none, some (cb + e.1), none⟩) ++
        iter_important_go ctx rest false ca' cb' []
    | .list es =>
      pending ++
        ((c.data_a.zip (c.data_b.zip es)).enum.map
          (fun e => ImpOut.item ⟨some e.2.1, some e.2.2.1, some (ca + e.1),
            some (cb + e.1), some e.2.2.2⟩)) ++
        iter_important_go ctx rest false ca' cb' []

/-- `Diff.iter_important` (on a `None` chunk list the source raises,
embedded as `none`). -/
def iter_important {α δ : Type} (d : PyDiff α δ) (ctx : ℕ) :
    Option (List (ImpOut α δ)) :=
  d.diffs.map (fun l => iter_important_go ctx l true 0 0 [])

/-! ### The 2D weighted oracle fast path
(`rdiff/myers.py`, `search_graph_recursive` lines 108-124)

When the similarity getter is a pair of 2D matrices with a shared
trailing dimension and `ext_2d_kernel` is set, the engine substitutes
`sim(i, j) = ((a[i] == b[j]) * weights).sum() / n` where `n` is the
trailing dimension and `weights` defaults to `np.ones(n)`.  Matrices
are embedded as lists of rows of length `K`. -/

/-- The 2D weighted similarity closure built by the engine. -/
def oracle_2d {α : Type} [DecidableEq α] (a b : List (List α))
    (weights : Option (List ℚ)) (K : ℕ) : ℤ → ℤ → ℚ :=
  let w : List ℚ := weights.getD (List.replicate K 1)
  fun i j =>
    (List.zipWith (fun p wk => if p.1 = p.2 then wk else (0 : ℚ))
      ((a.getD i.toNat []).zip (b.getD j.toNat [])) w).sum / K

/-! ## Supporting lemmas -/

/-- The strip loops keep both dimensions nonnegative. -/
lemma strip_forward_nonneg (sim : ℤ → ℤ → ℚ) (accept : ℚ) :
    ∀ (fuel : ℕ) (st : StripSt), 0 ≤ st.n → 0 ≤ st.m →
      0 ≤ (strip_forward sim accept fuel st).n ∧
      0 ≤ (strip_forward sim accept fuel st).m := by
  intro fuel
  induction fuel with
  | zero => intro st hn hm; exact ⟨hn, hm⟩
  | succ fuel ih =>
    intro st hn hm
    rw [strip_forward]
    split
    · next h =>
      refine ih _ ?_ ?_ <;> simp only []
      · nlinarith [h.1]
      · nlinarith [h.1]
    · exact ⟨hn, hm⟩

/-- The reverse strip loop keeps both dimensions nonnegative. -/
lemma strip_reverse_nonneg (sim : ℤ → ℤ → ℚ) (accept : ℚ) :
    ∀ (fuel : ℕ) (st : StripSt), 0 ≤ st.n → 0 ≤ st.m →
      0 ≤ (strip_reverse sim accept fuel st).n ∧
      0 ≤ (strip_reverse sim accept fuel st).m := by
  intro fuel
  induction fuel with
  | zero => intro st hn hm; exact ⟨hn, hm⟩
  | succ fuel ih =>
    intro st hn hm
    rw [strip_reverse]
    split
    · next h =>
      refine ih _ ?_ ?_ <;> simp only []
      · nlinarith [h.1]
      · nlinarith [h.1]
    · exact ⟨hn, hm⟩

/-- A final result produced by `round_step` carries either the current
round's cost or the trivial-script cost `n + m`. -/
lemma round_step_inl_fst (search : SearchArgs → ℤ × Option (List ℤ))
    (sim : ℤ → ℤ → ℚ) (accept : ℚ) (n m i j nm n_m max_calls : ℤ)
    (out : Option (List ℤ)) (cost : ℤ) (ff fr : List ℤ) (nc : ℤ)
    (res : ℤ × Option (List ℤ))
    (h : round_step search sim accept n m i j nm n_m max_calls out cost ff fr
      nc = Sum.inl res) : res.1 = cost ∨ res.1 = n + m := by
  rw [round_step] at h
  split at h
  · cases h; exact Or.inl rfl
  · rcases ite_eq_iff.mp h with ⟨_, h'⟩ | ⟨_, h'⟩
    · cases h'; exact Or.inr rfl
    · exact absurd h' (by simp)

/-- The cost-round loop returns a nonnegative cost when the dimensions
and the entry cost are nonnegative. -/
lemma rounds_fst_nonneg (search : SearchArgs → ℤ × Option (List ℤ))
    (sim : ℤ → ℤ → ℚ) (accept : ℚ) (n m i j nm n_m max_calls : ℤ)
    (out : Option (List ℤ)) (hnm : 0 ≤ n + m) :
    ∀ (rfuel : ℕ) (cost : ℤ) (ff fr : List ℤ) (nc : ℤ), 0 ≤ cost →
      0 ≤ (rounds search sim accept n m i j nm n_m max_calls out rfuel cost
        ff fr nc).1 := by
  intro rfuel
  induction rfuel with
  | zero => intro cost ff fr nc _; exact hnm
  | succ rfuel ih =>
    intro cost ff fr nc hc
    rw [rounds]
    cases h : round_step search sim accept n m i j nm n_m max_calls out cost
        ff fr nc with
    | inl res =>
      simp only []
      rcases round_step_inl_fst search sim accept n m i j nm n_m max_calls out
        cost ff fr nc res h with h1 | h1
      · rw [h1]; exact hc
      · rw [h1]; exact hnm
    | inr s =>
      simp only []
      exact ih (cost + 1) s.1 s.2.1 s.2.2 (by linarith)

/-- The engine's returned cost is nonnegative whenever it is called with
nonnegative dimensions. -/
lemma search_fuel_fst_nonneg (sim : ℤ → ℤ → ℚ) :
    ∀ (fuel : ℕ) (a : SearchArgs), 0 ≤ a.n → 0 ≤ a.m →
      0 ≤ (search_fuel sim fuel a).1 := by
  intro fuel
  cases fuel with
  | zero => intro a hn hm; exact add_nonneg hn hm
  | succ fuel =>
    intro a hn hm
    rw [search_fuel]
    have h1 := strip_forward_nonneg sim a.accept (a.n.toNat + 1)
      ⟨a.n, a.m, a.i, a.j, a.out, 2⟩ hn hm
    have h2 := strip_reverse_nonneg sim a.accept
      ((strip_forward sim a.accept (a.n.toNat + 1)
        ⟨a.n, a.m, a.i, a.j, a.out, 2⟩).n.toNat + 1)
      (strip_forward sim a.accept (a.n.toNat + 1)
        ⟨a.n, a.m, a.i, a.j, a.out, 2⟩) h1.1 h1.2
    split
    · exact add_nonneg h2.1 h2.2
    · apply rounds_fst_nonneg
      · exact add_nonneg h2.1 h2.2
      · exact le_rfl

/-- The cost returned by `search_graph_recursive` is nonnegative. -/
lemma search_graph_recursive_fst_nonneg (n m : ℤ) (sim : ℤ → ℤ → ℚ)
    (out : Option (List ℤ)) (accept : ℚ) (max_cost max_calls i j : ℤ)
    (hn : 0 ≤ n) (hm : 0 ≤ m) :
    0 ≤ (search_graph_recursive n m sim out accept max_cost max_calls i j).1 :=
  search_fuel_fst_nonneg sim _ _ hn hm

/-- `Rat.floor` agrees with the floor of the `FloorRing` instance. -/
lemma rat_floor_eq (q : ℚ) : q.floor = ⌊q⌋ := rfl

/-- For `min_ratio ∈ [0, 1]` the effective bound is at most the total
length. -/
lemma effective_bound_le (total_len : ℤ) (min_ratio : ℚ) (max_cost : ℤ)
    (hT : 0 ≤ total_len) (h0 : 0 ≤ min_ratio) (h1 : min_ratio ≤ 1) :
    effective_bound total_len min_ratio max_cost ≤ total_len := by
  rw [effective_bound]
  refine le_trans (min_le_right _ _) ?_
  have hT' : (0 : ℚ) ≤ (total_len : ℚ) := by exact_mod_cast hT
  have hq : (0 : ℚ) ≤ (total_len : ℚ) - (total_len : ℚ) * min_ratio := by
    nlinarith
  rw [pyInt, if_neg (not_lt.mpr hq), rat_floor_eq]
  have hle : ((total_len : ℚ) - (total_len : ℚ) * min_ratio) ≤ (total_len : ℚ) := by
    nlinarith
  calc ⌊(total_len : ℚ) - (total_len : ℚ) * min_ratio⌋
      ≤ ⌊(total_len : ℚ)⌋ := Int.floor_le_floor hle
    _ = total_len := Int.floor_intCast _

/-- The Myers-engine call made by `diff(a, b)` with default arguments
(default oracle `(a, b)`, default budgets, reconstruction buffer
allocated). -/
def default_engine_cost {α : Type} [DecidableEq α] (a b : List α) : ℤ :=
  (search_graph_recursive a.length b.length (pair_oracle a b)
    (some (List.replicate (a.length + b.length) (-1))) min_ratio_default
    (effective_bound ((a.length : ℤ) + (b.length : ℤ)) min_ratio_default
      max_cost_default)
    max_calls_default).1

/-! ## Claim C3 -/

/-- C3: `diff(a, b, ..., strict=True)` bounds the engine cost by
`min(max_cost, int(T - T*min_ratio))`; whenever the engine's returned
cost exceeds this bound the result is
`Diff(ratio=0, diffs=[Chunk(a, b, False)])` when reconstruction was
requested and `Diff(ratio=0, diffs=None)` when it was skipped. -/
theorem diff_strict_budget_exceeded {α : Type} [DecidableEq α]
    (a b : List α) (min_ratio : ℚ) (max_cost : ℤ) (rtn : Bool)
    (hT : ((a.length : ℤ) + (b.length : ℤ)) ≠ 0)
    (hc : effective_bound ((a.length : ℤ) + (b.length : ℤ)) min_ratio
        max_cost <
      (search_graph_recursive a.length b.length (pair_oracle a b)
        (if rtn then some (List.replicate (a.length + b.length) (-1)) else none)
        min_ratio_default
        (effective_bound ((a.length : ℤ) + (b.length : ℤ)) min_ratio max_cost)
        max_calls_default).1) :
    diff_full (δ := Unit) a b min_ratio_default min_ratio max_cost
      max_calls_default false rtn none true =
      some (if rtn then ⟨0, some [⟨a, b, ChunkEq.b false⟩]⟩ else ⟨0, none⟩) := by
  rw [diff_full]
  simp only [Bool.false_eq_true, if_false]
  rw [if_neg (by norm_num [min_ratio_default_eq] : ¬ (min_ratio_default ≤ (0:ℚ)))]
  rw [if_neg hT, if_pos ⟨by trivial, hc⟩]
  cases rtn <;> simp

/-- Witness for C3 at `a = [0, 1]`, `b = [1]` with default budgets:
the effective bound is `0`, the engine reports cost `1`, and `diff`
returns the zero-ratio single-chunk failure value. -/
theorem diff_strict_budget_exceeded_witness :
    diff_full (δ := Unit) [(0 : ℕ), 1] [1] min_ratio_default
      min_ratio_default max_cost_default max_calls_default false true none
      true = some ⟨0, some [⟨[0, 1], [1], ChunkEq.b false⟩]⟩ := by
  have h := diff_strict_budget_exceeded [(0 : ℕ), 1] [1] min_ratio_default
    max_cost_default true (by decide)
    (of_decide_eq_true (by with_unfolding_all rfl))
  simpa using h

/-- Bounds for the similarity ratio `(T - c)/T`. -/
lemma ratio_bounds_aux (c T : ℤ) (h0 : 0 ≤ c) (hub : c ≤ T) (hT : 0 < T) :
    0 ≤ ((T : ℤ) : ℚ) - ((c : ℤ) : ℚ) ∧
    (((T : ℤ) : ℚ) - ((c : ℤ) : ℚ)) / ((T : ℤ) : ℚ) ≤ 1 := by
  have hc' : ((c : ℤ) : ℚ) ≤ ((T : ℤ) : ℚ) := by exact_mod_cast hub
  have h0' : (0 : ℚ) ≤ ((c : ℤ) : ℚ) := by exact_mod_cast h0
  have hT' : (0 : ℚ) < ((T : ℤ) : ℚ) := by exact_mod_cast hT
  refine ⟨by linarith, ?_⟩
  rw [div_le_one hT']
  linarith

/-! ## Claim C1 -/

/-- C1 counterexample: for `a = [0,1]`, `b = [1]` (with the default
arguments, in particular `strict=True` and `min_ratio = 0.749`), the
engine reports cost `1`, which exceeds the effective bound `0`; `diff`
returns `ratio = 0`, while the claim's formula `(n+m-cost)/(n+m)` gives
`2/3 ≠ 0`.  The claimed equality therefore fails for `n+m > 0`. -/
theorem diff_ratio_formula_counterexample :
    diff [(0 : ℕ), 1] [1] = some ⟨0, some [⟨[0, 1], [1], ChunkEq.b false⟩]⟩ ∧
    default_engine_cost [(0 : ℕ), 1] [1] = 1 ∧
    ((0 : ℚ) ≠ (((3 : ℤ) : ℚ) - ((1 : ℤ) : ℚ)) / ((3 : ℤ) : ℚ)) := by
  refine ⟨by with_unfolding_all rfl, by with_unfolding_all rfl, by norm_num⟩

/-- C1 (amended): `diff(a, b)` with default arguments always returns a
`Diff` with `0 ≤ ratio ≤ 1`; for empty inputs it is
`Diff(ratio=1, diffs=[])`; and when `n+m > 0` **and the engine's
returned cost does not exceed the effective bound** the ratio equals
`(n+m-cost)/(n+m)` (when the cost exceeds the bound the strict path
returns `ratio = 0` instead). -/
theorem diff_ratio_bounds {α : Type} [DecidableEq α] (a b : List α) :
    ∃ d : PyDiff α Unit, diff a b = some d ∧ 0 ≤ d.ratio ∧ d.ratio ≤ 1 ∧
      ((a.length : ℤ) + (b.length : ℤ) = 0 → d = ⟨1, some []⟩) ∧
      ((a.length : ℤ) + (b.length : ℤ) ≠ 0 →
        default_engine_cost a b ≤
          effective_bound ((a.length : ℤ) + (b.length : ℤ)) min_ratio_default
            max_cost_default →
        d.ratio = ((((a.length : ℤ) + (b.length : ℤ)) : ℚ) -
          ((default_engine_cost a b : ℤ) : ℚ)) /
            (((a.length : ℤ) + (b.length : ℤ)) : ℚ)) := by
  rw [diff, diff_full]
  simp only [if_neg (by norm_num [min_ratio_default_eq] :
    ¬ (min_ratio_default ≤ (0 : ℚ))), Bool.false_eq_true, if_false, if_true]
  by_cases hT0 : ((a.length : ℤ) + (b.length : ℤ)) = 0
  · rw [if_pos hT0]
    exact ⟨⟨1, some []⟩, rfl, by norm_num, by norm_num, fun _ => rfl,
      fun h => absurd hT0 h⟩
  · rw [if_neg hT0]
    have hT1 : (0 : ℤ) < (a.length : ℤ) + (b.length : ℤ) := by
      rcases lt_or_eq_of_le (by positivity :
        (0 : ℤ) ≤ (a.length : ℤ) + (b.length : ℤ)) with h | h
      · exact h
      · exact absurd h.symm hT0
    by_cases hc : effective_bound ((a.length : ℤ) + (b.length : ℤ))
        min_ratio_default max_cost_default < default_engine_cost a b
    · rw [if_pos ⟨by trivial, hc⟩]
      refine ⟨⟨0, some [⟨a, b, ChunkEq.b false⟩]⟩, rfl, le_rfl, by norm_num,
        fun h => absurd h hT0, fun _ hle => absurd hc (not_lt.mpr hle)⟩
    · rw [if_neg (fun hand => hc hand.2)]
      have h0 : 0 ≤ default_engine_cost a b := by
        unfold default_engine_cost
        apply search_graph_recursive_fst_nonneg
        · exact Int.ofNat_nonneg _
        · exact Int.ofNat_nonneg _
      have hub : default_engine_cost a b ≤
          (a.length : ℤ) + (b.length : ℤ) :=
        le_trans (not_lt.mp hc)
          (effective_bound_le _ _ _ (le_of_lt hT1)
            (by norm_num [min_ratio_default_eq])
            (by norm_num [min_ratio_default_eq]))
      have hbounds := ratio_bounds_aux (default_engine_cost a b)
        ((a.length : ℤ) + (b.length : ℤ)) h0 hub hT1
      have hTq : (0 : ℚ) < ((((a.length : ℤ) + (b.length : ℤ)) : ℤ) : ℚ) := by
        exact_mod_cast hT1
      refine ⟨_, rfl, ?_, ?_, fun h => absurd h hT0,
        by intro h1 h2; unfold default_engine_cost; push_cast; rfl⟩
      · exact div_nonneg hbounds.1 (le_of_lt hTq)
      · exact hbounds.2

/-- Witness for C1 at `a = b = [0]`: the diff is a single equal chunk
with ratio `1`, the engine cost `0` meets the bound, and the formula
`(2-0)/2 = 1` holds. -/
theorem diff_ratio_bounds_witness :
    ∃ d : PyDiff ℕ Unit, diff [0] [0] = some d ∧ 0 ≤ d.ratio ∧
      d.ratio ≤ 1 ∧
      (((1 : ℕ) : ℤ) + ((1 : ℕ) : ℤ) = 0 → d = ⟨1, some []⟩) ∧
      (((1 : ℕ) : ℤ) + ((1 : ℕ) : ℤ) ≠ 0 →
        default_engine_cost [0] [0] ≤
          effective_bound (((1 : ℕ) : ℤ) + ((1 : ℕ) : ℤ)) min_ratio_default
            max_cost_default →
        d.ratio = (((((1 : ℕ) : ℤ) + ((1 : ℕ) : ℤ)) : ℚ) -
          ((default_engine_cost [0] [0] : ℤ) : ℚ)) /
            ((((1 : ℕ) : ℤ) + ((1 : ℕ) : ℤ)) : ℚ)) :=
  diff_ratio_bounds [0] [0]

/-! ## Claim C4 -/

/-- C4: `get_a`/`get_b` do reconstruct the originals by concatenation on
a nonempty chunk list, but the claim's explicit empty case fails in the
code: `diff("", "")` returns `Diff(ratio=1, diffs=[])`, and on it
`get_a()`/`get_b()` raise (`reduce` of an empty iterable without an
initial value), embedded as `none`, instead of returning the empty
sequence. -/
theorem get_a_empty_diff_raises :
    diff ([] : List ℕ) [] = some ⟨1, some []⟩ ∧
    get_a (⟨1, some []⟩ : PyDiff ℕ Unit) = none ∧
    get_b (⟨1, some []⟩ : PyDiff ℕ Unit) = none := by
  refine ⟨by with_unfolding_all rfl, rfl, rfl⟩

/-! ## Claim C6 -/

/-- Modelled from the claim's words: the similarity the claim asserts
for the 2D weighted fast path,
`ratio(i, j) = Σ_k w_k·[A[i,k] == B[j,k]] / Σ_k w_k`. -/
def claim_2d_formula {α : Type} [DecidableEq α] (a b : List (List α))
    (w : List ℚ) (i j : ℕ) : ℚ :=
  (List.zipWith (fun p wk => if p.1 = p.2 then wk else (0 : ℚ))
    ((a.getD i []).zip (b.getD j [])) w).sum / w.sum

/-- C6 counterexample: for `A = [[0,0]]`, `B = [[0,1]]`, `w = [3,1]`
the code divides by the trailing dimension (2), returning `3/2`, while
the claim's formula divides by `Σ w = 4`, giving `3/4`. -/
theorem oracle_2d_claim_counterexample :
    oracle_2d [[(0 : ℕ), 0]] [[0, 1]] (some [3, 1]) 2 0 0 = 3 / 2 ∧
    claim_2d_formula [[(0 : ℕ), 0]] [[0, 1]] [3, 1] 0 0 = 3 / 4 ∧
    oracle_2d [[(0 : ℕ), 0]] [[0, 1]] (some [3, 1]) 2 0 0 ≠
      claim_2d_formula [[(0 : ℕ), 0]] [[0, 1]] [3, 1] 0 0 := by
  refine ⟨by with_unfolding_all rfl, by with_unfolding_all rfl,
    of_decide_eq_true (by with_unfolding_all rfl)⟩

/-- C6 (amended): the 2D weighted fast path returns
`Σ_k w_k·[A[i,k] == B[j,k]] / K` where `K` is the trailing dimension;
when no weights are supplied, uniform weights `1` are used, and then
(or whenever `Σ w = K`) the result coincides with the claim's
`Σ_k w_k·[..] / Σ_k w_k`. -/
theorem oracle_2d_weighted {α : Type} [DecidableEq α]
    (a b : List (List α)) (K : ℕ) (i j : ℤ) :
    oracle_2d a b none K i j =
      claim_2d_formula a b (List.replicate K 1) i.toNat j.toNat ∧
    (∀ w : List ℚ, w.sum = K →
      oracle_2d a b (some w) K i j = claim_2d_formula a b w i.toNat j.toNat) := by
  constructor
  · simp [oracle_2d, claim_2d_formula, List.sum_replicate, nsmul_eq_mul]
  · intro w hw
    simp [oracle_2d, claim_2d_formula, hw]

/-- Witness for C6 at concrete matrices, both for default weights and
explicit weights summing to the trailing dimension. -/
theorem oracle_2d_weighted_witness :
    oracle_2d [[(0 : ℕ), 1]] [[0, 1]] none 2 0 0 =
      claim_2d_formula [[(0 : ℕ), 1]] [[0, 1]] (List.replicate 2 1) 0 0 ∧
    oracle_2d [[(0 : ℕ), 1]] [[0, 1]] (some [3 / 2, 1 / 2]) 2 0 0 =
      claim_2d_formula [[(0 : ℕ), 1]] [[0, 1]] [3 / 2, 1 / 2] 0 0 :=
  ⟨(oracle_2d_weighted [[(0 : ℕ), 1]] [[0, 1]] 2 0 0).1,
    (oracle_2d_weighted [[(0 : ℕ), 1]] [[0, 1]] 2 0 0).2 [3 / 2, 1 / 2]
      (by norm_num)⟩

/-! ## Claim C8 -/

/-- C8 counterexample (the shape of the repository's own
`test_important`): a diff that begins with an equal chunk of one pair
followed by a disaligned chunk, iterated with `context_size = 0`,
yields the integer skip marker `1` as its very first element. -/
theorem iter_important_leading_skip_counterexample :
    iter_important
      (⟨0, some [⟨[0], [0], ChunkEq.b true⟩, ⟨[1], [2], ChunkEq.b false⟩]⟩ :
        PyDiff ℕ Unit) 0 =
      some [ImpOut.skip 1,
        ImpOut.item ⟨some 1, none, some 1, none, none⟩,
        ImpOut.item ⟨none, some 2, none, some 1, none⟩] := rfl

/-- C8 (amended): an integer skip marker can open the stream, but only
out of leading equal context: whenever the diff's first chunk is an
*important* one — disaligned (with at least one element on either
side) or aligned-with-nested-eq (nonempty) — the very first yielded
element is an `Item`, not an integer. -/
theorem iter_important_first_not_skip {α δ : Type} (d : PyDiff α δ)
    (ctx : ℕ) (c : Chunk α δ) (rest : List (Chunk α δ))
    (hd : d.diffs = some (c :: rest))
    (h : (c.eq = ChunkEq.b false ∧ (c.data_a ≠ [] ∨ c.data_b ≠ [])) ∨
      (∃ es, c.eq = ChunkEq.list es ∧ c.data_a ≠ [] ∧ c.data_b ≠ [] ∧
        es ≠ [])) :
    ∃ (l : List (ImpOut α δ)) (it : Item α δ),
      iter_important d ctx = some l ∧ l.head? = some (ImpOut.item it) := by
  rw [iter_important, hd, Option.map_some']
  rcases h with ⟨heq, hne⟩ | ⟨es, heq, ha, hb, hes⟩
  · cases c with
    | mk da db eq =>
      cases heq
      cases da with
      | nil =>
        cases db with
        | nil => exact absurd (Or.resolve_left hne (fun h' => h' rfl)) (by simp)
        | cons y ys =>
          exact ⟨_, ⟨none, some y, none, some 0, none⟩, rfl, rfl⟩
      | cons x xs =>
        exact ⟨_, ⟨some x, none, some 0, none, none⟩, rfl, rfl⟩
  · cases c with
    | mk da db eq =>
      cases heq
      cases da with
      | nil => exact absurd rfl ha
      | cons x xs =>
        cases db with
        | nil => exact absurd rfl hb
        | cons y ys =>
          cases es with
          | nil => exact absurd rfl hes
          | cons e es' =>
            exact ⟨_, ⟨some x, some y, some 0, some 0, some e⟩, rfl, rfl⟩

/-- Witness for C8 at a diff whose first chunk is disaligned: the first
yielded element is an item. -/
theorem iter_important_first_not_skip_witness :
    ∃ (l : List (ImpOut ℕ Unit)) (it : Item ℕ Unit),
      iter_important (⟨0, some [⟨[5], [], ChunkEq.b false⟩]⟩ :
        PyDiff ℕ Unit) 0 = some l ∧ l.head? = some (ImpOut.item it) :=
  iter_important_first_not_skip _ 0 ⟨[5], [], ChunkEq.b false⟩ [] rfl
    (Or.inl ⟨rfl, Or.inl (by simp)⟩)

/-! ## Claim C9: chunk kinds strictly alternate

Supporting lemmas: `groupByKey` soundness, the engine only writes code
values `0..3` into the buffer, and `canonize` only writes `1`/`2`. -/

/-- Runs produced by `groupByKey` are nonempty and uniform in their
key. -/
lemma groupByKey_sound {β κ : Type} [DecidableEq κ] (key : β → κ) :
    ∀ (l : List β), ∀ p ∈ groupByKey key l,
      p.2 ≠ [] ∧ ∀ x ∈ p.2, key x = p.1 := by
  intro l
  induction l with
  | nil => intro p hp; cases hp
  | cons x xs ih =>
    intro p hp
    rw [groupByKey] at hp
    rcases hg : groupByKey key xs with _ | ⟨⟨k, run⟩, rest⟩
    · simp only [hg, List.mem_singleton] at hp
      subst hp
      refine ⟨by simp, ?_⟩
      intro y hy
      rw [List.mem_singleton] at hy
      subst hy; rfl
    · simp only [hg] at hp
      by_cases hk : key x = k
      · rw [if_pos hk] at hp
        rcases List.mem_cons.mp hp with hp' | hp'
        · subst hp'
          have hbase := ih ⟨k, run⟩ (by rw [hg]; exact List.mem_cons_self _ _)
          refine ⟨by simp, ?_⟩
          intro y hy
          rcases List.mem_cons.mp hy with hy' | hy'
          · subst hy'; exact hk
          · exact hbase.2 y hy'
        · exact ih p (by rw [hg]; exact List.mem_cons_of_mem _ hp')
      · rw [if_neg hk] at hp
        rcases List.mem_cons.mp hp with hp' | hp'
        · subst hp'
          refine ⟨by simp, ?_⟩
          intro y hy
          rw [List.mem_singleton] at hy
          subst hy; rfl
        · exact ih p (by rw [hg]; exact hp')

/-- Adjacent runs produced by `groupByKey` carry distinct keys. -/
lemma groupByKey_chain {β κ : Type} [DecidableEq κ] (key : β → κ) :
    ∀ (l : List β), (groupByKey key l).Chain' (fun p q => p.1 ≠ q.1) := by
  intro l
  induction l with
  | nil => exact List.chain'_nil
  | cons x xs ih =>
    rw [groupByKey]
    rcases hg : groupByKey key xs with _ | ⟨⟨k, run⟩, rest⟩
    · exact List.chain'_singleton _
    · rw [hg] at ih
      simp only [hg]
      by_cases hk : key x = k
      · rw [if_pos hk]
        exact (List.chain'_cons'.mpr
          ⟨fun q hq => (List.chain'_cons'.mp ih).1 q hq,
            (List.chain'_cons'.mp ih).2⟩)
      · rw [if_neg hk]
        exact List.chain'_cons.mpr ⟨hk, ih⟩

/-- Code-buffer cell invariant: each cell is still the initial filler
`-1` or a genuine edit code `0..3`. -/
def cells_ok (o : Option (List ℤ)) : Prop :=
  ∀ l ∈ o, ∀ c ∈ l, c = -1 ∨ (0 ≤ c ∧ c ≤ 3)

lemma cells_ok_none : cells_ok none := by
  intro l hl; cases hl

lemma mem_pySet (l : List ℤ) (i v : ℤ) :
    ∀ c ∈ pySet l i v, c ∈ l ∨ c = v := by
  intro c hc
  rw [pySet] at hc
  split at hc <;> exact List.mem_or_eq_of_mem_set hc

lemma cells_ok_outWrite (o : Option (List ℤ)) (ix v : ℤ)
    (hv : 0 ≤ v ∧ v ≤ 3) (h : cells_ok o) : cells_ok (outWrite o ix v) := by
  intro l hl c hc
  rcases o with _ | l0
  · cases hl
  · rw [outWrite, Option.map_some'] at hl
    cases hl
    rcases mem_pySet l0 ix v c hc with h' | h'
    · exact h l0 rfl c h'
    · exact Or.inr (h' ▸ hv)

lemma cells_ok_outWriteRun (lo : ℤ) (v : ℤ) (hv : 0 ≤ v ∧ v ≤ 3) :
    ∀ (len : ℕ) (o : Option (List ℤ)), cells_ok o →
      cells_ok (outWriteRun o lo len v) := by
  intro len
  induction len generalizing lo with
  | zero => intro o h; exact h
  | succ len ih =>
    intro o h
    rw [outWriteRun]
    exact ih (lo + 1) _ (cells_ok_outWrite o lo v hv h)

lemma cells_ok_write_trivial (o : Option (List ℤ)) (n m i j : ℤ)
    (h : cells_ok o) : cells_ok (write_trivial o n m i j) :=
  cells_ok_outWriteRun _ 2 (by norm_num) _ _
    (cells_ok_outWriteRun _ 1 (by norm_num) _ _ h)

lemma cells_ok_strip_forward (sim : ℤ → ℤ → ℚ) (accept : ℚ) :
    ∀ (fuel : ℕ) (st : StripSt), cells_ok st.out →
      cells_ok (strip_forward sim accept fuel st).out := by
  intro fuel
  induction fuel with
  | zero => intro st h; exact h
  | succ fuel ih =>
    intro st h
    rw [strip_forward]
    split
    · exact ih _ (cells_ok_outWrite _ _ 0 (by norm_num)
        (cells_ok_outWrite _ _ 3 (by norm_num) h))
    · exact h

lemma cells_ok_strip_reverse (sim : ℤ → ℤ → ℚ) (accept : ℚ) :
    ∀ (fuel : ℕ) (st : StripSt), cells_ok st.out →
      cells_ok (strip_reverse sim accept fuel st).out := by
  intro fuel
  induction fuel with
  | zero => intro st h; exact h
  | succ fuel ih =>
    intro st h
    rw [strip_reverse]
    split
    · exact ih _ (cells_ok_outWrite _ _ 0 (by norm_num)
        (cells_ok_outWrite _ _ 3 (by norm_num) h))
    · exact h

lemma cells_ok_snake (i j : ℤ) (idx : List ℤ) :
    ∀ (o : Option (List ℤ)), cells_ok o →
      cells_ok (idx.foldl
        (fun o' ix2 => outWrite (outWrite o' (i + j + ix2) 3)
          (i + j + ix2 + 1) 0) o) := by
  induction idx with
  | nil => intro o h; exact h
  | cons ix2 rest ih =>
    intro o h
    exact ih _ (cells_ok_outWrite _ _ 0 (by norm_num)
      (cells_ok_outWrite _ _ 3 (by norm_num) h))

lemma cells_ok_fireWrites (search : SearchArgs → ℤ × Option (List ℤ))
    (hsearch : ∀ a' : SearchArgs, cells_ok a'.out →
      cells_ok (search a').2)
    (isRev : Bool) (accept : ℚ) (n m i j cost : ℤ) (f : Phase1Fire)
    (out : Option (List ℤ)) (h : cells_ok out) :
    cells_ok (fireWrites search isRev accept n m i j cost f out) := by
  rw [fireWrites]
  apply hsearch
  apply hsearch
  exact cells_ok_snake i j _ out h

lemma cells_ok_round_step (search : SearchArgs → ℤ × Option (List ℤ))
    (hsearch : ∀ a' : SearchArgs, cells_ok a'.out →
      cells_ok (search a').2)
    (sim : ℤ → ℤ → ℚ) (accept : ℚ) (n m i j nm n_m max_calls : ℤ)
    (out : Option (List ℤ)) (cost : ℤ) (ff fr : List ℤ) (nc : ℤ)
    (res : ℤ × Option (List ℤ)) (h : cells_ok out)
    (hres : round_step search sim accept n m i j nm n_m max_calls out cost
      ff fr nc = Sum.inl res) : cells_ok res.2 := by
  rw [round_step] at hres
  split at hres
  · cases hres
    by_cases ho : out ≠ none
    · simpa [ho] using
        cells_ok_fireWrites search hsearch _ accept n m i j cost _ out h
    · simpa [ho] using h
  · rcases ite_eq_iff.mp hres with ⟨_, h'⟩ | ⟨_, h'⟩
    · cases h'
      exact cells_ok_write_trivial out n m i j h
    · exact absurd h' (by simp)

lemma cells_ok_rounds (search : SearchArgs → ℤ × Option (List ℤ))
    (hsearch : ∀ a' : SearchArgs, cells_ok a'.out →
      cells_ok (search a').2)
    (sim : ℤ → ℤ → ℚ) (accept : ℚ) (n m i j nm n_m max_calls : ℤ)
    (out : Option (List ℤ)) (h : cells_ok out) :
    ∀ (rfuel : ℕ) (cost : ℤ) (ff fr : List ℤ) (nc : ℤ),
      cells_ok (rounds search sim accept n m i j nm n_m max_calls out rfuel
        cost ff fr nc).2 := by
  intro rfuel
  induction rfuel with
  | zero =>
    intro cost ff fr nc
    exact cells_ok_write_trivial out n m i j h
  | succ rfuel ih =>
    intro cost ff fr nc
    rw [rounds]
    cases hstep : round_step search sim accept n m i j nm n_m max_calls out
        cost ff fr nc with
    | inl res =>
      simp only []
      exact cells_ok_round_step search hsearch sim accept n m i j nm n_m
        max_calls out cost ff fr nc res h hstep
    | inr s =>
      simp only []
      exact ih (cost + 1) s.1 s.2.1 s.2.2

/-- The engine only writes the code values `0..3` into the buffer. -/
lemma cells_ok_search_fuel (sim : ℤ → ℤ → ℚ) :
    ∀ (fuel : ℕ) (a : SearchArgs), cells_ok a.out →
      cells_ok (search_fuel sim fuel a).2 := by
  intro fuel
  induction fuel with
  | zero => intro a h; exact h
  | succ fuel ih =>
    intro a h
    rw [search_fuel]
    have h1 : cells_ok (strip_reverse sim a.accept
        ((strip_forward sim a.accept (a.n.toNat + 1)
          ⟨a.n, a.m, a.i, a.j, a.out, 2⟩).n.toNat + 1)
        (strip_forward sim a.accept (a.n.toNat + 1)
          ⟨a.n, a.m, a.i, a.j, a.out, 2⟩)).out :=
      cells_ok_strip_reverse sim a.accept _ _
        (cells_ok_strip_forward sim a.accept _ _ h)
    split
    · exact cells_ok_write_trivial _ _ _ _ _ h1
    · exact cells_ok_rounds _ (fun a' h' => ih a' h') sim a.accept _ _ _ _ _ _
        _ _ h1 _ 0 _ _ _

/-- `canonize` only writes `1`s and `2`s; all other output cells come
from the input. -/
lemma canonize_go_mem (P : ℤ → Prop) (h1 : P 1) (h2 : P 2) :
    ∀ (codes : List ℤ) (h v : ℕ), (∀ c ∈ codes, P c) →
      ∀ c' ∈ canonize_go codes h v, P c' := by
  intro codes
  induction codes with
  | nil =>
    intro h v _ c' hc'
    rw [canonize_go] at hc'
    rcases List.mem_append.mp hc' with h' | h'
    · exact (List.eq_of_mem_replicate h') ▸ h1
    · exact (List.eq_of_mem_replicate h') ▸ h2
  | cons c rest ih =>
    intro h v H c' hc'
    rw [canonize_go] at hc'
    split_ifs at hc' with hm1 hm2
    · exact ih _ _ (fun x hx => H x (List.mem_cons_of_mem _ hx)) c' hc'
    · exact ih _ _ (fun x hx => H x (List.mem_cons_of_mem _ hx)) c' hc'
    · rcases List.mem_append.mp hc' with h' | h'
      · rcases List.mem_append.mp h' with h'' | h''
        · exact (List.eq_of_mem_replicate h'') ▸ h1
        · exact (List.eq_of_mem_replicate h'') ▸ h2
      · rcases List.mem_cons.mp h' with h3 | h3
        · exact h3 ▸ H c (List.mem_cons_self _ _)
        · exact ih _ _ (fun x hx => H x (List.mem_cons_of_mem _ hx)) c' h3

/-- The kind of a chunk: `0` for aligned (`eq=True`), `1` for
disaligned (`eq=False`), `2` for aligned-with-nested-diffs
(`eq` a list). -/
def chunk_kind {δ : Type} : ChunkEq δ → ℕ
  | .b true => 0
  | .b false => 1
  | .list _ => 2

/-- `groupByKey` returns an empty grouping only on an empty input. -/
lemma groupByKey_ne_nil {β κ : Type} [DecidableEq κ] (key : β → κ)
    (x : β) (xs : List β) : groupByKey key (x :: xs) ≠ [] := by
  rw [groupByKey]
  rcases hg : groupByKey key xs with _ | ⟨⟨k, run⟩, rest⟩
  · simp
  · by_cases hk : key x = k <;> simp [hk]

/-- The inner `dig` loop yields one chunk per `is True`-group, none of
them disaligned, with kinds alternating between aligned (`True` key)
and nested (non-`True` key). -/
lemma dig_chunks_spec {α δ : Type} (a b : List α) :
    ∀ (gs : List (Bool × List (EqEntry δ))) (offA offB : ℤ),
      gs.Chain' (fun p q => p.1 ≠ q.1) →
      ((dig_chunks a b gs offA offB).1.Chain'
          (fun c1 c2 => chunk_kind c1.eq ≠ chunk_kind c2.eq)) ∧
        (∀ c ∈ (dig_chunks a b gs offA offB).1,
          chunk_kind c.eq = 0 ∨ chunk_kind c.eq = 2) ∧
        (∀ y ∈ (dig_chunks a b gs offA offB).1.head?, ∀ p ∈ gs.head?,
          chunk_kind y.eq = if p.1 = true then 0 else 2) ∧
        ((dig_chunks a b gs offA offB).1 = [] ↔ gs = []) := by
  intro gs
  induction gs with
  | nil =>
    intro offA offB _
    exact ⟨List.chain'_nil, by simp [dig_chunks], by simp [dig_chunks],
      by simp [dig_chunks]⟩
  | cons g rest ih =>
    intro offA offB hchain
    rcases g with ⟨key, es⟩
    have ihrest := ih (offA + es.length) (offB + es.length)
      (List.chain'_cons'.mp hchain).2
    rw [dig_chunks]
    simp only []
    have hkind : chunk_kind (δ := δ)
        (if key then ChunkEq.b true else ChunkEq.list es) =
        if key = true then 0 else 2 := by
      cases key <;> simp [chunk_kind]
    refine ⟨?_, ?_, ?_, by simp⟩
    · refine List.chain'_cons'.mpr ⟨?_, ihrest.1⟩
      intro y hy
      cases rest with
      | nil =>
        rw [ihrest.2.2.2.mpr rfl] at hy
        cases hy
      | cons q rest' =>
        have hq := ihrest.2.2.1 y hy q rfl
        have hne := (List.chain'_cons'.mp hchain).1 q rfl
        rw [hkind, hq]
        cases key <;> rcases hqq : q.1 <;> simp_all
    · intro c hc
      rcases List.mem_cons.mp hc with hc' | hc'
      · subst hc'
        simp only [hkind]
        cases key <;> simp
      · exact ihrest.2.1 c hc'
    · intro y hy p hp
      simp only [List.head?_cons, Option.mem_def, Option.some.injEq] at hy hp
      subst hy; subst hp
      exact hkind

/-- A nonzero code in `{-1} ∪ [0, 3]` with `code % 3 == 0` is the
diagonal code `3`. -/
lemma code_eq_three (c : ℤ) (h3 : c.emod 3 = 0) (h0 : c ≠ 0)
    (hP : c = -1 ∨ (0 ≤ c ∧ c ≤ 3)) : c = 3 := by
  have h3' : c % 3 = 0 := h3
  omega

lemma codes_to_chunks_go_nil {α δ : Type} (a b : List α)
    (dig : Option (ℤ → ℤ → EqEntry δ)) (offA offB : ℤ) :
    codes_to_chunks_go a b dig [] offA offB = [] := rfl

lemma codes_to_chunks_go_cons_fallback {α δ : Type} (a b : List α)
    (dig : Option (ℤ → ℤ → EqEntry δ)) (offA offB : ℤ) (neq : Bool)
    (run : List ℤ) (rest : List (Bool × List ℤ))
    (hfall : dig = none ∨ neq = true) :
    codes_to_chunks_go a b dig ((neq, run) :: rest) offA offB =
      Chunk.mk (pySlice a offA (offA + (run.map (fun c => c.emod 2)).sum))
        (pySlice b offB (offB + (run.map (fun c => c.fdiv 2)).sum))
        (.b !neq) ::
      codes_to_chunks_go a b dig rest
        (offA + (run.map (fun c => c.emod 2)).sum)
        (offB + (run.map (fun c => c.fdiv 2)).sum) := by
  rcases hfall with h | h
  · subst h; cases neq <;> rfl
  · subst h; cases dig <;> rfl

lemma codes_to_chunks_go_cons_dig {α δ : Type} (a b : List α)
    (digf : ℤ → ℤ → EqEntry δ) (offA offB : ℤ)
    (run : List ℤ) (rest : List (Bool × List ℤ)) :
    codes_to_chunks_go a b (some digf) ((false, run) :: rest) offA offB =
      (dig_chunks a b (groupByKey entry_is_true
        ((List.range ((min (offA + (run.map (fun c => c.emod 2)).sum - offA)
          (offB + (run.map (fun c => c.fdiv 2)).sum - offB)).toNat)).map
          (fun k : ℕ => digf (offA + (k : ℤ)) (offB + (k : ℤ))))) offA offB).1 ++
      codes_to_chunks_go a b (some digf) rest
        (dig_chunks a b (groupByKey entry_is_true
          ((List.range ((min (offA + (run.map (fun c => c.emod 2)).sum - offA)
            (offB + (run.map (fun c => c.fdiv 2)).sum - offB)).toNat)).map
            (fun k : ℕ => digf (offA + (k : ℤ)) (offB + (k : ℤ))))) offA offB).2.1
        (dig_chunks a b (groupByKey entry_is_true
          ((List.range ((min (offA + (run.map (fun c => c.emod 2)).sum - offA)
            (offB + (run.map (fun c => c.fdiv 2)).sum - offB)).toNat)).map
            (fun k : ℕ => digf (offA + (k : ℤ)) (offB + (k : ℤ))))) offA offB).2.2 := rfl

/-- Offset advance over a run of diagonal codes: both the `% 2` sum and
the `// 2` sum equal the run length. -/
lemma sum_of_threes : ∀ (run : List ℤ), (∀ c ∈ run, c = 3) →
    (run.map (fun c => c.emod 2)).sum = (run.length : ℤ) ∧
    (run.map (fun c => c.fdiv 2)).sum = (run.length : ℤ) := by
  intro run
  induction run with
  | nil => intro _; simp
  | cons c rest ih =>
    intro h
    have hc := h c (List.mem_cons_self _ _)
    have ihr := ih (fun x hx => h x (List.mem_cons_of_mem _ hx))
    subst hc
    simp only [List.map_cons, List.sum_cons, List.length_cons]
    constructor
    · rw [ihr.1]; push_cast; ring_nf
    · rw [ihr.2]; push_cast; ring_nf

/-- The chunk stream built from alternating code groups has strictly
alternating chunk kinds; the head chunk is disaligned exactly when the
head group is a non-diagonal group. -/
lemma codes_to_chunks_go_spec {α δ : Type} (a b : List α)
    (dig : Option (ℤ → ℤ → EqEntry δ)) :
    ∀ (gs : List (Bool × List ℤ)) (offA offB : ℤ),
      gs.Chain' (fun p q => p.1 ≠ q.1) →
      (∀ p ∈ gs, p.2 ≠ [] ∧ ∀ c ∈ p.2, code_neq c = p.1 ∧ c ≠ 0 ∧
        (c = -1 ∨ (0 ≤ c ∧ c ≤ 3))) →
      (codes_to_chunks_go a b dig gs offA offB).Chain'
          (fun c1 c2 => chunk_kind c1.eq ≠ chunk_kind c2.eq) ∧
        (∀ y ∈ (codes_to_chunks_go a b dig gs offA offB).head?,
          ∀ p ∈ gs.head?, (chunk_kind y.eq = 1 ↔ p.1 = true)) := by
  intro gs
  induction gs with
  | nil =>
    intro offA offB _ _
    rw [codes_to_chunks_go_nil]
    exact ⟨List.chain'_nil, by simp⟩
  | cons g rest ih =>
    intro offA offB hchain hfacts
    rcases g with ⟨neq, run⟩
    have hrun := hfacts ⟨neq, run⟩ (List.mem_cons_self _ _)
    have hfr : ∀ p ∈ rest, p.2 ≠ [] ∧ ∀ c ∈ p.2, code_neq c = p.1 ∧ c ≠ 0 ∧
        (c = -1 ∨ (0 ≤ c ∧ c ≤ 3)) :=
      fun p hp => hfacts p (List.mem_cons_of_mem _ hp)
    have hcr : rest.Chain' (fun p q => p.1 ≠ q.1) :=
      (List.chain'_cons'.mp hchain).2
    have hkeyne := (List.chain'_cons'.mp hchain).1
    by_cases hfall : dig = none ∨ neq = true
    · rw [codes_to_chunks_go_cons_fallback a b dig offA offB neq run rest hfall]
      have ihr := ih (offA + (run.map (fun c => c.emod 2)).sum)
        (offB + (run.map (fun c => c.fdiv 2)).sum) hcr hfr
      refine ⟨List.chain'_cons'.mpr ⟨?_, ihr.1⟩, ?_⟩
      · intro y hy
        cases rest with
        | nil => rw [codes_to_chunks_go_nil] at hy; cases hy
        | cons q rest' =>
          have hq' : chunk_kind y.eq = 1 ↔ q.1 = true := ihr.2 y hy q rfl
          have hne' : neq ≠ q.1 := hkeyne q rfl
          rcases Bool.eq_false_or_eq_true neq with hn | hn
          · have hq0 : q.1 = false := by
              rcases Bool.eq_false_or_eq_true q.1 with hqv | hqv
              · rw [hn, hqv] at hne'; exact absurd rfl hne'
              · exact hqv
            have hky : chunk_kind y.eq ≠ 1 := by
              intro hcon
              rw [hq0] at hq'
              exact absurd (hq'.mp hcon) (by simp)
            rw [hn]
            intro hcon
            apply hky
            rw [← hcon]
            simp [chunk_kind]
          · have hq1 : q.1 = true := by
              rcases Bool.eq_false_or_eq_true q.1 with hqv | hqv
              · exact hqv
              · rw [hn, hqv] at hne'; exact absurd rfl hne'
            have hky : chunk_kind y.eq = 1 := hq'.mpr hq1
            rw [hn]
            intro hcon
            rw [hky] at hcon
            simp [chunk_kind] at hcon
      · intro y hy p hp
        simp only [List.head?_cons, Option.mem_def, Option.some.injEq] at hy hp
        subst hy; subst hp
        rcases Bool.eq_false_or_eq_true neq with hn | hn <;> rw [hn]
        · constructor
          · intro _; rfl
          · intro _; simp [chunk_kind]
        · constructor
          · intro h; simp [chunk_kind] at h
          · intro h; exact absurd h (by simp)
    · push_neg at hfall
      rcases dig with _ | digf
      · exact absurd rfl hfall.1
      cases neq with
      | true => exact absurd rfl hfall.2
      | false =>
      rw [codes_to_chunks_go_cons_dig a b digf offA offB run rest]
      -- every code of this group is the diagonal code 3
      have hall3 : ∀ c ∈ run, c = 3 := by
        intro c hc
        have h1 := (hrun.2 c hc).1
        have h2 := (hrun.2 c hc).2
        have h3 : c.emod 3 = 0 := by
          by_contra hcon
          simp [code_neq, hcon] at h1
        exact code_eq_three c h3 h2.1 h2.2
      have hsums := sum_of_threes run hall3
      have hlen : (min (offA + (run.map (fun c => c.emod 2)).sum - offA)
          (offB + (run.map (fun c => c.fdiv 2)).sum - offB)).toNat =
          run.length := by
        rw [show offA + (run.map (fun c => c.emod 2)).sum - offA =
          (run.map (fun c => c.emod 2)).sum by ring,
          show offB + (run.map (fun c => c.fdiv 2)).sum - offB =
          (run.map (fun c => c.fdiv 2)).sum by ring, hsums.1, hsums.2]
        simp
      have hrunne : run ≠ [] := hrun.1
      have hlenpos : 0 < run.length := List.length_pos.mpr hrunne
      set entries := (List.range ((min (offA + (run.map
          (fun c => c.emod 2)).sum - offA) (offB + (run.map
          (fun c => c.fdiv 2)).sum - offB)).toNat)).map
          (fun k : ℕ => digf (offA + (k : ℤ)) (offB + (k : ℤ))) with hent
      have hentne : entries ≠ [] := by
        have hlen' : entries.length = run.length := by
          rw [hent, List.length_map, List.length_range, hlen]
        intro hcon
        rw [hcon] at hlen'
        simp only [List.length_nil] at hlen'
        omega
      set groups := groupByKey entry_is_true entries with hgroups
      have hgne : groups ≠ [] := by
        rcases hentl : entries with _ | ⟨e, es⟩
        · exact absurd hentl hentne
        · rw [hgroups, hentl]
          exact groupByKey_ne_nil _ _ _
      have hd := dig_chunks_spec a b groups offA offB
        (hgroups ▸ groupByKey_chain entry_is_true entries)
      have hblockne : (dig_chunks a b groups offA offB).1 ≠ [] := by
        intro hcon
        exact hgne (hd.2.2.2.mp hcon)
      have ihr := ih (dig_chunks a b groups offA offB).2.1
        (dig_chunks a b groups offA offB).2.2 hcr hfr
      constructor
      · rw [List.chain'_append]
        refine ⟨hd.1, ihr.1, ?_⟩
        intro x hx y hy
        have hxmem : x ∈ (dig_chunks a b groups offA offB).1 :=
          List.mem_of_mem_getLast? hx
        have hxk := hd.2.1 x hxmem
        cases rest with
        | nil => rw [codes_to_chunks_go_nil] at hy; cases hy
        | cons q rest' =>
          have hyk := ihr.2 y hy q rfl
          have hne : (false : Bool) ≠ q.1 := hkeyne q rfl
          rcases hqq : q.1
          · exact absurd hqq.symm hne
          · rw [hqq] at hyk
            have h1 : chunk_kind y.eq = 1 := hyk.mpr rfl
            omega
      · intro y hy p hp
        simp only [List.head?_cons, Option.mem_def, Option.some.injEq] at hp
        subst hp
        rcases List.exists_cons_of_ne_nil hblockne with ⟨z, zs, hz⟩
        rw [hz, List.cons_append, List.head?_cons,
          Option.mem_def, Option.some.injEq] at hy
        subst hy
        have hzk := hd.2.1 z (by rw [hz]; exact List.mem_cons_self _ _)
        constructor
        · intro h1; exact absurd h1 (by omega)
        · intro h1; exact absurd h1 (by simp)

/-- Run members of `groupByKey` are members of the original list. -/
lemma groupByKey_mem {β κ : Type} [DecidableEq κ] (key : β → κ) :
    ∀ (l : List β), ∀ p ∈ groupByKey key l, ∀ x ∈ p.2, x ∈ l := by
  intro l
  induction l with
  | nil => intro p hp; cases hp
  | cons z zs ih =>
    intro p hp x hx
    rw [groupByKey] at hp
    rcases hg : groupByKey key zs with _ | ⟨⟨k, run⟩, rest⟩
    · simp only [hg, List.mem_singleton] at hp
      subst hp
      rw [List.mem_singleton] at hx
      subst hx
      exact List.mem_cons_self _ _
    · simp only [hg] at hp
      by_cases hk : key z = k
      · rw [if_pos hk] at hp
        rcases List.mem_cons.mp hp with hp' | hp'
        · subst hp'
          rcases List.mem_cons.mp hx with hx' | hx'
          · subst hx'; exact List.mem_cons_self _ _
          · exact List.mem_cons_of_mem _
              (ih ⟨k, run⟩ (by rw [hg]; exact List.mem_cons_self _ _) x hx')
        · exact List.mem_cons_of_mem _
            (ih p (by rw [hg]; exact List.mem_cons_of_mem _ hp') x hx)
      · rw [if_neg hk] at hp
        rcases List.mem_cons.mp hp with hp' | hp'
        · subst hp'
          rw [List.mem_singleton] at hx
          subst hx
          exact List.mem_cons_self _ _
        · exact List.mem_cons_of_mem _ (ih p (by rw [hg]; exact hp') x hx)

/-- C9: in every `Diff` returned by sequence `diff` with a
reconstruction (`rtn_diff=True`), adjacent chunks never share a kind:
equal (`eq=True`), disaligned (`eq=False`) and nested (`eq` a list)
chunks strictly alternate. -/
theorem diff_chunks_kinds_alternate {α δ : Type} [DecidableEq α]
    (a b : List α) (accept min_ratio : ℚ) (max_cost max_calls : ℤ)
    (eq_only strict : Bool) (dig : Option (ℤ → ℤ → EqEntry δ))
    (d : PyDiff α δ) (l : List (Chunk α δ))
    (h : diff_full a b accept min_ratio max_cost max_calls eq_only true dig
      strict = some d)
    (hl : d.diffs = some l) :
    l.Chain' (fun c1 c2 => chunk_kind c1.eq ≠ chunk_kind c2.eq) := by
  rw [diff_full] at h
  by_cases hacc : accept ≤ 0
  · rw [if_pos hacc] at h
    exact absurd h (by simp)
  rw [if_neg hacc] at h
  by_cases hT : ((a.length : ℤ) + (b.length : ℤ)) = 0
  · rw [if_pos hT] at h
    cases Option.some.inj h
    rw [Option.some.injEq] at hl
    rw [← hl]
    exact List.chain'_nil
  rw [if_neg hT] at h
  cases eq_only with
  | true =>
    simp only [if_true, Bool.false_eq_true, if_false] at h
    split at h
    · cases Option.some.inj h
      cases hl
    · cases Option.some.inj h
      cases hl
  | false =>
    simp only [Bool.false_eq_true, if_false, if_true] at h
    split at h
    · cases Option.some.inj h
      rw [Option.some.injEq] at hl
      rw [← hl]
      exact List.chain'_singleton _
    · cases Option.some.inj h
      rw [Option.some.injEq] at hl
      subst hl
      rw [codes_to_chunks]
      -- buffer cells are fillers or codes 0..3
      have hinit : cells_ok
          (some (List.replicate (a.length + b.length) (-1))) := by
        intro l0 hl0 c hc
        cases hl0
        exact Or.inl (List.eq_of_mem_replicate hc)
      have hres := cells_ok_search_fuel (pair_oracle a b)
        ((a.length : ℤ) + (b.length : ℤ) + 1).toNat
        ⟨a.length, b.length, some (List.replicate (a.length + b.length) (-1)),
          accept,
          effective_bound ((a.length : ℤ) + (b.length : ℤ)) min_ratio max_cost,
          max_calls, 0, 0⟩ hinit
      have hcells : ∀ c ∈ (search_graph_recursive (a.length) (b.length)
          (pair_oracle a b)
          (some (List.replicate (a.length + b.length) (-1))) accept
          (effective_bound ((a.length : ℤ) + (b.length : ℤ)) min_ratio
            max_cost) max_calls).2.getD [],
          c = -1 ∨ (0 ≤ c ∧ c ≤ 3) := by
        intro c hc
        cases hout : (search_graph_recursive (a.length) (b.length)
            (pair_oracle a b)
            (some (List.replicate (a.length + b.length) (-1))) accept
            (effective_bound ((a.length : ℤ) + (b.length : ℤ)) min_ratio
              max_cost) max_calls).2 with
        | none => rw [hout] at hc; cases hc
        | some lbuf =>
          rw [hout] at hc
          exact hres lbuf hout c hc
      have hcanon := canonize_go_mem (fun c => c = -1 ∨ (0 ≤ c ∧ c ≤ 3))
        (by norm_num) (by norm_num) _ 0 0 hcells
      refine (codes_to_chunks_go_spec a b dig _ 0 0
        (groupByKey_chain code_neq _) ?_).1
      intro p hp
      refine ⟨(groupByKey_sound code_neq _ p hp).1, ?_⟩
      intro c hc
      have hmem := groupByKey_mem code_neq _ p hp c hc
      rw [List.mem_filter] at hmem
      refine ⟨(groupByKey_sound code_neq _ p hp).2 c hc, ?_, ?_⟩
      · simpa using hmem.2
      · exact hcanon c hmem.1

/-- Witness for C9: a pass-through diff whose chunk stream has a
disaligned chunk followed by an equal chunk. -/
theorem diff_chunks_kinds_alternate_witness :
    ([⟨[0], [9], ChunkEq.b false⟩, ⟨[1, 2, 3], [1, 2, 3], ChunkEq.b true⟩] :
      List (Chunk ℕ Unit)).Chain'
        (fun c1 c2 => chunk_kind c1.eq ≠ chunk_kind c2.eq) :=
  diff_chunks_kinds_alternate [0, 1, 2, 3] [9, 1, 2, 3] min_ratio_default
    min_ratio_default max_cost_default max_calls_default false true none
    ⟨3 / 4, some [⟨[0], [9], ChunkEq.b false⟩,
      ⟨[1, 2, 3], [1, 2, 3], ChunkEq.b true⟩]⟩
    [⟨[0], [9], ChunkEq.b false⟩, ⟨[1, 2, 3], [1, 2, 3], ChunkEq.b true⟩]
    (by with_unfolding_all rfl) rfl

/-! ## Claim C5 -/

/-- Modelled from the claim's words: within every maximal run bounded
by diagonal codes (`3` and their `0` fillers) or the stream ends, all
codes `1` come before all codes `2` with the counts of each unchanged,
while codes `3` and `0` keep their positions. -/
def canonize_claim : List ℤ → List ℤ
  | [] => []
  | c :: rest =>
    if h : c = 1 ∨ c = 2 then
      List.replicate (((c :: rest).takeWhile
        (fun x => x = 1 || x = 2)).count 1) 1 ++
      List.replicate (((c :: rest).takeWhile
        (fun x => x = 1 || x = 2)).count 2) 2 ++
      canonize_claim ((c :: rest).dropWhile (fun x => x = 1 || x = 2))
    else c :: canonize_claim rest
termination_by l => l.length
decreasing_by
  · simp only [List.dropWhile_cons]
    rw [if_pos (by rcases h with h | h <;> simp [h])]
    have hsf : List.dropWhile (fun x : ℤ => x = 1 || x = 2) rest <:+ rest :=
      List.dropWhile_suffix _
    have := hsf.length_le
    simp only [List.length_cons]
    omega
  · simp

/-- One unfolding step of `canonize_claim` through the leading
(possibly empty) `1`/`2` run. -/
lemma canonize_claim_unfold (l : List ℤ) :
    canonize_claim l =
      List.replicate ((l.takeWhile (fun x => x = 1 || x = 2)).count 1) 1 ++
      List.replicate ((l.takeWhile (fun x => x = 1 || x = 2)).count 2) 2 ++
      canonize_claim (l.dropWhile (fun x => x = 1 || x = 2)) := by
  cases l with
  | nil => simp [canonize_claim]
  | cons c rest =>
    by_cases h : c = 1 ∨ c = 2
    · simp only [canonize_claim, dif_pos h]
    · rw [List.takeWhile_cons (fun x : ℤ => x = 1 || x = 2) c rest,
        List.dropWhile_cons]
      have hp : ¬ ((decide (c = 1) || decide (c = 2)) = true) := by
        simp only [Bool.or_eq_true, decide_eq_true_eq]
        exact h
      rw [if_neg hp, if_neg hp]
      simp only [List.count_nil, List.replicate_zero, List.nil_append]

/-- The flushing loop of `canonize` agrees with the claim's run
description: pending counts merge into the current leading run. -/
lemma canonize_go_claim :
    ∀ (codes : List ℤ),
      (∀ c ∈ codes, c = 0 ∨ c = 1 ∨ c = 2 ∨ c = 3) → ∀ (h v : ℕ),
      canonize_go codes h v =
        List.replicate (h + ((codes.takeWhile
          (fun x => x = 1 || x = 2)).count 1)) 1 ++
        List.replicate (v + ((codes.takeWhile
          (fun x => x = 1 || x = 2)).count 2)) 2 ++
        canonize_claim (codes.dropWhile (fun x => x = 1 || x = 2)) := by
  intro codes
  induction codes with
  | nil =>
    intro _ h v
    simp [canonize_go, canonize_claim]
  | cons c rest ih =>
    intro hc h v
    have hcr : ∀ x ∈ rest, x = 0 ∨ x = 1 ∨ x = 2 ∨ x = 3 :=
      fun x hx => hc x (List.mem_cons_of_mem _ hx)
    rcases hc c (List.mem_cons_self _ _) with hc0 | hc1 | hc2 | hc3
    · subst hc0
      have h1 : ¬ ((0 : ℤ).emod 4 = 1) := by decide
      have h2 : ¬ ((0 : ℤ).emod 4 = 2) := by decide
      rw [canonize_go, if_neg h1, if_neg h2, ih hcr 0 0]
      have hp : ¬ ((decide ((0 : ℤ) = 1) || decide ((0 : ℤ) = 2)) = true) := by
        decide
      have hne : ¬ ((0 : ℤ) = 1 ∨ (0 : ℤ) = 2) := by norm_num
      rw [List.takeWhile_cons (fun x : ℤ => x = 1 || x = 2) 0 rest,
        List.dropWhile_cons, if_neg hp, if_neg hp]
      simp only [List.count_nil, Nat.add_zero, canonize_claim, dif_neg hne]
      rw [canonize_claim_unfold rest]
      simp
    · subst hc1
      have h1 : (1 : ℤ).emod 4 = 1 := by decide
      rw [canonize_go, if_pos h1, ih hcr (h + 1) v]
      have hp : ((decide ((1 : ℤ) = 1) || decide ((1 : ℤ) = 2)) = true) := by
        decide
      rw [List.takeWhile_cons (fun x : ℤ => x = 1 || x = 2) 1 rest,
        List.dropWhile_cons, if_pos hp, if_pos hp]
      simp only [List.count_cons]
      norm_num
      simp [Nat.add_assoc, Nat.add_comm, Nat.add_left_comm]
    · subst hc2
      have h1 : ¬ ((2 : ℤ).emod 4 = 1) := by decide
      have h2 : (2 : ℤ).emod 4 = 2 := by decide
      rw [canonize_go, if_neg h1, if_pos h2, ih hcr h (v + 1)]
      have hp : ((decide ((2 : ℤ) = 1) || decide ((2 : ℤ) = 2)) = true) := by
        decide
      rw [List.takeWhile_cons (fun x : ℤ => x = 1 || x = 2) 2 rest,
        List.dropWhile_cons, if_pos hp, if_pos hp]
      simp only [List.count_cons]
      norm_num
      simp [Nat.add_assoc, Nat.add_comm, Nat.add_left_comm]
    · subst hc3
      have h1 : ¬ ((3 : ℤ).emod 4 = 1) := by decide
      have h2 : ¬ ((3 : ℤ).emod 4 = 2) := by decide
      rw [canonize_go, if_neg h1, if_neg h2, ih hcr 0 0]
      have hp : ¬ ((decide ((3 : ℤ) = 1) || decide ((3 : ℤ) = 2)) = true) := by
        decide
      have hne : ¬ ((3 : ℤ) = 1 ∨ (3 : ℤ) = 2) := by norm_num
      rw [List.takeWhile_cons (fun x : ℤ => x = 1 || x = 2) 3 rest,
        List.dropWhile_cons, if_neg hp, if_neg hp]
      simp only [List.count_nil, Nat.add_zero, canonize_claim, dif_neg hne]
      rw [canonize_claim_unfold rest]
      simp

/-- C5: on a genuine code stream (values in `{0,1,2,3}`), `canonize`
produces exactly the claim's canonical form: within every maximal run
bounded by diagonal codes or the stream ends, all `1`s precede all
`2`s with counts unchanged, and codes `3`/`0` keep their positions. -/
theorem canonize_canonical (codes : List ℤ)
    (hc : ∀ c ∈ codes, c = 0 ∨ c = 1 ∨ c = 2 ∨ c = 3) :
    canonize codes = canonize_claim codes := by
  rw [canonize, canonize_go_claim codes hc 0 0, canonize_claim_unfold codes]
  simp

/-- Witness for C5 on the stream `[2,1,3,0,2,1]`: the canonized stream
is the claim's canonical form. -/
theorem canonize_canonical_witness :
    canonize [2, 1, 3, 0, 2, 1] = canonize_claim [2, 1, 3, 0, 2, 1] ∧
    canonize [2, 1, 3, 0, 2, 1] = [1, 2, 3, 0, 1, 2] :=
  ⟨canonize_canonical [2, 1, 3, 0, 2, 1] (by decide), by decide⟩

/-! ## Claims C7 and C10 — coarsening (`get_coarse`)

`get_coarse` first merges adjacent chunks sharing an `eq` value
(`iter_compressed_chunks`) and then buffers short runs between long
equal chunks (`iter_coarse_chunks`).  The lemmas below characterise
both stages on chunk lists whose `eq` values are booleans. -/

/-- A chunk `eq` that is a Python boolean (not a nested list). -/
def chunk_is_bool {δ : Type} : ChunkEq δ → Bool
  | .b _ => true
  | .list _ => false

/-- Concatenation of `data_a` over a chunk list. -/
def concat_a {α δ : Type} (l : List (Chunk α δ)) : List α :=
  (l.map Chunk.data_a).join

/-- Concatenation of `data_b` over a chunk list. -/
def concat_b {α δ : Type} (l : List (Chunk α δ)) : List α :=
  (l.map Chunk.data_b).join

/-- The flush condition of `iter_coarse_chunks`: a truthy-equal chunk
longer than `consume_size`. -/
def bigp {α δ : Type} (k : ℤ) (c : Chunk α δ) : Prop :=
  eq_truthy c.eq = true ∧ k < (c.data_a.length : ℤ)

lemma concat_a_append {α δ : Type} (l1 l2 : List (Chunk α δ)) :
    concat_a (l1 ++ l2) = concat_a l1 ++ concat_a l2 := by
  simp [concat_a]

lemma concat_b_append {α δ : Type} (l1 l2 : List (Chunk α δ)) :
    concat_b (l1 ++ l2) = concat_b l1 ++ concat_b l2 := by
  simp [concat_b]

lemma concat_a_cons {α δ : Type} (c : Chunk α δ) (l : List (Chunk α δ)) :
    concat_a (c :: l) = c.data_a ++ concat_a l := by
  simp [concat_a]

lemma concat_b_cons {α δ : Type} (c : Chunk α δ) (l : List (Chunk α δ)) :
    concat_b (c :: l) = c.data_b ++ concat_b l := by
  simp [concat_b]

lemma chunk_is_bool_true {δ : Type} (e : ChunkEq δ)
    (h : chunk_is_bool e = true) : ∃ bv, e = ChunkEq.b bv := by
  cases e with
  | b bv => exact ⟨bv, rfl⟩
  | list l => simp [chunk_is_bool] at h

/-- A boolean chunk passing the truthiness test is the `True` chunk. -/
lemma bool_truthy_eq {δ : Type} (e : ChunkEq δ)
    (hb : chunk_is_bool e = true) (ht : eq_truthy e = true) :
    e = ChunkEq.b true := by
  cases e with
  | b bv => cases bv with
    | false => simp [eq_truthy] at ht
    | true => rfl
  | list l => simp [chunk_is_bool] at hb

/-- `chunk_reduce` over boolean chunks: concatenates the data and ANDs
the `eq` flags. -/
lemma chunk_reduce_bool {α δ : Type} :
    ∀ (rest : List (Chunk α δ)) (c : Chunk α δ) (bv : Bool),
      c.eq = ChunkEq.b bv → (∀ x ∈ rest, chunk_is_bool x.eq = true) →
      ∃ bv', chunk_reduce c rest =
          some ⟨c.data_a ++ concat_a rest, c.data_b ++ concat_b rest,
            ChunkEq.b bv'⟩ ∧
        (bv' = true ↔ (bv = true ∧ ∀ x ∈ rest, x.eq = ChunkEq.b true)) := by
  intro rest
  induction rest with
  | nil =>
    intro c bv hc _
    refine ⟨bv, ?_, by simp⟩
    cases c with
    | mk da db e =>
      simp only at hc
      simp [chunk_reduce, concat_a, concat_b, hc]
  | cons x rest ih =>
    intro c bv hc hb
    obtain ⟨bx, hxe⟩ := chunk_is_bool_true _ (hb x (List.mem_cons_self _ _))
    have hadd : chunk_add c x = some ⟨c.data_a ++ x.data_a,
        c.data_b ++ x.data_b, ChunkEq.b (bv && bx)⟩ := by
      simp [chunk_add, hc, hxe]
    obtain ⟨bv', hred, hiff⟩ := ih ⟨c.data_a ++ x.data_a,
        c.data_b ++ x.data_b, ChunkEq.b (bv && bx)⟩ (bv && bx) rfl
      (fun y hy => hb y (List.mem_cons_of_mem _ hy))
    refine ⟨bv', ?_, ?_⟩
    · rw [chunk_reduce, hadd]
      simp only [hred]
      simp [concat_a, concat_b]
    · rw [hiff]
      constructor
      · rintro ⟨hand, hall⟩
        rw [Bool.and_eq_true] at hand
        refine ⟨hand.1, ?_⟩
        intro y hy
        rcases List.mem_cons.mp hy with hy' | hy'
        · subst hy'
          rw [hxe, hand.2]
        · exact hall y hy'
      · rintro ⟨hbv, hall⟩
        have hx1 := hall x (List.mem_cons_self _ _)
        rw [hxe] at hx1
        have hbx : bx = true := by
          injection hx1
        refine ⟨by rw [hbv, hbx]; rfl, ?_⟩
        intro y hy
        exact hall y (List.mem_cons_of_mem _ hy)

/-- `groupByKey` partitions: joining the runs recovers the list. -/
lemma groupByKey_join {β κ : Type} [DecidableEq κ] (key : β → κ) :
    ∀ (l : List β), ((groupByKey key l).map Prod.snd).join = l := by
  intro l
  induction l with
  | nil => rfl
  | cons x xs ih =>
    rcases hg : groupByKey key xs with _ | ⟨⟨k, run⟩, rest⟩
    · cases xs with
      | nil => rfl
      | cons y ys => exact absurd hg (groupByKey_ne_nil key y ys)
    · rw [hg] at ih
      rw [groupByKey]
      simp only [hg]
      by_cases hk : key x = k
      · rw [if_pos hk]
        simp only [List.map_cons, List.join_cons] at ih ⊢
        rw [List.cons_append, ih]
      · rw [if_neg hk]
        simp only [List.map_cons, List.join_cons] at ih ⊢
        rw [ih]
        rfl

/-- The `mapM` of `iter_compressed_chunks` over well-formed boolean
groups: each run reduces to one chunk carrying the run's key and
data. -/
lemma mapM_reduce_groups {α δ : Type} :
    ∀ (G : List (ChunkEq δ × List (Chunk α δ))),
      (∀ p ∈ G, p.2 ≠ [] ∧ ∀ x ∈ p.2, x.eq = p.1) →
      (∀ p ∈ G, ∀ x ∈ p.2, chunk_is_bool x.eq = true) →
      ∃ comp, (G.mapM (fun g => match g.2 with
          | [] => none
          | c :: rest => chunk_reduce c rest)) = some comp ∧
        comp.map Chunk.eq = G.map Prod.fst ∧
        (∀ c ∈ comp, chunk_is_bool c.eq = true) ∧
        concat_a comp = concat_a ((G.map Prod.snd).join) ∧
        concat_b comp = concat_b ((G.map Prod.snd).join) := by
  intro G
  induction G with
  | nil =>
    intro _ _
    exact ⟨[], rfl, rfl, by simp, rfl, rfl⟩
  | cons p G' ih =>
    intro hG hb
    obtain ⟨hpne, hpuni⟩ := hG p (List.mem_cons_self _ _)
    obtain ⟨key, run⟩ := p
    cases run with
    | nil => exact absurd rfl hpne
    | cons c rest =>
      have hceq : c.eq = key := hpuni c (List.mem_cons_self _ _)
      obtain ⟨bv, hkey⟩ : ∃ bv, key = ChunkEq.b bv := by
        have := hb ⟨key, c :: rest⟩ (List.mem_cons_self _ _) c
          (List.mem_cons_self _ _)
        rw [hceq] at this
        exact chunk_is_bool_true _ this
      obtain ⟨bv', hred, hiff⟩ := chunk_reduce_bool rest c bv
        (by rw [hceq, hkey])
        (fun x hx => hb ⟨key, c :: rest⟩ (List.mem_cons_self _ _) x
          (List.mem_cons_of_mem _ hx))
      have hbv : bv' = bv := by
        cases hbve : bv with
        | true =>
          refine hiff.mpr ⟨hbve, ?_⟩
          intro x hx
          have hxk : x.eq = key := hpuni x (List.mem_cons_of_mem _ hx)
          rw [hxk, hkey, hbve]
        | false =>
          cases hbv'e : bv' with
          | false => rfl
          | true =>
            have h2 := (hiff.mp hbv'e).1
            rw [hbve] at h2
            exact absurd h2 (by simp)
      obtain ⟨comp', hm', hmap', hb', hca', hcb'⟩ := ih
        (fun q hq => hG q (List.mem_cons_of_mem _ hq))
        (fun q hq => hb q (List.mem_cons_of_mem _ hq))
      refine ⟨⟨c.data_a ++ concat_a rest, c.data_b ++ concat_b rest,
        ChunkEq.b bv'⟩ :: comp', ?_, ?_, ?_, ?_, ?_⟩
      · rw [List.mapM_cons]
        simp only [hred, hm']
        rfl
      · simp only [List.map_cons, hmap', hkey, hbv]
      · intro x hx
        rcases List.mem_cons.mp hx with hx' | hx'
        · subst hx'
          rfl
        · exact hb' x hx'
      · rw [concat_a_cons, hca']
        simp [List.join_cons, concat_a_append, concat_a_cons,
          List.append_assoc]
      · rw [concat_b_cons, hcb']
        simp [List.join_cons, concat_b_append, concat_b_cons,
          List.append_assoc]

/-- `iter_compressed_chunks` on boolean chunks: succeeds, preserves
the concatenated data, keeps the chunks boolean, and leaves adjacent
`eq` values distinct. -/
lemma iter_compressed_bool {α δ : Type} [DecidableEq α] [DecidableEq δ]
    (l : List (Chunk α δ)) (hb : ∀ c ∈ l, chunk_is_bool c.eq = true) :
    ∃ comp, iter_compressed_chunks l = some comp ∧
      (∀ c ∈ comp, chunk_is_bool c.eq = true) ∧
      concat_a comp = concat_a l ∧ concat_b comp = concat_b l ∧
      comp.Chain' (fun c1 c2 => c1.eq ≠ c2.eq) ∧
      (l ≠ [] → comp ≠ []) := by
  obtain ⟨comp, hm, hmap, hcb, hca, hccb⟩ :=
    mapM_reduce_groups (groupByKey Chunk.eq l)
      (fun p hp => groupByKey_sound _ l p hp)
      (fun p hp x hx => hb x (groupByKey_mem _ l p hp x hx))
  refine ⟨comp, hm, hcb, ?_, ?_, ?_, ?_⟩
  · rw [hca, groupByKey_join]
  · rw [hccb, groupByKey_join]
  · have hchain := groupByKey_chain Chunk.eq l
    have : ((groupByKey Chunk.eq l).map Prod.fst).Chain'
        (fun k1 k2 => k1 ≠ k2) :=
      (List.chain'_map Prod.fst).mpr hchain
    rw [← hmap] at this
    exact (List.chain'_map Chunk.eq).mp this
  · intro hl hcompnil
    subst hcompnil
    cases l with
    | nil => exact hl rfl
    | cons x xs =>
      have := groupByKey_ne_nil Chunk.eq x xs
      cases hgg : groupByKey Chunk.eq (x :: xs) with
      | nil => exact this hgg
      | cons g gs =>
        rw [hgg] at hmap
        simp at hmap

/-- On a chunk list whose adjacent `eq` values already differ,
compression is the identity. -/
lemma iter_compressed_of_chain {α δ : Type} [DecidableEq α]
    [DecidableEq δ] :
    ∀ (l : List (Chunk α δ)), l.Chain' (fun c1 c2 => c1.eq ≠ c2.eq) →
      iter_compressed_chunks l = some l := by
  have hg : ∀ (l : List (Chunk α δ)),
      l.Chain' (fun c1 c2 => c1.eq ≠ c2.eq) →
      groupByKey Chunk.eq l = l.map (fun c => (c.eq, [c])) := by
    intro l
    induction l with
    | nil => intro _; rfl
    | cons c rest ih =>
      intro hch
      rw [groupByKey, ih (List.chain'_cons'.mp hch).2]
      cases rest with
      | nil => rfl
      | cons r rs =>
        simp only [List.map_cons]
        rw [if_neg ((List.chain'_cons'.mp hch).1 r rfl)]
  have hm : ∀ (l : List (Chunk α δ)),
      ((l.map (fun c => (c.eq, [c]))).mapM (fun g => match g.2 with
        | [] => none
        | c :: rest => chunk_reduce c rest)) = some l := by
    intro l
    induction l with
    | nil => rfl
    | cons c rest ih =>
      simp only [List.map_cons, List.mapM_cons, ih]
      rfl
  intro l hch
  unfold iter_compressed_chunks
  rw [hg l hch]
  exact hm l

/-- The buffering loop of `iter_coarse_chunks` on boolean chunks with
distinct adjacent `eq` values: it succeeds, preserves the concatenated
data, and emits an alternating stream in which every adjacent pair
contains a flushable chunk. -/
lemma coarse_go_spec {α δ : Type} (k : ℤ) :
    ∀ (lst buffer : List (Chunk α δ)),
      (∀ c ∈ lst, chunk_is_bool c.eq = true) →
      (∀ c ∈ buffer, chunk_is_bool c.eq = true) →
      (∀ c ∈ buffer, ¬ bigp k c) →
      (buffer ++ lst).Chain' (fun c1 c2 => c1.eq ≠ c2.eq) →
      ∃ O, coarse_go k lst buffer = some O ∧
        (∀ c ∈ O, chunk_is_bool c.eq = true) ∧
        concat_a O = concat_a buffer ++ concat_a lst ∧
        concat_b O = concat_b buffer ++ concat_b lst ∧
        O.Chain' (fun c1 c2 => c1.eq ≠ c2.eq) ∧
        O.Chain' (fun c1 c2 => bigp k c1 ∨ bigp k c2) ∧
        (O = [] → buffer = [] ∧ lst = []) ∧
        (∀ hd, O.head? = some hd →
          hd.eq = ChunkEq.b false
          ∨ (buffer = [] ∧ ∃ tl, lst = hd :: tl ∧ bigp k hd)
          ∨ (buffer ++ lst = [hd] ∧ ¬ bigp k hd)) := by
  intro lst
  induction lst with
  | nil =>
    intro buffer hbl hbb hbnb hch
    cases buffer with
    | nil =>
      refine ⟨[], rfl, by simp, by simp [concat_a], by simp [concat_b],
        List.chain'_nil, List.chain'_nil, fun _ => ⟨rfl, rfl⟩, ?_⟩
      intro hd hhd
      simp at hhd
    | cons b0 brest =>
      cases brest with
      | nil =>
        refine ⟨[b0], rfl, ?_, by simp [concat_a], by simp [concat_b],
          List.chain'_singleton _, List.chain'_singleton _, by simp, ?_⟩
        · intro x hx
          rw [List.mem_singleton] at hx
          subst hx
          exact hbb _ (List.mem_cons_self _ _)
        · intro hd hhd
          rw [List.head?_cons, Option.some.injEq] at hhd
          subst hhd
          right; right
          exact ⟨by simp, hbnb _ (List.mem_cons_self _ _)⟩
      | cons b1 brest' =>
        obtain ⟨bv0, hb0⟩ :=
          chunk_is_bool_true _ (hbb b0 (List.mem_cons_self _ _))
        obtain ⟨bv', hred, hiff⟩ := chunk_reduce_bool (b1 :: brest') b0 bv0 hb0
          (fun x hx => hbb x (List.mem_cons_of_mem _ hx))
        have hch' : (b0 :: b1 :: brest').Chain' (fun c1 c2 => c1.eq ≠ c2.eq) := by
          simpa using hch
        have hne01 : b0.eq ≠ b1.eq := hch'.rel_head
        have hbv' : bv' = false := by
          cases hbv'e : bv' with
          | false => rfl
          | true =>
            obtain ⟨h1, h2⟩ := hiff.mp hbv'e
            have hb1t := h2 b1 (List.mem_cons_self _ _)
            exact absurd (by rw [hb0, h1, hb1t] : b0.eq = b1.eq) hne01
        rw [hbv'] at hred
        refine ⟨[⟨b0.data_a ++ concat_a (b1 :: brest'),
          b0.data_b ++ concat_b (b1 :: brest'), ChunkEq.b false⟩], ?_, ?_,
          by simp [concat_a], by simp [concat_b],
          List.chain'_singleton _, List.chain'_singleton _, by simp, ?_⟩
        · simp only [coarse_go, hred]
          rfl
        · intro x hx
          rw [List.mem_singleton] at hx
          subst hx
          rfl
        · intro hd hhd
          rw [List.head?_cons, Option.some.injEq] at hhd
          subst hhd
          left
          rfl
  | cons c rest ih =>
    intro buffer hbl hbb hbnb hch
    have hcb := hbl c (List.mem_cons_self _ _)
    have hrl : ∀ x ∈ rest, chunk_is_bool x.eq = true :=
      fun x hx => hbl x (List.mem_cons_of_mem _ hx)
    have hsplit := List.chain'_append.mp hch
    have hchcr : (c :: rest).Chain' (fun c1 c2 => c1.eq ≠ c2.eq) := hsplit.2.1
    have hchr : rest.Chain' (fun c1 c2 => c1.eq ≠ c2.eq) :=
      (List.chain'_cons'.mp hchcr).2
    have hheadrel : ∀ y ∈ rest.head?, c.eq ≠ y.eq :=
      (List.chain'_cons'.mp hchcr).1
    by_cases hbig : eq_truthy c.eq = true ∧ k < (c.data_a.length : ℤ)
    · have hceq : c.eq = ChunkEq.b true := bool_truthy_eq _ hcb hbig.1
      obtain ⟨O', hO', hOb, hOca, hOcb, hOchain, hObig, hOemp, hOhead⟩ :=
        ih [] hrl (by simp) (by simp) (by simpa using hchr)
      have hrel : ∀ hd, O'.head? = some hd →
          c.eq ≠ hd.eq ∧ (bigp k c ∨ bigp k hd) := by
        intro hd hhd
        rcases hOhead hd hhd with h1 | ⟨-, tl, hrest, -⟩ | ⟨hsing, -⟩
        · refine ⟨?_, Or.inl hbig⟩
          rw [hceq, h1]
          simp
        · refine ⟨?_, Or.inl hbig⟩
          refine hheadrel hd ?_
          rw [hrest]
          rfl
        · refine ⟨?_, Or.inl hbig⟩
          refine hheadrel hd ?_
          have hre : rest = [hd] := by simpa using hsing
          rw [hre]
          rfl
      cases buffer with
      | nil =>
        refine ⟨c :: O', ?_, ?_, ?_, ?_, ?_, ?_, by simp, ?_⟩
        · simp only [coarse_go]
          rw [if_pos hbig, hO']
          rfl
        · intro x hx
          rcases List.mem_cons.mp hx with hx' | hx'
          · subst hx'; exact hcb
          · exact hOb x hx'
        · rw [concat_a_cons, hOca]
          simp [concat_a]
        · rw [concat_b_cons, hOcb]
          simp [concat_b]
        · exact List.chain'_cons'.mpr ⟨fun y hy => (hrel y hy).1, hOchain⟩
        · exact List.chain'_cons'.mpr ⟨fun y hy => (hrel y hy).2, hObig⟩
        · intro hd hhd
          rw [List.head?_cons, Option.some.injEq] at hhd
          subst hhd
          right; left
          exact ⟨rfl, rest, rfl, hbig⟩
      | cons b0 brest =>
        obtain ⟨bv0, hb0⟩ :=
          chunk_is_bool_true _ (hbb b0 (List.mem_cons_self _ _))
        obtain ⟨bv', hred, hiff⟩ := chunk_reduce_bool brest b0 bv0 hb0
          (fun x hx => hbb x (List.mem_cons_of_mem _ hx))
        have hglue := hsplit.2.2
        have hlastmem : (b0 :: brest).getLast (by simp) ∈ b0 :: brest :=
          List.getLast_mem _
        have hlastne : ((b0 :: brest).getLast (by simp)).eq ≠ c.eq := by
          refine hglue _ ?_ c ?_
          · rw [List.getLast?_eq_getLast (b0 :: brest) (by simp)]
            rfl
          · rfl
        have hbv' : bv' = false := by
          cases hbv'e : bv' with
          | false => rfl
          | true =>
            obtain ⟨h1, h2⟩ := hiff.mp hbv'e
            have hLt : ((b0 :: brest).getLast (by simp)).eq =
                ChunkEq.b true := by
              rcases List.mem_cons.mp hlastmem with hL | hL
              · rw [hL, hb0, h1]
              · exact h2 _ hL
            exact absurd (by rw [hLt, hceq]) hlastne
        rw [hbv'] at hred
        refine ⟨⟨b0.data_a ++ concat_a brest, b0.data_b ++ concat_b brest,
          ChunkEq.b false⟩ :: c :: O', ?_, ?_, ?_, ?_, ?_, ?_, by simp, ?_⟩
        · simp only [coarse_go]
          rw [if_pos hbig, hred, hO']
          rfl
        · intro x hx
          rcases List.mem_cons.mp hx with hx' | hx'
          · subst hx'; rfl
          · rcases List.mem_cons.mp hx' with hx'' | hx''
            · subst hx''; exact hcb
            · exact hOb x hx''
        · rw [concat_a_cons, concat_a_cons, hOca]
          simp [concat_a, List.append_assoc]
        · rw [concat_b_cons, concat_b_cons, hOcb]
          simp [concat_b, List.append_assoc]
        · refine List.chain'_cons'.mpr ⟨?_,
            List.chain'_cons'.mpr ⟨fun y hy => (hrel y hy).1, hOchain⟩⟩
          intro y hy
          have hyc : c = y := by simpa using hy
          subst hyc
          rw [hceq]
          simp
        · refine List.chain'_cons'.mpr ⟨?_,
            List.chain'_cons'.mpr ⟨fun y hy => (hrel y hy).2, hObig⟩⟩
          intro y hy
          have hyc : c = y := by simpa using hy
          subst hyc
          exact Or.inr hbig
        · intro hd hhd
          rw [List.head?_cons, Option.some.injEq] at hhd
          subst hhd
          left
          rfl
    · have hch' : ((buffer ++ [c]) ++ rest).Chain'
          (fun c1 c2 => c1.eq ≠ c2.eq) := by
        rw [List.append_assoc, List.singleton_append]
        exact hch
      obtain ⟨O, hO, hOb, hOca, hOcb, hOchain, hObig, hOemp, hOhead⟩ :=
        ih (buffer ++ [c])
          hrl
          (fun x hx => by
            rcases List.mem_append.mp hx with h | h
            · exact hbb x h
            · rw [List.mem_singleton] at h
              subst h
              exact hcb)
          (fun x hx => by
            rcases List.mem_append.mp hx with h | h
            · exact hbnb x h
            · rw [List.mem_singleton] at h
              subst h
              exact hbig)
          hch'
      refine ⟨O, ?_, hOb, ?_, ?_, hOchain, hObig, ?_, ?_⟩
      · simp only [coarse_go]
        rw [if_neg hbig]
        exact hO
      · rw [hOca, concat_a_append]
        simp [concat_a, List.append_assoc]
      · rw [hOcb, concat_b_append]
        simp [concat_b, List.append_assoc]
      · intro hOnil
        obtain ⟨habs, -⟩ := hOemp hOnil
        exact absurd habs (by simp)
      · intro hd hhd
        rcases hOhead hd hhd with h1 | ⟨habs, -⟩ | ⟨heq, hnb2⟩
        · exact Or.inl h1
        · exact absurd habs (by simp)
        · right; right
          refine ⟨?_, hnb2⟩
          rw [← List.singleton_append, ← List.append_assoc]
          exact heq

/-- On a stream in which every adjacent pair contains a flushable
chunk, the buffering loop is the identity. -/
lemma coarse_go_id {α δ : Type} (k : ℤ) :
    ∀ (O : List (Chunk α δ)),
      O.Chain' (fun c1 c2 => bigp k c1 ∨ bigp k c2) →
      (coarse_go k O [] = some O ∧
        ∀ c, ¬ bigp k c → (∀ hd, O.head? = some hd → bigp k hd) →
          coarse_go k O [c] = some (c :: O)) := by
  intro O
  induction O with
  | nil =>
    intro _
    exact ⟨rfl, fun c _ _ => rfl⟩
  | cons c0 rest ih =>
    intro hch
    have hrel := (List.chain'_cons'.mp hch).1
    obtain ⟨ih1, ih2⟩ := ih (List.chain'_cons'.mp hch).2
    by_cases hbig : eq_truthy c0.eq = true ∧ k < (c0.data_a.length : ℤ)
    · constructor
      · simp only [coarse_go]
        rw [if_pos hbig, ih1]
        rfl
      · intro c _ _
        simp only [coarse_go]
        rw [if_pos hbig]
        simp only [chunk_reduce, ih1]
        rfl
    · constructor
      · simp only [coarse_go]
        rw [if_neg hbig]
        have hh : ∀ hd, rest.head? = some hd → bigp k hd := by
          intro hd hhd
          exact (hrel hd hhd).resolve_left hbig
        have := ih2 c0 hbig hh
        simpa using this
      · intro c _ hhd
        exact absurd (hhd c0 rfl) hbig

/-- C10: `get_coarse` on a diff holding a nonempty list of boolean
chunks keeps `ratio` unchanged and preserves the data: the
concatenations of `data_a` (resp. `data_b`) over the output chunks
equal those over the input chunks, and the output is nonempty. -/
theorem get_coarse_preserves {α δ : Type} [DecidableEq α] [DecidableEq δ]
    (d : PyDiff α δ) (l : List (Chunk α δ)) (k : ℤ)
    (hdl : d.diffs = some l) (hne : l ≠ [])
    (hb : ∀ c ∈ l, chunk_is_bool c.eq = true) :
    ∃ l', get_coarse d k = some ⟨d.ratio, some l'⟩ ∧
      concat_a l' = concat_a l ∧ concat_b l' = concat_b l ∧ l' ≠ [] := by
  obtain ⟨comp, hcomp, hcb, hca, hccb, hchain, hcompne⟩ :=
    iter_compressed_bool l hb
  obtain ⟨O, hO, hOb, hOca, hOcb, hOchain, hObig, hOemp, hOhead⟩ :=
    coarse_go_spec k comp [] hcb (by simp) (by simp) (by simpa using hchain)
  refine ⟨O, ?_, ?_, ?_, ?_⟩
  · simp only [get_coarse, hdl, iter_coarse_chunks, hcomp, hO,
      Option.map_some']
  · rw [hOca, hca]
    simp [concat_a]
  · rw [hOcb, hccb]
    simp [concat_b]
  · intro hOnil
    exact hcompne hne (hOemp hOnil).2

/-- Witness for C10: coarsening `[eq [0], neq [1]/[2], eq [3]]` with
`consume_size = 0` keeps ratio `1` and the concatenated data. -/
theorem get_coarse_preserves_witness :
    ∃ l', get_coarse (⟨1, some [⟨[0], [0], ChunkEq.b true⟩,
        ⟨[1], [2], ChunkEq.b false⟩,
        ⟨[3], [3], ChunkEq.b true⟩]⟩ : PyDiff ℕ Unit) 0 =
        some ⟨1, some l'⟩ ∧
      concat_a l' = concat_a [⟨[0], [0], ChunkEq.b true⟩,
        ⟨[1], [2], ChunkEq.b false⟩,
        (⟨[3], [3], ChunkEq.b true⟩ : Chunk ℕ Unit)] ∧
      concat_b l' = concat_b [⟨[0], [0], ChunkEq.b true⟩,
        ⟨[1], [2], ChunkEq.b false⟩,
        (⟨[3], [3], ChunkEq.b true⟩ : Chunk ℕ Unit)] ∧ l' ≠ [] :=
  get_coarse_preserves _ _ 0 rfl (by decide) (by decide)

/-- C7: coarsening is idempotent on diffs whose chunks carry boolean
`eq` values: applying `get_coarse` with the same threshold twice gives
the same result as applying it once. -/
theorem get_coarse_idempotent {α δ : Type} [DecidableEq α] [DecidableEq δ]
    (d : PyDiff α δ) (k : ℤ)
    (hb : ∀ l, d.diffs = some l → ∀ c ∈ l, chunk_is_bool c.eq = true) :
    (get_coarse d k).bind (fun d' => get_coarse d' k) = get_coarse d k := by
  rcases hdf : d.diffs with _ | l
  · simp [get_coarse, hdf]
  · obtain ⟨comp, hcomp, hcb, hca, hccb, hchain, hcompne⟩ :=
      iter_compressed_bool l (hb l hdf)
    obtain ⟨O, hO, hOb, hOca, hOcb, hOchain, hObig, hOemp, hOhead⟩ :=
      coarse_go_spec k comp [] hcb (by simp) (by simp) (by simpa using hchain)
    have h1 : get_coarse d k = some ⟨d.ratio, some O⟩ := by
      simp only [get_coarse, hdf, iter_coarse_chunks, hcomp, hO,
        Option.map_some']
    rw [h1]
    have h2 : iter_compressed_chunks O = some O :=
      iter_compressed_of_chain O hOchain
    have h3 : coarse_go k O [] = some O := (coarse_go_id k O hObig).1
    simp only [Option.some_bind, get_coarse, iter_coarse_chunks, h2, h3,
      Option.map_some']

/-- Witness for C7 at a two-chunk boolean diff with threshold `1`. -/
theorem get_coarse_idempotent_witness :
    (get_coarse (⟨mkRat 42 100, some [⟨[0, 1, 2], [0, 1, 2], ChunkEq.b true⟩,
        ⟨[3], [9], ChunkEq.b false⟩]⟩ : PyDiff ℕ Unit) 1).bind
      (fun d' => get_coarse d' 1) =
    get_coarse (⟨mkRat 42 100, some [⟨[0, 1, 2], [0, 1, 2], ChunkEq.b true⟩,
        ⟨[3], [9], ChunkEq.b false⟩]⟩ : PyDiff ℕ Unit) 1 :=
  get_coarse_idempotent _ 1 (by
    intro l hl
    obtain rfl := Option.some.inj hl
    decide)

/-! ## Claim C2 — `search_graph_recursive` with the always-0 oracle

With a similarity oracle that never accepts, the diagonal slides are
empty, the strip loops never move, and the two fronts advance one unit
per round; the fronts meet exactly at round `n + m`.  The development
tracks the exact front contents through the in-place circular-buffer
update (including the one-slot wrap-around overshoot of the delayed
write). -/

/-- Front slot of a diagonal: `(diag // 2) % nm`. -/
def ixOf (nm d : ℤ) : ℤ := (d.fdiv 2).emod nm

lemma ixOf_range (nm d : ℤ) (h : 0 < nm) : 0 ≤ ixOf nm d ∧ ixOf nm d < nm :=
  ⟨Int.emod_nonneg _ (by omega), Int.emod_lt_of_pos _ h⟩

lemma pySet_length (l : List ℤ) (i v : ℤ) : (pySet l i v).length = l.length := by
  rw [pySet]
  split <;> simp

lemma pyGet_nonneg (l : List ℤ) (i : ℤ) (h0 : 0 ≤ i) :
    pyGet l i = l.getD i.toNat 0 := by
  rw [pyGet, if_neg (by omega)]

lemma pyGet_pySet_self (l : List ℤ) (i v : ℤ) (h0 : 0 ≤ i)
    (hl : i < (l.length : ℤ)) : pyGet (pySet l i v) i = v := by
  rw [pyGet, pySet, if_neg (by omega), if_neg (by omega)]
  have hi : i.toNat < (l.set i.toNat v).length := by
    rw [List.length_set]
    omega
  rw [List.getD_eq_getElem?_getD, List.getElem?_eq_getElem hi]
  simp

lemma pyGet_pySet_ne (l : List ℤ) (i j v : ℤ) (h0 : 0 ≤ i) (h0' : 0 ≤ j)
    (hne : i ≠ j) : pyGet (pySet l i v) j = pyGet l j := by
  rw [pyGet, pySet, if_neg (by omega), if_neg (by omega), pyGet,
    if_neg (by omega)]
  by_cases hj : j.toNat < l.length
  · have hj' : j.toNat < (l.set i.toNat v).length := by
      rw [List.length_set]
      exact hj
    rw [List.getD_eq_getElem?_getD, List.getD_eq_getElem?_getD,
      List.getElem?_eq_getElem hj', List.getElem?_eq_getElem hj]
    simp only [Option.getD_some]
    exact List.getElem_set_ne (show i.toNat ≠ j.toNat by omega) hj'
  · rw [List.getD_eq_getElem?_getD, List.getD_eq_getElem?_getD,
      List.getElem?_eq_none (by rw [List.length_set]; omega),
      List.getElem?_eq_none (by omega)]

lemma pySet_self (l : List ℤ) (i : ℤ) (h0 : 0 ≤ i)
    (hl : i < (l.length : ℤ)) : pySet l i (pyGet l i) = l := by
  rw [pySet, if_neg (by omega), pyGet, if_neg (by omega)]
  have hi : i.toNat < l.length := by omega
  rw [List.getD_eq_getElem?_getD, List.getElem?_eq_getElem hi]
  simp only [Option.getD_some]
  apply List.ext_getElem (by simp)
  intro t h1 h2
  by_cases ht : t = i.toNat
  · subst ht
    exact List.getElem_set_self h1
  · exact List.getElem_set_ne (show i.toNat ≠ t by omega) h1

/-- A multiple of `nm` strictly between `-2 nm` and `2 nm` is
`-nm`, `0` or `nm`. -/
lemma dvd_small (nm d : ℤ) (h : 0 < nm) (hd : nm ∣ d)
    (h1 : -(2 * nm) < d) (h2 : d < 2 * nm) : d = -nm ∨ d = 0 ∨ d = nm := by
  obtain ⟨k, hk⟩ := hd
  have hk2 : k ≤ 1 := by
    by_contra hk1
    push_neg at hk1
    have : nm * 2 ≤ nm * k := by
      apply mul_le_mul_of_nonneg_left (by omega) (by omega)
    omega
  have hk3 : -1 ≤ k := by
    by_contra hk1
    push_neg at hk1
    have : nm * k ≤ nm * (-2) := by
      apply mul_le_mul_of_nonneg_left (by omega) (by omega)
    omega
  have hk0 : k = -1 ∨ k = 0 ∨ k = 1 := by omega
  rcases hk0 with h | h | h <;> subst h <;> omega

lemma slot_ne (nm x y : ℤ) (h : 0 < nm) (hlt : x - y < nm) (hgt : y - x < nm)
    (hne : x ≠ y) : x.emod nm ≠ y.emod nm := by
  intro he
  have hz : (x - y).emod nm = 0 :=
    Int.emod_eq_emod_iff_emod_sub_eq_zero.mp he
  have hd : nm ∣ (x - y) := Int.dvd_of_emod_eq_zero hz
  rcases dvd_small nm (x - y) h hd (by omega) (by omega) with h' | h' | h' <;>
    omega

lemma emod_add_self (nm y : ℤ) : (y + nm).emod nm = y.emod nm := by
  conv_lhs => rw [show y + nm = y + nm * 1 by ring]
  exact Int.add_mul_emod_self_left y nm 1

lemma pyRange2_nil (a b : ℤ) (h : b ≤ a) : pyRange2 a b = [] := by
  rw [pyRange2]
  have h1 : (b - a).toNat = 0 := by omega
  rw [h1]
  simp

lemma pyRange2_cons (a b : ℤ) (h : a < b) :
    pyRange2 a b = a :: pyRange2 (a + 2) b := by
  rw [pyRange2, pyRange2]
  have hN : 1 ≤ (b - a).toNat := by omega
  have hcnt : (b - a).toNat / 2 + (if (b - a).toNat % 2 = 0 then 0 else 1) =
      ((b - (a + 2)).toNat / 2 +
        (if (b - (a + 2)).toNat % 2 = 0 then 0 else 1)) + 1 := by
    have h2 : (b - (a + 2)).toNat = (b - a).toNat - 2 := by omega
    rw [h2]
    rcases Nat.lt_or_ge (b - a).toNat 2 with hlt | hge
    · have h3 : (b - a).toNat = 1 := by omega
      rw [h3]
      norm_num
    · have h4 : ((b - a).toNat - 2) % 2 = (b - a).toNat % 2 := by omega
      have h5 : ((b - a).toNat - 2) / 2 = (b - a).toNat / 2 - 1 := by omega
      have h6 : 1 ≤ (b - a).toNat / 2 := by omega
      rw [h4, h5]
      by_cases hp : (b - a).toNat % 2 = 0 <;> simp [hp] <;> omega
  rw [hcnt, List.range_succ_eq_map]
  simp only [List.map_cons, List.map_map]
  congr 1
  · norm_num
  · apply List.map_congr_left
    intro k _
    simp only [Function.comp_apply]
    push_cast
    ring

/-- Exact forward-front contents after `t` forward passes: value `t`
on the active window's diagonal grid, except a possible one-too-high
value at the top slot once the window has passed the corner `n`. -/
def frontF (n m nm t : ℤ) (ff : List ℤ) : Prop :=
  ff.length = nm.toNat ∧
  ∀ d : ℤ, |m - t| ≤ d → d ≤ n + m - |n - t| → (d - (m + t)).emod 2 = 0 →
    pyGet ff (ixOf nm d) = t ∨
    (d = n + m - |n - t| ∧ n < t ∧ pyGet ff (ixOf nm d) = t + 1)

/-- Exact reverse-front contents after `u` reverse passes. -/
def frontR (n m nm u : ℤ) (fr : List ℤ) : Prop :=
  fr.length = nm.toNat ∧
  ∀ d : ℤ, |n - u| ≤ d → d ≤ n + m - |m - u| → (d - (n + u)).emod 2 = 0 →
    pyGet fr (ixOf nm d) = n + m - u ∨
    (d = n + m - |m - u| ∧ m < u ∧ pyGet fr (ixOf nm d) = n + m - u - 1)

lemma frontF_init (n m nm : ℤ) (hnm : 0 < nm) :
    frontF n m nm 0 (List.replicate nm.toNat 0) := by
  refine ⟨by simp, ?_⟩
  intro d _ _ _
  left
  rw [pyGet, if_neg (by have := ixOf_range nm d hnm; omega)]
  have hr := ixOf_range nm d hnm
  have : (ixOf nm d).toNat < nm.toNat := by omega
  rw [List.getD_eq_getElem?_getD,
    List.getElem?_eq_getElem (by simpa using this)]
  simp

lemma frontR_init (n m nm : ℤ) (hnm : 0 < nm) :
    frontR n m nm 0 (List.replicate nm.toNat (n + m)) := by
  refine ⟨by simp, ?_⟩
  intro d _ _ _
  left
  rw [pyGet, if_neg (by have := ixOf_range nm d hnm; omega)]
  have hr := ixOf_range nm d hnm
  have : (ixOf nm d).toNat < nm.toNat := by omega
  rw [List.getD_eq_getElem?_getD,
    List.getElem?_eq_getElem (by simpa using this)]
  simp

/-- With an always-rejecting oracle the slide loop never moves. -/
lemma slide_zero (sim : ℤ → ℤ → ℚ) (accept : ℚ)
    (hsim : ∀ x y, sim x y = 0) (hacc : 0 < accept)
    (n m i j sign : ℤ) (fuel : ℕ) (x y progress nc : ℤ) :
    (slide sim accept n m i j sign fuel x y progress nc).1 = progress := by
  cases fuel with
  | zero => rfl
  | succ f =>
    rw [slide]
    by_cases hb : 0 ≤ x ∧ x < n ∧ 0 ≤ y ∧ y < m
    · rw [if_pos hb,
        if_pos (show sim (x + i) (y + j) < accept by rw [hsim]; exact hacc)]
    · rw [if_neg hb]

/-- The strip loops never move for an always-rejecting oracle. -/
lemma strip_forward_zero (sim : ℤ → ℤ → ℚ) (accept : ℚ)
    (hsim : ∀ x y, sim x y = 0) (hacc : 0 < accept) (fuel : ℕ)
    (st : StripSt) : strip_forward sim accept fuel st = st := by
  cases fuel with
  | zero => rfl
  | succ f =>
    rw [strip_forward]
    rw [if_neg]
    rintro ⟨-, hc⟩
    rw [hsim] at hc
    exact absurd (lt_of_le_of_lt hc hacc) (lt_irrefl _)

lemma strip_reverse_zero (sim : ℤ → ℤ → ℚ) (accept : ℚ)
    (hsim : ∀ x y, sim x y = 0) (hacc : 0 < accept) (fuel : ℕ)
    (st : StripSt) : strip_reverse sim accept fuel st = st := by
  cases fuel with
  | zero => rfl
  | succ f =>
    rw [strip_reverse]
    rw [if_neg]
    rintro ⟨-, hc⟩
    rw [hsim] at hc
    exact absurd (lt_of_le_of_lt hc hacc) (lt_irrefl _)

/-- The static fire test of `phase1` at a diagonal. -/
def fireTest (nm dFF dFT : ℤ) (ff fr : List ℤ) (d : ℤ) : Prop :=
  dFF ≤ d ∧ d ≤ dFT ∧ (d - dFF).emod 2 = 0 ∧
    pyGet fr (ixOf nm d) ≤ pyGet ff (ixOf nm d)

/-- With an always-rejecting oracle, `phase1` leaves the fronts
unchanged; it returns no overlap iff no listed diagonal passes the
static fire test, and fires on the first one that does. -/
lemma phase1_zero (sim : ℤ → ℤ → ℚ) (accept : ℚ)
    (hsim : ∀ x y, sim x y = 0) (hacc : 0 < accept)
    (n m i j nm : ℤ) (hnm : 0 < nm) (isRev : Bool) (dFF dFT : ℤ) :
    ∀ (diags : List ℤ) (ff fr : List ℤ) (nc : ℤ),
      ff.length = nm.toNat → fr.length = nm.toNat →
      (phase1 sim accept n m i j nm isRev dFF dFT diags ff fr nc).1 = ff ∧
      (phase1 sim accept n m i j nm isRev dFF dFT diags ff fr nc).2.1 = fr ∧
      ((∀ d ∈ diags, ¬ fireTest nm dFF dFT ff fr d) →
        (phase1 sim accept n m i j nm isRev dFF dFT diags ff fr nc).2.2.2 =
          none) ∧
      (∀ d rest, diags = d :: rest → fireTest nm dFF dFT ff fr d →
        (phase1 sim accept n m i j nm isRev dFF dFT diags ff fr nc).2.2.2 =
          some ⟨d, pyGet (if isRev then fr else ff) (ixOf nm d),
            pyGet (if isRev then fr else ff) (ixOf nm d)⟩) := by
  intro diags
  induction diags with
  | nil =>
    intro ff fr nc hffl hfrl
    exact ⟨rfl, rfl, fun _ => rfl, fun d rest hd => by cases hd⟩
  | cons diag rest ih =>
    intro ff fr nc hffl hfrl
    have hr := ixOf_range nm diag hnm
    have hfu : ∀ fu : List ℤ, fu.length = nm.toNat →
        pySet fu (ixOf nm diag)
          ((slide sim accept n m i j (if isRev then -1 else 1)
            (n.toNat + m.toNat + 1)
            ((pyGet fu (ixOf nm diag) + diag - m).fdiv 2 -
              (if isRev then 1 else 0))
            ((pyGet fu (ixOf nm diag) - diag + m).fdiv 2 -
              (if isRev then 1 else 0))
            (pyGet fu (ixOf nm diag)) nc).1) = fu := by
      intro fu hl
      rw [slide_zero sim accept hsim hacc]
      exact pySet_self fu (ixOf nm diag) hr.1 (by omega)
    rw [phase1]
    cases isRev with
    | false =>
      simp only [Bool.false_eq_true, if_false, ixOf] at hfu ⊢
      rw [hfu ff hffl]
      rw [slide_zero sim accept hsim hacc]
      by_cases hfire : dFF ≤ diag ∧ diag ≤ dFT ∧ (diag - dFF).emod 2 = 0 ∧
          pyGet fr ((diag.fdiv 2).emod nm) ≤ pyGet ff ((diag.fdiv 2).emod nm)
      · rw [if_pos hfire]
        refine ⟨rfl, rfl, ?_, ?_⟩
        · intro hno
          exact absurd hfire (hno diag (List.mem_cons_self _ _))
        · intro d rest' hd _
          cases hd
          rfl
      · rw [if_neg hfire]
        obtain ⟨ih1, ih2, ih3, -⟩ := ih ff fr
          (slide sim accept n m i j 1 (n.toNat + m.toNat + 1)
            ((pyGet ff ((diag.fdiv 2).emod nm) + diag - m).fdiv 2 - 0)
            ((pyGet ff ((diag.fdiv 2).emod nm) - diag + m).fdiv 2 - 0)
            (pyGet ff ((diag.fdiv 2).emod nm)) nc).2 hffl hfrl
        refine ⟨ih1, ih2, ?_, ?_⟩
        · intro hno
          exact ih3 (fun d hd => hno d (List.mem_cons_of_mem _ hd))
        · intro d rest' hd hft
          cases hd
          exact absurd hft hfire
    | true =>
      simp only [eq_self_iff_true, if_true, ixOf] at hfu ⊢
      rw [hfu fr hfrl]
      rw [slide_zero sim accept hsim hacc]
      by_cases hfire : dFF ≤ diag ∧ diag ≤ dFT ∧ (diag - dFF).emod 2 = 0 ∧
          pyGet fr ((diag.fdiv 2).emod nm) ≤ pyGet ff ((diag.fdiv 2).emod nm)
      · rw [if_pos hfire]
        refine ⟨rfl, rfl, ?_, ?_⟩
        · intro hno
          exact absurd hfire (hno diag (List.mem_cons_self _ _))
        · intro d rest' hd _
          cases hd
          rfl
      · rw [if_neg hfire]
        obtain ⟨ih1, ih2, ih3, -⟩ := ih ff fr
          (slide sim accept n m i j (-1) (n.toNat + m.toNat + 1)
            ((pyGet fr ((diag.fdiv 2).emod nm) + diag - m).fdiv 2 - 1)
            ((pyGet fr ((diag.fdiv 2).emod nm) - diag + m).fdiv 2 - 1)
            (pyGet fr ((diag.fdiv 2).emod nm)) nc).2 hffl hfrl
        refine ⟨ih1, ih2, ?_, ?_⟩
        · intro hno
          exact ih3 (fun d hd => hno d (List.mem_cons_of_mem _ hd))
        · intro d rest' hd hft
          cases hd
          exact absurd hft hfire

lemma fdiv2_eq (x : ℤ) : x.fdiv 2 = x / 2 :=
  Int.fdiv_eq_ediv x (by norm_num)

lemma ixOf_grid (nm a k : ℤ) : ixOf nm (a + 2 * k) = (a.fdiv 2 + k).emod nm := by
  rw [ixOf]
  congr 1
  simp only [fdiv2_eq]
  omega

lemma ixOf_grid_ne (nm a : ℤ) (h : 0 < nm) (k1 k2 : ℤ) (hne : k1 ≠ k2)
    (h1 : k1 - k2 < nm) (h2 : k2 - k1 < nm) :
    ixOf nm (a + 2 * k1) ≠ ixOf nm (a + 2 * k2) := by
  rw [ixOf_grid, ixOf_grid]
  exact slot_ne nm _ _ h (by omega) (by omega) (by omega)

lemma ixOf_grid_alias (nm a k1 k2 : ℤ) (h : k1 = k2 + nm) :
    ixOf nm (a + 2 * k1) = ixOf nm (a + 2 * k2) := by
  rw [ixOf_grid, ixOf_grid, h,
    show a.fdiv 2 + (k2 + nm) = (a.fdiv 2 + k2) + nm by ring, emod_add_self]

/-- Slots of the odd-offset neighbours of a grid point, even grid base. -/
lemma ixOf_off_even (nm a k : ℤ) (hp : a.emod 2 = 0) :
    ixOf nm (a + 2 * k - 1) = (a.fdiv 2 + (k - 1)).emod nm ∧
    ixOf nm (a + 2 * k + 1) = (a.fdiv 2 + k).emod nm := by
  have hp2 : a % 2 = 0 := hp
  constructor <;> (rw [ixOf]; congr 1; simp only [fdiv2_eq]; omega)

/-- Slots of the odd-offset neighbours of a grid point, odd grid base. -/
lemma ixOf_off_odd (nm a k : ℤ) (hp : a.emod 2 = 1) :
    ixOf nm (a + 2 * k - 1) = (a.fdiv 2 + k).emod nm ∧
    ixOf nm (a + 2 * k + 1) = (a.fdiv 2 + (k + 1)).emod nm := by
  have hp2 : a % 2 = 1 := hp
  constructor <;> (rw [ixOf]; congr 1; simp only [fdiv2_eq]; omega)

/-- Two slots of the circular buffer taken at distinct nearby diagonals of
the same parity base are distinct. -/
lemma grid_slot_ne (nm b p q : ℤ) (h : 0 < nm) (hne : p ≠ q)
    (h1 : p - q < nm) (h2 : q - p < nm) :
    (b + p).emod nm ≠ (b + q).emod nm :=
  slot_ne nm _ _ h (by omega) (by omega) (by omega)

/-- Members of `pyRange2 a b` are exactly the points `a + 2k < b`. -/
lemma mem_pyRange2 (a b d : ℤ) :
    d ∈ pyRange2 a b ↔ ∃ k : ℕ, d = a + 2 * (k : ℤ) ∧ d < b := by
  constructor
  · intro hd
    rw [pyRange2, List.mem_map] at hd
    obtain ⟨k, hk, rfl⟩ := hd
    rw [List.mem_range] at hk
    refine ⟨k, rfl, ?_⟩
    by_cases hpar : (b - a).toNat % 2 = 0
    · rw [if_pos hpar] at hk
      omega
    · rw [if_neg hpar] at hk
      omega
  · rintro ⟨k, rfl, hk⟩
    rw [pyRange2, List.mem_map]
    refine ⟨k, ?_, rfl⟩
    rw [List.mem_range]
    by_cases hpar : (b - a).toNat % 2 = 0
    · rw [if_pos hpar]
      omega
    · rw [if_neg hpar]
      omega

lemma take_len_cons (A D : List ℤ) (v : ℤ) (n : ℕ) (h : A.length = n) :
    (A ++ v :: D).take (n + 1) = A ++ [v] := by
  subst h
  rw [List.take_append]
  simp

lemma drop_len_cons (A D : List ℤ) (v : ℤ) (n k : ℕ) (h : A.length = n) :
    (A ++ v :: D).drop (n + k + 1) = D.drop k := by
  subst h
  have he : A.length + k + 1 = A.length + (k + 1) := by omega
  rw [he, List.drop_append, List.drop_succ_cons]

/-- `outWriteRun` on a real buffer replaces the written run. -/
lemma outWriteRun_spec (len : ℕ) : ∀ (buf : List ℤ) (lo : ℤ), 0 ≤ lo →
    lo + len ≤ (buf.length : ℤ) →
    outWriteRun (some buf) lo len 1 =
      some (buf.take lo.toNat ++ List.replicate len 1 ++
        buf.drop (lo.toNat + len)) ∧
    outWriteRun (some buf) lo len 2 =
      some (buf.take lo.toNat ++ List.replicate len 2 ++
        buf.drop (lo.toNat + len)) := by
  induction len with
  | zero =>
    intro buf lo h0 hb
    constructor <;>
      · rw [outWriteRun]
        simp only [List.replicate_zero, List.append_nil, Nat.add_zero]
        rw [List.take_append_drop]
  | succ len ih =>
    intro buf lo h0 hb
    have hlt : lo.toNat < buf.length := by omega
    have hset : ∀ v : ℤ, outWrite (some buf) lo v = some (buf.set lo.toNat v) := by
      intro v
      show some (pySet buf lo v) = _
      rw [pySet, if_neg (by omega)]
    have hkey : ∀ v : ℤ, (v = 1 ∨ v = 2) →
        outWriteRun (some buf) lo (len + 1) v =
          some (buf.take lo.toNat ++ List.replicate (len + 1) v ++
            buf.drop (lo.toNat + (len + 1))) := by
      intro v hv
      rw [outWriteRun, hset v]
      have hlen : (buf.set lo.toNat v).length = buf.length := by
        rw [List.length_set]
      have hih := ih (buf.set lo.toNat v) (lo + 1) (by omega) (by rw [hlen]; omega)
      have hv' : outWriteRun (some (buf.set lo.toNat v)) (lo + 1) len v =
          some ((buf.set lo.toNat v).take (lo + 1).toNat ++ List.replicate len v ++
            (buf.set lo.toNat v).drop ((lo + 1).toNat + len)) := by
        rcases hv with rfl | rfl
        · exact hih.1
        · exact hih.2
      rw [hv']
      have hdecomp : buf.set lo.toNat v =
          buf.take lo.toNat ++ v :: buf.drop (lo.toNat + 1) := by
        rw [List.set_eq_take_append_cons_drop, if_pos hlt]
      have hA : (buf.take lo.toNat).length = lo.toNat := by
        rw [List.length_take]
        omega
      have htoN : (lo + 1).toNat = lo.toNat + 1 := by omega
      have htk : (buf.set lo.toNat v).take (lo + 1).toNat =
          buf.take lo.toNat ++ [v] := by
        rw [hdecomp, htoN]
        exact take_len_cons _ _ _ _ hA
      have hdr : (buf.set lo.toNat v).drop ((lo + 1).toNat + len) =
          buf.drop (lo.toNat + (len + 1)) := by
        rw [hdecomp, htoN]
        have he : lo.toNat + 1 + len = lo.toNat + len + 1 := by omega
        rw [he, drop_len_cons _ _ _ _ _ hA, List.drop_drop]
        congr 1
      rw [htk, hdr]
      congr 1
      simp only [List.replicate_succ, List.append_assoc, List.singleton_append,
        List.cons_append, List.nil_append]
    exact ⟨hkey 1 (Or.inl rfl), hkey 2 (Or.inr rfl)⟩

lemma take_len (A B : List ℤ) (k : ℕ) (h : A.length = k) : (A ++ B).take k = A := by
  subst h
  exact List.take_left _ _

lemma drop_len (A B : List ℤ) (k : ℕ) (h : A.length = k) : (A ++ B).drop k = B := by
  subst h
  exact List.drop_left _ _

lemma drop_len_add (A B : List ℤ) (k r : ℕ) (h : A.length = k) :
    (A ++ B).drop (k + r) = B.drop r := by
  subst h
  exact List.drop_append r

/-- The trivial-script writer replaces the window `[i+j, i+j+n+m)` by
`n` ones then `m` twos. -/
lemma write_trivial_spec (buf : List ℤ) (n' m' i j : ℤ) (hn : 0 ≤ n')
    (hm : 0 ≤ m') (ho : 0 ≤ i + j) (hb : i + j + n' + m' ≤ (buf.length : ℤ)) :
    write_trivial (some buf) n' m' i j =
      some (buf.take (i + j).toNat ++
        (List.replicate n'.toNat 1 ++ List.replicate m'.toNat 2) ++
        buf.drop ((i + j).toNat + (n' + m').toNat)) := by
  rw [write_trivial]
  have h1 := (outWriteRun_spec n'.toNat buf (i + j) ho (by omega)).1
  rw [h1]
  have hA1len : (buf.take (i + j).toNat ++ List.replicate n'.toNat 1).length =
      (i + j).toNat + n'.toNat := by
    rw [List.length_append, List.length_replicate, List.length_take]
    omega
  have hB1len : ((buf.take (i + j).toNat ++ List.replicate n'.toNat 1 ++
      buf.drop ((i + j).toNat + n'.toNat)).length : ℤ) = (buf.length : ℤ) := by
    rw [List.length_append, List.length_append, List.length_replicate,
      List.length_take, List.length_drop]
    push_cast
    omega
  have h2 := (outWriteRun_spec m'.toNat
    (buf.take (i + j).toNat ++ List.replicate n'.toNat 1 ++
      buf.drop ((i + j).toNat + n'.toNat))
    (i + j + n') (by omega) (by rw [hB1len]; omega)).2
  rw [h2]
  have hlo2 : (i + j + n').toNat = (i + j).toNat + n'.toNat := by omega
  congr 1
  rw [hlo2, take_len _ _ _ hA1len, drop_len_add _ _ _ _ hA1len, List.drop_drop]
  have hidx : (i + j).toNat + n'.toNat + m'.toNat =
      (i + j).toNat + (n' + m').toNat := by omega
  rw [hidx]
  simp only [List.append_assoc]

/-- If an old-window diagonal well above the current write position shares
its slot with the write position, the buffer has wrapped around: the
diagonal is the old window's top and the window is shrinking. -/
lemma collide_top (nm AFp ATp AT d jj : ℤ) (hnm : 0 < nm)
    (hwidth : ATp - AFp ≤ 2 * nm - 2) (hjj : 1 ≤ jj)
    (hd1 : AFp + 2 * jj + 1 ≤ d) (hd2 : d ≤ AT)
    (hATc : AT = ATp + 1 ∨ AT = ATp - 1)
    (hcol : ixOf nm d = ixOf nm (AFp + 2 * (jj - 1))) :
    d = AT ∧ AT = ATp + 1 := by
  rw [ixOf, ixOf] at hcol
  have hz : (d.fdiv 2 - (AFp + 2 * (jj - 1)).fdiv 2).emod nm = 0 :=
    Int.emod_eq_emod_iff_emod_sub_eq_zero.mp hcol
  have hd : nm ∣ (d.fdiv 2 - (AFp + 2 * (jj - 1)).fdiv 2) :=
    Int.dvd_of_emod_eq_zero hz
  rw [fdiv2_eq, fdiv2_eq] at hd
  have hlow : 1 ≤ d / 2 - (AFp + 2 * (jj - 1)) / 2 := by omega
  have hhigh : d / 2 - (AFp + 2 * (jj - 1)) / 2 ≤ nm := by omega
  rcases dvd_small nm _ hnm hd (by omega) (by omega) with h | h | h
  · omega
  · omega
  · omega

lemma phase2_cons_fwd (nm dUF dUT d : ℤ) (rest : List ℤ) (fu : List ℤ)
    (p ix : ℤ) (h1 : d ≠ dUF - 1) (h2 : d ≠ dUT + 1) (h3 : ix ≠ -1) :
    phase2 false nm dUF dUT (d :: rest) fu p ix =
      phase2 false nm dUF dUT rest (pySet fu ix (p + 1))
        (max (pyGet fu (ixOf nm (d - 1))) (pyGet fu (ixOf nm (d + 1))))
        (ixOf nm d) := by
  rw [phase2]
  simp only [ixOf, if_neg h1, if_neg h2, if_pos h3, Bool.false_eq_true, if_false]

lemma phase2_cons_fwd_top (nm dUF dUT d : ℤ) (rest : List ℤ) (fu : List ℤ)
    (p ix : ℤ) (h1 : d ≠ dUF - 1) (h2 : d = dUT + 1) (h3 : ix ≠ -1) :
    phase2 false nm dUF dUT (d :: rest) fu p ix =
      phase2 false nm dUF dUT rest (pySet fu ix (p + 1))
        (pyGet fu (ixOf nm (d - 1))) (ixOf nm d) := by
  rw [phase2]
  simp only [ixOf, if_neg h1, if_pos h2, if_pos h3, Bool.false_eq_true, if_false]

lemma phase2_nil_fwd (nm dUF dUT : ℤ) (fu : List ℤ) (p ix : ℤ) :
    phase2 false nm dUF dUT [] fu p ix = pySet fu ix (p + 1) := by
  rw [phase2]
  simp only [Bool.false_eq_true, if_false]

/-- One forward phase-2 pass over the remaining diagonal grid: every new
grid slot receives `t + 1`, with a possible overshoot to `t + 2` at the
top slot when the window is shrinking at the top. -/
lemma phase2_fwd_go (n m nm t AF AT AFp ATp : ℤ)
    (hnm : 0 < nm) (ht0 : 0 ≤ t)
    (hL : (AFp = AF - 1 ∧ t + 1 ≤ m) ∨ (AFp = AF + 1 ∧ m ≤ t))
    (hR : (ATp = AT + 1 ∧ t + 1 ≤ n) ∨ (ATp = AT - 1 ∧ n ≤ t))
    (hAF0 : 0 ≤ AF) (hAFp0 : 0 ≤ AFp) (hpar : (ATp - AFp) % 2 = 0)
    (hwidth : ATp - AFp ≤ 2 * nm - 2) :
    ∀ (r : ℕ) (jj : ℤ) (fu : List ℤ) (previous ix : ℤ),
      1 ≤ jj →
      ATp + 2 = AFp + 2 * jj + 2 * (r : ℤ) →
      fu.length = nm.toNat →
      (∀ k : ℤ, 0 ≤ k → k ≤ jj - 2 →
        pyGet fu (ixOf nm (AFp + 2 * k)) = t + 1) →
      (∀ d : ℤ, AF ≤ d → d ≤ AT → (d - AF) % 2 = 0 → AFp + 2 * jj - 1 ≤ d →
        pyGet fu (ixOf nm d) = t ∨
          (d = AT ∧ n ≤ t ∧ pyGet fu (ixOf nm d) = t + 1)) →
      (previous = t ∨ (r = 0 ∧ n ≤ t ∧ previous = t + 1)) →
      ix = ixOf nm (AFp + 2 * (jj - 1)) →
      (phase2 false nm AF AT (pyRange2 (AFp + 2 * jj) (ATp + 2))
          fu previous ix).length = nm.toNat ∧
      (∀ k : ℤ, 0 ≤ k → AFp + 2 * k ≤ ATp →
        pyGet (phase2 false nm AF AT (pyRange2 (AFp + 2 * jj) (ATp + 2))
          fu previous ix) (ixOf nm (AFp + 2 * k)) = t + 1 ∨
        (AFp + 2 * k = ATp ∧ n ≤ t ∧
          pyGet (phase2 false nm AF AT (pyRange2 (AFp + 2 * jj) (ATp + 2))
            fu previous ix) (ixOf nm (AFp + 2 * k)) = t + 2)) := by
  intro r
  induction r with
  | zero =>
    intro jj fu previous ix hjj hcount hfl hpre hold hprev hix
    rw [pyRange2_nil _ _ (by omega), phase2_nil_fwd]
    have hixr := ixOf_range nm (AFp + 2 * (jj - 1)) hnm
    have hix0 : 0 ≤ ix := by omega
    have hixlt : ix < (fu.length : ℤ) := by
      rw [hfl]
      omega
    refine ⟨by rw [pySet_length]; exact hfl, ?_⟩
    intro k hk0 hk1
    by_cases hk : k = jj - 1
    · subst hk
      rw [← hix, pyGet_pySet_self fu ix _ hix0 hixlt]
      rcases hprev with rfl | ⟨-, hnt, rfl⟩
      · left
        rfl
      · right
        exact ⟨by omega, hnt, by ring⟩
    · have hne : ixOf nm (AFp + 2 * (jj - 1)) ≠ ixOf nm (AFp + 2 * k) := by
        apply ixOf_grid_ne nm AFp hnm _ _ (by omega) (by omega) (by omega)
      rw [← hix] at hne
      rw [pyGet_pySet_ne fu ix _ _ hix0 (ixOf_range nm _ hnm).1 hne]
      left
      exact hpre k hk0 (by omega)
  | succ r ih =>
    intro jj fu previous ix hjj hcount hfl hpre hold hprev hix
    have hprevt : previous = t := by
      rcases hprev with h | ⟨h, -, -⟩
      · exact h
      · exact absurd h (by omega)
    rw [hprevt]
    have hcons : pyRange2 (AFp + 2 * jj) (ATp + 2) =
        (AFp + 2 * jj) :: pyRange2 (AFp + 2 * jj + 2) (ATp + 2) :=
      pyRange2_cons _ _ (by omega)
    have hnotbot : AFp + 2 * jj ≠ AF - 1 := by
      rcases hL with ⟨h, -⟩ | ⟨h, -⟩ <;> omega
    have hixr := ixOf_range nm (AFp + 2 * (jj - 1)) hnm
    have hix0 : 0 ≤ ix := by omega
    have hixne : ix ≠ -1 := by omega
    have hixlt : ix < (fu.length : ℤ) := by
      rw [hfl]
      omega
    -- the value of the left neighbour read
    have hpl : pyGet fu (ixOf nm (AFp + 2 * jj - 1)) = t ∨
        (AFp + 2 * jj - 1 = AT ∧ n ≤ t ∧
          pyGet fu (ixOf nm (AFp + 2 * jj - 1)) = t + 1) := by
      apply hold
      · rcases hL with ⟨h, -⟩ | ⟨h, -⟩ <;> omega
      · rcases hR with ⟨h, -⟩ | ⟨h, -⟩ <;> omega
      · rcases hL with ⟨h, -⟩ | ⟨h, -⟩ <;> omega
      · omega
    -- hypotheses for the recursive call, shared by both branches
    have hpre' : ∀ k : ℤ, 0 ≤ k → k ≤ jj + 1 - 2 →
        pyGet (pySet fu ix (t + 1)) (ixOf nm (AFp + 2 * k)) = t + 1 := by
      intro k hk0 hk1
      by_cases hk : k = jj - 1
      · subst hk
        rw [← hix, pyGet_pySet_self fu ix _ hix0 hixlt]
      · have hne : ixOf nm (AFp + 2 * (jj - 1)) ≠ ixOf nm (AFp + 2 * k) := by
          apply ixOf_grid_ne nm AFp hnm _ _ (by omega) (by omega) (by omega)
        rw [← hix] at hne
        rw [pyGet_pySet_ne fu ix _ _ hix0 (ixOf_range nm _ hnm).1 hne]
        exact hpre k hk0 (by omega)
    have hold' : ∀ d : ℤ, AF ≤ d → d ≤ AT → (d - AF) % 2 = 0 →
        AFp + 2 * (jj + 1) - 1 ≤ d →
        pyGet (pySet fu ix (t + 1)) (ixOf nm d) = t ∨
          (d = AT ∧ n ≤ t ∧ pyGet (pySet fu ix (t + 1)) (ixOf nm d) = t + 1) := by
      intro d hdAF hdAT hdpar hdfresh
      by_cases hcol : ixOf nm d = ix
      · rw [hix] at hcol
        have hcl := collide_top nm AFp ATp AT d jj hnm hwidth hjj
          (by omega) hdAT (by rcases hR with ⟨h, -⟩ | ⟨h, -⟩ <;> omega) hcol
        have hnt : n ≤ t := by
          rcases hR with ⟨h, -⟩ | ⟨-, h⟩
          · omega
          · exact h
        rw [← hix] at hcol
        rw [hcol, pyGet_pySet_self fu ix _ hix0 hixlt]
        exact Or.inr ⟨hcl.1, hnt, rfl⟩
      · rw [pyGet_pySet_ne fu ix _ _ hix0 (ixOf_range nm _ hnm).1
          (fun h => hcol h.symm)]
        exact hold d hdAF hdAT hdpar (by omega)
    have hfl' : (pySet fu ix (t + 1)).length = nm.toNat := by
      rw [pySet_length]
      exact hfl
    by_cases htop : AFp + 2 * jj = AT + 1
    · -- the top boundary branch: only the left neighbour is used
      have hRleft : ATp = AT + 1 ∧ t + 1 ≤ n := by
        rcases hR with h | ⟨h, -⟩
        · exact h
        · exact absurd h (by omega)
      have hr0 : r = 0 := by omega
      have hplv : pyGet fu (ixOf nm (AFp + 2 * jj - 1)) = t := by
        rcases hpl with h | ⟨-, h, -⟩
        · exact h
        · exact absurd h (by omega)
      rw [hcons, phase2_cons_fwd_top nm AF AT _ _ fu t ix hnotbot htop hixne,
        hplv]
      have hgoal := ih (jj + 1) (pySet fu ix (t + 1)) t (ixOf nm (AFp + 2 * jj))
        (by omega) (by push_cast at hcount ⊢; omega) hfl' hpre'
        (by
          intro d h1 h2 h3 h4
          exact hold' d h1 h2 h3 h4)
        (Or.inl rfl)
        (by
          congr 1
          ring)
      rw [show AFp + 2 * jj + 2 = AFp + 2 * (jj + 1) by ring]
      exact hgoal
    · -- interior step: progress is the max of the two neighbour reads
      have hplv : pyGet fu (ixOf nm (AFp + 2 * jj - 1)) = t := by
        rcases hpl with h | ⟨h, -, -⟩
        · exact h
        · exact absurd h (by omega)
      have hpr : pyGet fu (ixOf nm (AFp + 2 * jj + 1)) = t ∨
          (AFp + 2 * jj + 1 = AT ∧ n ≤ t ∧
            pyGet fu (ixOf nm (AFp + 2 * jj + 1)) = t + 1) := by
        apply hold
        · rcases hL with ⟨h, -⟩ | ⟨h, -⟩ <;> omega
        · rcases hR with ⟨h, -⟩ | ⟨h, -⟩ <;> omega
        · rcases hL with ⟨h, -⟩ | ⟨h, -⟩ <;> omega
        · omega
      have hprog : max (pyGet fu (ixOf nm (AFp + 2 * jj - 1)))
            (pyGet fu (ixOf nm (AFp + 2 * jj + 1))) = t ∨
          ((r : ℤ) = 0 ∧ n ≤ t ∧
            max (pyGet fu (ixOf nm (AFp + 2 * jj - 1)))
              (pyGet fu (ixOf nm (AFp + 2 * jj + 1))) = t + 1) := by
        rcases hpr with h | ⟨hd, hn, h⟩
        · left
          rw [hplv, h]
          exact max_self t
        · right
          have hrr : (r : ℤ) = 0 := by
            rcases hR with ⟨hh, hh2⟩ | ⟨hh, hh2⟩ <;> omega
          refine ⟨hrr, hn, ?_⟩
          rw [hplv, h]
          omega
      rw [hcons, phase2_cons_fwd nm AF AT _ _ fu t ix hnotbot htop hixne]
      have hgoal := ih (jj + 1) (pySet fu ix (t + 1))
        (max (pyGet fu (ixOf nm (AFp + 2 * jj - 1)))
          (pyGet fu (ixOf nm (AFp + 2 * jj + 1))))
        (ixOf nm (AFp + 2 * jj))
        (by omega) (by push_cast at hcount ⊢; omega) hfl' hpre'
        (by
          intro d h1 h2 h3 h4
          exact hold' d h1 h2 h3 h4)
        (by
          rcases hprog with h | ⟨h1, h2, h3⟩
          · exact Or.inl h
          · exact Or.inr ⟨by omega, h2, h3⟩)
        (by
          congr 1
          ring)
      rw [show AFp + 2 * jj + 2 = AFp + 2 * (jj + 1) by ring]
      exact hgoal

lemma phase2_cons_fwd_first_bot (nm dUF dUT d : ℤ) (rest : List ℤ)
    (fu : List ℤ) (p : ℤ) (h1 : d = dUF - 1) :
    phase2 false nm dUF dUT (d :: rest) fu p (-1) =
      phase2 false nm dUF dUT rest fu (pyGet fu (ixOf nm (d + 1)))
        (ixOf nm d) := by
  rw [phase2]
  simp only [ixOf, if_pos h1, ne_eq, not_true_eq_false, if_false]

lemma phase2_cons_fwd_first_int (nm dUF dUT d : ℤ) (rest : List ℤ)
    (fu : List ℤ) (p : ℤ) (h1 : d ≠ dUF - 1) (h2 : d ≠ dUT + 1) :
    phase2 false nm dUF dUT (d :: rest) fu p (-1) =
      phase2 false nm dUF dUT rest fu
        (max (pyGet fu (ixOf nm (d - 1))) (pyGet fu (ixOf nm (d + 1))))
        (ixOf nm d) := by
  rw [phase2]
  simp only [ixOf, if_neg h1, if_neg h2, Bool.false_eq_true, if_false, ne_eq,
    not_true_eq_false]

/-- A forward cost round's phase 2 turns the exact forward front at `t`
into the exact forward front at `t + 1`. -/
lemma phase2_fwd (n m nm t : ℤ) (hn1 : 1 ≤ n) (hm1 : 1 ≤ m) (ht0 : 0 ≤ t)
    (htb : 2 * t + 1 ≤ n + m) (hnm_eq : nm = min n m + 1) (ff : List ℤ)
    (hff : frontF n m nm t ff) :
    frontF n m nm (t + 1)
      (phase2 false nm (|m - t|) (n + m - |n - t|)
        (pyRange2 (|m - (t + 1)|) ((n + m - |n - (t + 1)|) + 2)) ff
        (-1) (-1)) := by
  obtain ⟨hlen, hval⟩ := hff
  have hnm_c : (nm = n + 1 ∧ n ≤ m) ∨ (nm = m + 1 ∧ m ≤ n) := by
    rcases le_total n m with h | h
    · left
      rw [hnm_eq, min_eq_left h]
      exact ⟨rfl, h⟩
    · right
      rw [hnm_eq, min_eq_right h]
      exact ⟨rfl, h⟩
  have hnm : 0 < nm := by
    rcases hnm_c with ⟨h, -⟩ | ⟨h, -⟩ <;> omega
  have hcore : ∀ AF AT AFp ATp : ℤ,
      AF = |m - t| → AT = n + m - |n - t| → AFp = |m - (t + 1)| →
      ATp = n + m - |n - (t + 1)| →
      (AFp = AF - 1 ∧ t + 1 ≤ m) ∨ (AFp = AF + 1 ∧ m ≤ t) →
      (ATp = AT + 1 ∧ t + 1 ≤ n) ∨ (ATp = AT - 1 ∧ n ≤ t) →
      (ATp - AFp) % 2 = 0 → ATp - AFp ≤ 2 * nm - 2 → AFp ≤ ATp →
      AF ≤ AT → (m ≤ t → AFp + 1 ≤ AT) →
      (phase2 false nm AF AT (pyRange2 AFp (ATp + 2)) ff (-1) (-1)).length =
        nm.toNat ∧
      (∀ k : ℤ, 0 ≤ k → AFp + 2 * k ≤ ATp →
        pyGet (phase2 false nm AF AT (pyRange2 AFp (ATp + 2)) ff (-1) (-1))
          (ixOf nm (AFp + 2 * k)) = t + 1 ∨
        (AFp + 2 * k = ATp ∧ n ≤ t ∧
          pyGet (phase2 false nm AF AT (pyRange2 AFp (ATp + 2)) ff (-1) (-1))
            (ixOf nm (AFp + 2 * k)) = t + 2)) := by
    intro AF AT AFp ATp hAFe hATe hAFpe hATpe hL hR hpar hwidth hAFpATp hAFAT hwin2
    have hAF0 : 0 ≤ AF := by
      rw [hAFe]
      exact abs_nonneg _
    have hAFp0 : 0 ≤ AFp := by
      rw [hAFpe]
      exact abs_nonneg _
    have hAT : AT = n + m - |n - t| := hATe
    -- the value of the old front at an old-window diagonal
    have hold0 : ∀ d : ℤ, AF ≤ d → d ≤ AT → (d - AF) % 2 = 0 →
        pyGet ff (ixOf nm d) = t ∨
          (d = AT ∧ n ≤ t ∧ pyGet ff (ixOf nm d) = t + 1) := by
      intro d h1 h2 h3
      have hpar2 : (d - (m + t)).emod 2 = 0 := by
        have habs : |m - t| = m - t ∨ |m - t| = t - m := by
          rcases abs_cases (m - t) with ⟨h, -⟩ | ⟨h, -⟩ <;> omega
        show (d - (m + t)) % 2 = 0
        rcases habs with h | h <;> omega
      have := hval d (by omega) (by omega) hpar2
      rcases this with h | ⟨hd, hn', hv⟩
      · exact Or.inl h
      · exact Or.inr ⟨by omega, by omega, hv⟩
    -- peel the first diagonal of the new range
    have hcons : pyRange2 AFp (ATp + 2) =
        AFp :: pyRange2 (AFp + 2) (ATp + 2) := pyRange2_cons _ _ (by omega)
    -- the first iteration computes progress t and writes nothing
    have hbotv : pyGet ff (ixOf nm AF) = t := by
      rcases hold0 AF (le_refl AF) hAFAT (by omega) with h | ⟨hd, hn', -⟩
      · exact h
      · exfalso
        have habs1 : |m - t| = m - t ∨ |m - t| = t - m := by
          rcases abs_cases (m - t) with ⟨h', -⟩ | ⟨h', -⟩ <;> omega
        have habs2 : |n - t| = n - t ∨ |n - t| = t - n := by
          rcases abs_cases (n - t) with ⟨h', -⟩ | ⟨h', -⟩ <;> omega
        rcases habs1 with h1 | h1 <;> rcases habs2 with h2 | h2 <;> omega
    have hmain :
        (phase2 false nm AF AT (pyRange2 (AFp + 2) (ATp + 2)) ff t
          (ixOf nm AFp)).length = nm.toNat ∧
        (∀ k : ℤ, 0 ≤ k → AFp + 2 * k ≤ ATp →
          pyGet (phase2 false nm AF AT (pyRange2 (AFp + 2) (ATp + 2)) ff t
            (ixOf nm AFp)) (ixOf nm (AFp + 2 * k)) = t + 1 ∨
          (AFp + 2 * k = ATp ∧ n ≤ t ∧
            pyGet (phase2 false nm AF AT (pyRange2 (AFp + 2) (ATp + 2)) ff t
              (ixOf nm AFp)) (ixOf nm (AFp + 2 * k)) = t + 2)) := by
      obtain ⟨r, hr⟩ : ∃ r : ℕ, ATp + 2 = AFp + 2 * 1 + 2 * (r : ℤ) := by
        refine ⟨((ATp - AFp) / 2).toNat, ?_⟩
        have h2 : 0 ≤ (ATp - AFp) / 2 := by omega
        push_cast
        omega
      have hgo := phase2_fwd_go n m nm t AF AT AFp ATp hnm ht0 hL hR hAF0
        hAFp0 hpar hwidth r 1 ff t (ixOf nm AFp) (le_refl 1) hr hlen
        (by
          intro k hk0 hk1
          exact absurd hk1 (by omega))
        (by
          intro d h1 h2 h3 h4
          exact hold0 d h1 h2 h3)
        (Or.inl rfl)
        (by
          congr 1
          ring)
      rw [show AFp + 2 * 1 = AFp + 2 by ring] at hgo
      exact hgo
    rcases hL with ⟨hLe, hLm⟩ | ⟨hLe, hLm⟩
    · -- new window extends at the bottom: the first diagonal takes the
      -- right-neighbour branch
      rw [hcons, phase2_cons_fwd_first_bot nm AF AT AFp _ ff (-1) (by omega)]
      rw [show AFp + 1 = AF by omega, hbotv]
      exact hmain
    · -- window shrinks at the bottom: the first diagonal is interior
      have hint1 : AFp ≠ AF - 1 := by omega
      have hint2 : AFp ≠ AT + 1 := by
        rcases hR with ⟨h, -⟩ | ⟨h, -⟩ <;> omega
      rw [hcons, phase2_cons_fwd_first_int nm AF AT AFp _ ff (-1) hint1 hint2]
      have hplv : pyGet ff (ixOf nm (AFp - 1)) = t := by
        rw [show AFp - 1 = AF by omega]
        exact hbotv
      have hprv : pyGet ff (ixOf nm (AFp + 1)) = t := by
        rcases hold0 (AFp + 1) (by omega) (hwin2 hLm) (by omega) with
          h | ⟨hd, hn', -⟩
        · exact h
        · exfalso
          rcases hR with ⟨-, h⟩ | ⟨h, -⟩ <;> omega
      rw [hplv, hprv, max_self]
      exact hmain
  -- resolve the absolute values case by case and convert the slotwise
  -- conclusion into the front invariant
  have habs_m : (|m - (t + 1)| = m - (t + 1) ∧ t + 1 ≤ m) ∨
      (|m - (t + 1)| = t + 1 - m ∧ m ≤ t + 1) := by
    rcases abs_cases (m - (t + 1)) with ⟨h1, h2⟩ | ⟨h1, h2⟩
    · exact Or.inl ⟨h1, by omega⟩
    · exact Or.inr ⟨by omega, by omega⟩
  have habs_n : (|n - (t + 1)| = n - (t + 1) ∧ t + 1 ≤ n) ∨
      (|n - (t + 1)| = t + 1 - n ∧ n ≤ t + 1) := by
    rcases abs_cases (n - (t + 1)) with ⟨h1, h2⟩ | ⟨h1, h2⟩
    · exact Or.inl ⟨h1, by omega⟩
    · exact Or.inr ⟨by omega, by omega⟩
  have habs_m0 : (|m - t| = m - t ∧ t ≤ m) ∨ (|m - t| = t - m ∧ m ≤ t) := by
    rcases abs_cases (m - t) with ⟨h1, h2⟩ | ⟨h1, h2⟩
    · exact Or.inl ⟨h1, by omega⟩
    · exact Or.inr ⟨by omega, by omega⟩
  have habs_n0 : (|n - t| = n - t ∧ t ≤ n) ∨ (|n - t| = t - n ∧ n ≤ t) := by
    rcases abs_cases (n - t) with ⟨h1, h2⟩ | ⟨h1, h2⟩
    · exact Or.inl ⟨h1, by omega⟩
    · exact Or.inr ⟨by omega, by omega⟩
  have hL : (|m - (t + 1)| = |m - t| - 1 ∧ t + 1 ≤ m) ∨
      (|m - (t + 1)| = |m - t| + 1 ∧ m ≤ t) := by
    rcases le_or_lt (t + 1) m with h | h
    · left
      constructor
      · rcases habs_m with ⟨h1, h1s⟩ | ⟨h1, h1s⟩ <;>
          rcases habs_m0 with ⟨h2, h2s⟩ | ⟨h2, h2s⟩ <;> omega
      · exact h
    · right
      constructor
      · rcases habs_m with ⟨h1, h1s⟩ | ⟨h1, h1s⟩ <;>
          rcases habs_m0 with ⟨h2, h2s⟩ | ⟨h2, h2s⟩ <;> omega
      · omega
  have hR : (n + m - |n - (t + 1)| = (n + m - |n - t|) + 1 ∧ t + 1 ≤ n) ∨
      (n + m - |n - (t + 1)| = (n + m - |n - t|) - 1 ∧ n ≤ t) := by
    rcases le_or_lt (t + 1) n with h | h
    · left
      constructor
      · rcases habs_n with ⟨h1, h1s⟩ | ⟨h1, h1s⟩ <;>
          rcases habs_n0 with ⟨h2, h2s⟩ | ⟨h2, h2s⟩ <;> omega
      · exact h
    · right
      constructor
      · rcases habs_n with ⟨h1, h1s⟩ | ⟨h1, h1s⟩ <;>
          rcases habs_n0 with ⟨h2, h2s⟩ | ⟨h2, h2s⟩ <;> omega
      · omega
  have hkey := hcore (|m - t|) (n + m - |n - t|) (|m - (t + 1)|)
    (n + m - |n - (t + 1)|) rfl rfl rfl rfl hL hR
    (by
      rcases habs_m with ⟨h1, h1s⟩ | ⟨h1, h1s⟩ <;>
        rcases habs_n with ⟨h2, h2s⟩ | ⟨h2, h2s⟩ <;> omega)
    (by
      rcases hnm_c with ⟨hc1, hc2⟩ | ⟨hc1, hc2⟩ <;>
        rcases habs_m with ⟨h1, h1s⟩ | ⟨h1, h1s⟩ <;>
        rcases habs_n with ⟨h2, h2s⟩ | ⟨h2, h2s⟩ <;> omega)
    (by
      rcases habs_m with ⟨h1, h1s⟩ | ⟨h1, h1s⟩ <;>
        rcases habs_n with ⟨h2, h2s⟩ | ⟨h2, h2s⟩ <;> omega)
    (by
      rcases habs_m0 with ⟨h1, h1s⟩ | ⟨h1, h1s⟩ <;>
        rcases habs_n0 with ⟨h2, h2s⟩ | ⟨h2, h2s⟩ <;> omega)
    (by
      intro hmt
      rcases habs_m with ⟨h1, h1s⟩ | ⟨h1, h1s⟩ <;>
        rcases habs_n0 with ⟨h2, h2s⟩ | ⟨h2, h2s⟩ <;> omega)
  refine ⟨hkey.1, ?_⟩
  intro d hd1 hd2 hd3
  have hd3' : (d - (m + (t + 1))) % 2 = 0 := hd3
  obtain ⟨k, hk0, hdk⟩ : ∃ k : ℤ, 0 ≤ k ∧ d = |m - (t + 1)| + 2 * k := by
    refine ⟨(d - |m - (t + 1)|) / 2, by omega, ?_⟩
    rcases habs_m with ⟨h1, h1s⟩ | ⟨h1, h1s⟩ <;> omega
  have hkval := hkey.2 k hk0 (by omega)
  rw [← hdk] at hkval
  rcases hkval with h | ⟨htop, hnt, h⟩
  · exact Or.inl h
  · exact Or.inr ⟨by omega, by omega, by omega⟩

lemma phase2_cons_rev (nm dUF dUT d : ℤ) (rest : List ℤ) (fu : List ℤ)
    (p ix : ℤ) (h1 : d ≠ dUF - 1) (h2 : d ≠ dUT + 1) (h3 : ix ≠ -1) :
    phase2 true nm dUF dUT (d :: rest) fu p ix =
      phase2 true nm dUF dUT rest (pySet fu ix (p + -1))
        (min (pyGet fu (ixOf nm (d - 1))) (pyGet fu (ixOf nm (d + 1))))
        (ixOf nm d) := by
  rw [phase2]
  simp only [ixOf, if_neg h1, if_neg h2, if_pos h3, eq_self_iff_true, if_true]

lemma phase2_cons_rev_top (nm dUF dUT d : ℤ) (rest : List ℤ) (fu : List ℤ)
    (p ix : ℤ) (h1 : d ≠ dUF - 1) (h2 : d = dUT + 1) (h3 : ix ≠ -1) :
    phase2 true nm dUF dUT (d :: rest) fu p ix =
      phase2 true nm dUF dUT rest (pySet fu ix (p + -1))
        (pyGet fu (ixOf nm (d - 1))) (ixOf nm d) := by
  rw [phase2]
  simp only [ixOf, if_neg h1, if_pos h2, if_pos h3, eq_self_iff_true, if_true]

lemma phase2_nil_rev (nm dUF dUT : ℤ) (fu : List ℤ) (p ix : ℤ) :
    phase2 true nm dUF dUT [] fu p ix = pySet fu ix (p + -1) := by
  rw [phase2]
  simp only [eq_self_iff_true, if_true]

lemma phase2_cons_rev_first_bot (nm dUF dUT d : ℤ) (rest : List ℤ)
    (fu : List ℤ) (p : ℤ) (h1 : d = dUF - 1) :
    phase2 true nm dUF dUT (d :: rest) fu p (-1) =
      phase2 true nm dUF dUT rest fu (pyGet fu (ixOf nm (d + 1)))
        (ixOf nm d) := by
  rw [phase2]
  simp only [ixOf, if_pos h1, ne_eq, not_true_eq_false, if_false]

lemma phase2_cons_rev_first_int (nm dUF dUT d : ℤ) (rest : List ℤ)
    (fu : List ℤ) (p : ℤ) (h1 : d ≠ dUF - 1) (h2 : d ≠ dUT + 1) :
    phase2 true nm dUF dUT (d :: rest) fu p (-1) =
      phase2 true nm dUF dUT rest fu
        (min (pyGet fu (ixOf nm (d - 1))) (pyGet fu (ixOf nm (d + 1))))
        (ixOf nm d) := by
  rw [phase2]
  simp only [ixOf, if_neg h1, if_neg h2, eq_self_iff_true, if_true, ne_eq,
    not_true_eq_false, if_false]

/-- One reverse phase-2 pass over the remaining diagonal grid: every new
grid slot receives `n + m - u - 1`, with a possible undershoot to
`n + m - u - 2` at the top slot when the window is shrinking at the
top. -/
lemma phase2_rev_go (n m nm u AF AT AFp ATp : ℤ)
    (hnm : 0 < nm) (hu0 : 0 ≤ u)
    (hL : (AFp = AF - 1 ∧ u + 1 ≤ n) ∨ (AFp = AF + 1 ∧ n ≤ u))
    (hR : (ATp = AT + 1 ∧ u + 1 ≤ m) ∨ (ATp = AT - 1 ∧ m ≤ u))
    (hAF0 : 0 ≤ AF) (hAFp0 : 0 ≤ AFp) (hpar : (ATp - AFp) % 2 = 0)
    (hwidth : ATp - AFp ≤ 2 * nm - 2) :
    ∀ (r : ℕ) (jj : ℤ) (fu : List ℤ) (previous ix : ℤ),
      1 ≤ jj →
      ATp + 2 = AFp + 2 * jj + 2 * (r : ℤ) →
      fu.length = nm.toNat →
      (∀ k : ℤ, 0 ≤ k → k ≤ jj - 2 →
        pyGet fu (ixOf nm (AFp + 2 * k)) = n + m - u - 1) →
      (∀ d : ℤ, AF ≤ d → d ≤ AT → (d - AF) % 2 = 0 → AFp + 2 * jj - 1 ≤ d →
        pyGet fu (ixOf nm d) = n + m - u ∨
          (d = AT ∧ m ≤ u ∧ pyGet fu (ixOf nm d) = n + m - u - 1)) →
      (previous = n + m - u ∨
        (r = 0 ∧ m ≤ u ∧ previous = n + m - u - 1)) →
      ix = ixOf nm (AFp + 2 * (jj - 1)) →
      (phase2 true nm AF AT (pyRange2 (AFp + 2 * jj) (ATp + 2))
          fu previous ix).length = nm.toNat ∧
      (∀ k : ℤ, 0 ≤ k → AFp + 2 * k ≤ ATp →
        pyGet (phase2 true nm AF AT (pyRange2 (AFp + 2 * jj) (ATp + 2))
          fu previous ix) (ixOf nm (AFp + 2 * k)) = n + m - u - 1 ∨
        (AFp + 2 * k = ATp ∧ m ≤ u ∧
          pyGet (phase2 true nm AF AT (pyRange2 (AFp + 2 * jj) (ATp + 2))
            fu previous ix) (ixOf nm (AFp + 2 * k)) = n + m - u - 2)) := by
  intro r
  induction r with
  | zero =>
    intro jj fu previous ix hjj hcount hfl hpre hold hprev hix
    rw [pyRange2_nil _ _ (by omega), phase2_nil_rev]
    have hixr := ixOf_range nm (AFp + 2 * (jj - 1)) hnm
    have hix0 : 0 ≤ ix := by omega
    have hixlt : ix < (fu.length : ℤ) := by
      rw [hfl]
      omega
    refine ⟨by rw [pySet_length]; exact hfl, ?_⟩
    intro k hk0 hk1
    by_cases hk : k = jj - 1
    · subst hk
      rw [← hix, pyGet_pySet_self fu ix _ hix0 hixlt]
      rcases hprev with rfl | ⟨-, hnt, rfl⟩
      · left
        ring
      · right
        exact ⟨by omega, hnt, by ring⟩
    · have hne : ixOf nm (AFp + 2 * (jj - 1)) ≠ ixOf nm (AFp + 2 * k) := by
        apply ixOf_grid_ne nm AFp hnm _ _ (by omega) (by omega) (by omega)
      rw [← hix] at hne
      rw [pyGet_pySet_ne fu ix _ _ hix0 (ixOf_range nm _ hnm).1 hne]
      left
      exact hpre k hk0 (by omega)
  | succ r ih =>
    intro jj fu previous ix hjj hcount hfl hpre hold hprev hix
    have hprevt : previous = n + m - u := by
      rcases hprev with h | ⟨h, -, -⟩
      · exact h
      · exact absurd h (by omega)
    rw [hprevt]
    have hwrv : n + m - u + -1 = n + m - u - 1 := by ring
    have hcons : pyRange2 (AFp + 2 * jj) (ATp + 2) =
        (AFp + 2 * jj) :: pyRange2 (AFp + 2 * jj + 2) (ATp + 2) :=
      pyRange2_cons _ _ (by omega)
    have hnotbot : AFp + 2 * jj ≠ AF - 1 := by
      rcases hL with ⟨h, -⟩ | ⟨h, -⟩ <;> omega
    have hixr := ixOf_range nm (AFp + 2 * (jj - 1)) hnm
    have hix0 : 0 ≤ ix := by omega
    have hixne : ix ≠ -1 := by omega
    have hixlt : ix < (fu.length : ℤ) := by
      rw [hfl]
      omega
    have hpl : pyGet fu (ixOf nm (AFp + 2 * jj - 1)) = n + m - u ∨
        (AFp + 2 * jj - 1 = AT ∧ m ≤ u ∧
          pyGet fu (ixOf nm (AFp + 2 * jj - 1)) = n + m - u - 1) := by
      apply hold
      · rcases hL with ⟨h, -⟩ | ⟨h, -⟩ <;> omega
      · rcases hR with ⟨h, -⟩ | ⟨h, -⟩ <;> omega
      · rcases hL with ⟨h, -⟩ | ⟨h, -⟩ <;> omega
      · omega
    have hpre' : ∀ k : ℤ, 0 ≤ k → k ≤ jj + 1 - 2 →
        pyGet (pySet fu ix (n + m - u + -1)) (ixOf nm (AFp + 2 * k)) =
          n + m - u - 1 := by
      intro k hk0 hk1
      by_cases hk : k = jj - 1
      · subst hk
        rw [← hix, pyGet_pySet_self fu ix _ hix0 hixlt]
        ring
      · have hne : ixOf nm (AFp + 2 * (jj - 1)) ≠ ixOf nm (AFp + 2 * k) := by
          apply ixOf_grid_ne nm AFp hnm _ _ (by omega) (by omega) (by omega)
        rw [← hix] at hne
        rw [pyGet_pySet_ne fu ix _ _ hix0 (ixOf_range nm _ hnm).1 hne]
        exact hpre k hk0 (by omega)
    have hold' : ∀ d : ℤ, AF ≤ d → d ≤ AT → (d - AF) % 2 = 0 →
        AFp + 2 * (jj + 1) - 1 ≤ d →
        pyGet (pySet fu ix (n + m - u + -1)) (ixOf nm d) = n + m - u ∨
          (d = AT ∧ m ≤ u ∧
            pyGet (pySet fu ix (n + m - u + -1)) (ixOf nm d) =
              n + m - u - 1) := by
      intro d hdAF hdAT hdpar hdfresh
      by_cases hcol : ixOf nm d = ix
      · rw [hix] at hcol
        have hcl := collide_top nm AFp ATp AT d jj hnm hwidth hjj
          (by omega) hdAT (by rcases hR with ⟨h, -⟩ | ⟨h, -⟩ <;> omega) hcol
        have hnt : m ≤ u := by
          rcases hR with ⟨h, -⟩ | ⟨-, h⟩
          · omega
          · exact h
        rw [← hix] at hcol
        rw [hcol, pyGet_pySet_self fu ix _ hix0 hixlt]
        exact Or.inr ⟨hcl.1, hnt, by ring⟩
      · rw [pyGet_pySet_ne fu ix _ _ hix0 (ixOf_range nm _ hnm).1
          (fun h => hcol h.symm)]
        exact hold d hdAF hdAT hdpar (by omega)
    have hfl' : (pySet fu ix (n + m - u + -1)).length = nm.toNat := by
      rw [pySet_length]
      exact hfl
    by_cases htop : AFp + 2 * jj = AT + 1
    · have hRleft : ATp = AT + 1 ∧ u + 1 ≤ m := by
        rcases hR with h | ⟨h, -⟩
        · exact h
        · exact absurd h (by omega)
      have hr0 : r = 0 := by omega
      have hplv : pyGet fu (ixOf nm (AFp + 2 * jj - 1)) = n + m - u := by
        rcases hpl with h | ⟨-, h, -⟩
        · exact h
        · exact absurd h (by omega)
      rw [hcons, phase2_cons_rev_top nm AF AT _ _ fu (n + m - u) ix hnotbot
        htop hixne, hplv]
      have hgoal := ih (jj + 1) (pySet fu ix (n + m - u + -1)) (n + m - u)
        (ixOf nm (AFp + 2 * jj))
        (by omega) (by push_cast at hcount ⊢; omega) hfl' hpre'
        (by
          intro d h1 h2 h3 h4
          exact hold' d h1 h2 h3 h4)
        (Or.inl rfl)
        (by
          congr 1
          ring)
      rw [show AFp + 2 * jj + 2 = AFp + 2 * (jj + 1) by ring]
      exact hgoal
    · have hplv : pyGet fu (ixOf nm (AFp + 2 * jj - 1)) = n + m - u := by
        rcases hpl with h | ⟨h, -, -⟩
        · exact h
        · exact absurd h (by omega)
      have hpr : pyGet fu (ixOf nm (AFp + 2 * jj + 1)) = n + m - u ∨
          (AFp + 2 * jj + 1 = AT ∧ m ≤ u ∧
            pyGet fu (ixOf nm (AFp + 2 * jj + 1)) = n + m - u - 1) := by
        apply hold
        · rcases hL with ⟨h, -⟩ | ⟨h, -⟩ <;> omega
        · rcases hR with ⟨h, -⟩ | ⟨h, -⟩ <;> omega
        · rcases hL with ⟨h, -⟩ | ⟨h, -⟩ <;> omega
        · omega
      have hprog : min (pyGet fu (ixOf nm (AFp + 2 * jj - 1)))
            (pyGet fu (ixOf nm (AFp + 2 * jj + 1))) = n + m - u ∨
          ((r : ℤ) = 0 ∧ m ≤ u ∧
            min (pyGet fu (ixOf nm (AFp + 2 * jj - 1)))
              (pyGet fu (ixOf nm (AFp + 2 * jj + 1))) = n + m - u - 1) := by
        rcases hpr with h | ⟨hd, hn, h⟩
        · left
          rw [hplv, h]
          exact min_self _
        · right
          have hrr : (r : ℤ) = 0 := by
            rcases hR with ⟨hh, hh2⟩ | ⟨hh, hh2⟩ <;> omega
          refine ⟨hrr, hn, ?_⟩
          rw [hplv, h]
          omega
      rw [hcons, phase2_cons_rev nm AF AT _ _ fu (n + m - u) ix hnotbot htop
        hixne]
      have hgoal := ih (jj + 1) (pySet fu ix (n + m - u + -1))
        (min (pyGet fu (ixOf nm (AFp + 2 * jj - 1)))
          (pyGet fu (ixOf nm (AFp + 2 * jj + 1))))
        (ixOf nm (AFp + 2 * jj))
        (by omega) (by push_cast at hcount ⊢; omega) hfl' hpre'
        (by
          intro d h1 h2 h3 h4
          exact hold' d h1 h2 h3 h4)
        (by
          rcases hprog with h | ⟨h1, h2, h3⟩
          · exact Or.inl h
          · exact Or.inr ⟨by omega, h2, h3⟩)
        (by
          congr 1
          ring)
      rw [show AFp + 2 * jj + 2 = AFp + 2 * (jj + 1) by ring]
      exact hgoal

/-- A reverse cost round's phase 2 turns the exact reverse front at `u`
into the exact reverse front at `u + 1`. -/
lemma phase2_rev (n m nm u : ℤ) (hn1 : 1 ≤ n) (hm1 : 1 ≤ m) (hu0 : 0 ≤ u)
    (hub : 2 * u + 1 ≤ n + m) (hnm_eq : nm = min n m + 1) (fr : List ℤ)
    (hfr : frontR n m nm u fr) :
    frontR n m nm (u + 1)
      (phase2 true nm (|n - u|) (n + m - |m - u|)
        (pyRange2 (|n - (u + 1)|) ((n + m - |m - (u + 1)|) + 2)) fr
        (-1) (-1)) := by
  obtain ⟨hlen, hval⟩ := hfr
  have hnm_c : (nm = n + 1 ∧ n ≤ m) ∨ (nm = m + 1 ∧ m ≤ n) := by
    rcases le_total n m with h | h
    · left
      rw [hnm_eq, min_eq_left h]
      exact ⟨rfl, h⟩
    · right
      rw [hnm_eq, min_eq_right h]
      exact ⟨rfl, h⟩
  have hnm : 0 < nm := by
    rcases hnm_c with ⟨h, -⟩ | ⟨h, -⟩ <;> omega
  have hcore : ∀ AF AT AFp ATp : ℤ,
      AF = |n - u| → AT = n + m - |m - u| → AFp = |n - (u + 1)| →
      ATp = n + m - |m - (u + 1)| →
      (AFp = AF - 1 ∧ u + 1 ≤ n) ∨ (AFp = AF + 1 ∧ n ≤ u) →
      (ATp = AT + 1 ∧ u + 1 ≤ m) ∨ (ATp = AT - 1 ∧ m ≤ u) →
      (ATp - AFp) % 2 = 0 → ATp - AFp ≤ 2 * nm - 2 → AFp ≤ ATp →
      AF ≤ AT → (n ≤ u → AFp + 1 ≤ AT) →
      (phase2 true nm AF AT (pyRange2 AFp (ATp + 2)) fr (-1) (-1)).length =
        nm.toNat ∧
      (∀ k : ℤ, 0 ≤ k → AFp + 2 * k ≤ ATp →
        pyGet (phase2 true nm AF AT (pyRange2 AFp (ATp + 2)) fr (-1) (-1))
          (ixOf nm (AFp + 2 * k)) = n + m - u - 1 ∨
        (AFp + 2 * k = ATp ∧ m ≤ u ∧
          pyGet (phase2 true nm AF AT (pyRange2 AFp (ATp + 2)) fr (-1) (-1))
            (ixOf nm (AFp + 2 * k)) = n + m - u - 2)) := by
    intro AF AT AFp ATp hAFe hATe hAFpe hATpe hL hR hpar hwidth hAFpATp hAFAT hwin2
    have hAF0 : 0 ≤ AF := by
      rw [hAFe]
      exact abs_nonneg _
    have hAFp0 : 0 ≤ AFp := by
      rw [hAFpe]
      exact abs_nonneg _
    have hold0 : ∀ d : ℤ, AF ≤ d → d ≤ AT → (d - AF) % 2 = 0 →
        pyGet fr (ixOf nm d) = n + m - u ∨
          (d = AT ∧ m ≤ u ∧ pyGet fr (ixOf nm d) = n + m - u - 1) := by
      intro d h1 h2 h3
      have hpar2 : (d - (n + u)).emod 2 = 0 := by
        have habs : |n - u| = n - u ∨ |n - u| = u - n := by
          rcases abs_cases (n - u) with ⟨h, -⟩ | ⟨h, -⟩ <;> omega
        show (d - (n + u)) % 2 = 0
        rcases habs with h | h <;> omega
      have := hval d (by omega) (by omega) hpar2
      rcases this with h | ⟨hd, hn', hv⟩
      · exact Or.inl h
      · exact Or.inr ⟨by omega, by omega, hv⟩
    have hcons : pyRange2 AFp (ATp + 2) =
        AFp :: pyRange2 (AFp + 2) (ATp + 2) := pyRange2_cons _ _ (by omega)
    have hbotv : pyGet fr (ixOf nm AF) = n + m - u := by
      rcases hold0 AF (le_refl AF) hAFAT (by omega) with h | ⟨hd, hn', -⟩
      · exact h
      · exfalso
        have habs1 : |n - u| = n - u ∨ |n - u| = u - n := by
          rcases abs_cases (n - u) with ⟨h', -⟩ | ⟨h', -⟩ <;> omega
        have habs2 : |m - u| = m - u ∨ |m - u| = u - m := by
          rcases abs_cases (m - u) with ⟨h', -⟩ | ⟨h', -⟩ <;> omega
        rcases habs1 with h1 | h1 <;> rcases habs2 with h2 | h2 <;> omega
    have hmain :
        (phase2 true nm AF AT (pyRange2 (AFp + 2) (ATp + 2)) fr (n + m - u)
          (ixOf nm AFp)).length = nm.toNat ∧
        (∀ k : ℤ, 0 ≤ k → AFp + 2 * k ≤ ATp →
          pyGet (phase2 true nm AF AT (pyRange2 (AFp + 2) (ATp + 2)) fr
            (n + m - u) (ixOf nm AFp)) (ixOf nm (AFp + 2 * k)) =
              n + m - u - 1 ∨
          (AFp + 2 * k = ATp ∧ m ≤ u ∧
            pyGet (phase2 true nm AF AT (pyRange2 (AFp + 2) (ATp + 2)) fr
              (n + m - u) (ixOf nm AFp)) (ixOf nm (AFp + 2 * k)) =
                n + m - u - 2)) := by
      obtain ⟨r, hr⟩ : ∃ r : ℕ, ATp + 2 = AFp + 2 * 1 + 2 * (r : ℤ) := by
        refine ⟨((ATp - AFp) / 2).toNat, ?_⟩
        have h2 : 0 ≤ (ATp - AFp) / 2 := by omega
        push_cast
        omega
      have hgo := phase2_rev_go n m nm u AF AT AFp ATp hnm hu0 hL hR hAF0
        hAFp0 hpar hwidth r 1 fr (n + m - u) (ixOf nm AFp) (le_refl 1) hr hlen
        (by
          intro k hk0 hk1
          exact absurd hk1 (by omega))
        (by
          intro d h1 h2 h3 h4
          exact hold0 d h1 h2 h3)
        (Or.inl rfl)
        (by
          congr 1
          ring)
      rw [show AFp + 2 * 1 = AFp + 2 by ring] at hgo
      exact hgo
    rcases hL with ⟨hLe, hLm⟩ | ⟨hLe, hLm⟩
    · rw [hcons, phase2_cons_rev_first_bot nm AF AT AFp _ fr (-1) (by omega)]
      rw [show AFp + 1 = AF by omega, hbotv]
      exact hmain
    · have hint1 : AFp ≠ AF - 1 := by omega
      have hint2 : AFp ≠ AT + 1 := by
        rcases hR with ⟨h, -⟩ | ⟨h, -⟩ <;> omega
      rw [hcons, phase2_cons_rev_first_int nm AF AT AFp _ fr (-1) hint1 hint2]
      have hplv : pyGet fr (ixOf nm (AFp - 1)) = n + m - u := by
        rw [show AFp - 1 = AF by omega]
        exact hbotv
      have hprv : pyGet fr (ixOf nm (AFp + 1)) = n + m - u := by
        rcases hold0 (AFp + 1) (by omega) (hwin2 hLm) (by omega) with
          h | ⟨hd, hn', -⟩
        · exact h
        · exfalso
          rcases hR with ⟨-, h⟩ | ⟨h, -⟩ <;> omega
      rw [hplv, hprv, min_self]
      exact hmain
  have habs_m : (|n - (u + 1)| = n - (u + 1) ∧ u + 1 ≤ n) ∨
      (|n - (u + 1)| = u + 1 - n ∧ n ≤ u + 1) := by
    rcases abs_cases (n - (u + 1)) with ⟨h1, h2⟩ | ⟨h1, h2⟩
    · exact Or.inl ⟨h1, by omega⟩
    · exact Or.inr ⟨by omega, by omega⟩
  have habs_n : (|m - (u + 1)| = m - (u + 1) ∧ u + 1 ≤ m) ∨
      (|m - (u + 1)| = u + 1 - m ∧ m ≤ u + 1) := by
    rcases abs_cases (m - (u + 1)) with ⟨h1, h2⟩ | ⟨h1, h2⟩
    · exact Or.inl ⟨h1, by omega⟩
    · exact Or.inr ⟨by omega, by omega⟩
  have habs_m0 : (|n - u| = n - u ∧ u ≤ n) ∨ (|n - u| = u - n ∧ n ≤ u) := by
    rcases abs_cases (n - u) with ⟨h1, h2⟩ | ⟨h1, h2⟩
    · exact Or.inl ⟨h1, by omega⟩
    · exact Or.inr ⟨by omega, by omega⟩
  have habs_n0 : (|m - u| = m - u ∧ u ≤ m) ∨ (|m - u| = u - m ∧ m ≤ u) := by
    rcases abs_cases (m - u) with ⟨h1, h2⟩ | ⟨h1, h2⟩
    · exact Or.inl ⟨h1, by omega⟩
    · exact Or.inr ⟨by omega, by omega⟩
  have hL : (|n - (u + 1)| = |n - u| - 1 ∧ u + 1 ≤ n) ∨
      (|n - (u + 1)| = |n - u| + 1 ∧ n ≤ u) := by
    rcases le_or_lt (u + 1) n with h | h
    · left
      constructor
      · rcases habs_m with ⟨h1, h1s⟩ | ⟨h1, h1s⟩ <;>
          rcases habs_m0 with ⟨h2, h2s⟩ | ⟨h2, h2s⟩ <;> omega
      · exact h
    · right
      constructor
      · rcases habs_m with ⟨h1, h1s⟩ | ⟨h1, h1s⟩ <;>
          rcases habs_m0 with ⟨h2, h2s⟩ | ⟨h2, h2s⟩ <;> omega
      · omega
  have hR : (n + m - |m - (u + 1)| = (n + m - |m - u|) + 1 ∧ u + 1 ≤ m) ∨
      (n + m - |m - (u + 1)| = (n + m - |m - u|) - 1 ∧ m ≤ u) := by
    rcases le_or_lt (u + 1) m with h | h
    · left
      constructor
      · rcases habs_n with ⟨h1, h1s⟩ | ⟨h1, h1s⟩ <;>
          rcases habs_n0 with ⟨h2, h2s⟩ | ⟨h2, h2s⟩ <;> omega
      · exact h
    · right
      constructor
      · rcases habs_n with ⟨h1, h1s⟩ | ⟨h1, h1s⟩ <;>
          rcases habs_n0 with ⟨h2, h2s⟩ | ⟨h2, h2s⟩ <;> omega
      · omega
  have hkey := hcore (|n - u|) (n + m - |m - u|) (|n - (u + 1)|)
    (n + m - |m - (u + 1)|) rfl rfl rfl rfl hL hR
    (by
      rcases habs_m with ⟨h1, h1s⟩ | ⟨h1, h1s⟩ <;>
        rcases habs_n with ⟨h2, h2s⟩ | ⟨h2, h2s⟩ <;> omega)
    (by
      rcases hnm_c with ⟨hc1, hc2⟩ | ⟨hc1, hc2⟩ <;>
        rcases habs_m with ⟨h1, h1s⟩ | ⟨h1, h1s⟩ <;>
        rcases habs_n with ⟨h2, h2s⟩ | ⟨h2, h2s⟩ <;> omega)
    (by
      rcases habs_m with ⟨h1, h1s⟩ | ⟨h1, h1s⟩ <;>
        rcases habs_n with ⟨h2, h2s⟩ | ⟨h2, h2s⟩ <;> omega)
    (by
      rcases habs_m0 with ⟨h1, h1s⟩ | ⟨h1, h1s⟩ <;>
        rcases habs_n0 with ⟨h2, h2s⟩ | ⟨h2, h2s⟩ <;> omega)
    (by
      intro hmt
      rcases habs_m with ⟨h1, h1s⟩ | ⟨h1, h1s⟩ <;>
        rcases habs_n0 with ⟨h2, h2s⟩ | ⟨h2, h2s⟩ <;> omega)
  refine ⟨hkey.1, ?_⟩
  intro d hd1 hd2 hd3
  have hd3' : (d - (n + (u + 1))) % 2 = 0 := hd3
  obtain ⟨k, hk0, hdk⟩ : ∃ k : ℤ, 0 ≤ k ∧ d = |n - (u + 1)| + 2 * k := by
    refine ⟨(d - |n - (u + 1)|) / 2, by omega, ?_⟩
    rcases habs_m with ⟨h1, h1s⟩ | ⟨h1, h1s⟩ <;> omega
  have hkval := hkey.2 k hk0 (by omega)
  rw [← hdk] at hkval
  rcases hkval with h | ⟨htop, hnt, h⟩
  · left
    omega
  · right
    exact ⟨by omega, by omega, by omega⟩

/-- Before round `n + m`, no diagonal examined in an even round passes
the fire test. -/
lemma no_fire_even (n m nm t : ℤ) (hn1 : 1 ≤ n) (hm1 : 1 ≤ m) (ht0 : 0 ≤ t)
    (hc : 2 * t < n + m) (hnm : 0 < nm) (ff fr : List ℤ)
    (hff : frontF n m nm t ff) (hfr : frontR n m nm t fr) :
    ∀ d ∈ pyRange2 (|m - t|) ((n + m - |n - t|) + 2),
      ¬ fireTest nm (|n - t|) (n + m - |m - t|) ff fr d := by
  intro d hd hft
  obtain ⟨k, hdk, hdlt⟩ := (mem_pyRange2 _ _ _).mp hd
  obtain ⟨hf1, hf2, hf3, hf4⟩ := hft
  have hf3' : (d - |n - t|) % 2 = 0 := hf3
  have habs_m : (|m - t| = m - t ∧ t ≤ m) ∨ (|m - t| = t - m ∧ m ≤ t) := by
    rcases abs_cases (m - t) with ⟨h1, h2⟩ | ⟨h1, h2⟩
    · exact Or.inl ⟨h1, by omega⟩
    · exact Or.inr ⟨by omega, by omega⟩
  have habs_n : (|n - t| = n - t ∧ t ≤ n) ∨ (|n - t| = t - n ∧ n ≤ t) := by
    rcases abs_cases (n - t) with ⟨h1, h2⟩ | ⟨h1, h2⟩
    · exact Or.inl ⟨h1, by omega⟩
    · exact Or.inr ⟨by omega, by omega⟩
  have hffv := hff.2 d (by omega)
    (by rcases habs_m with ⟨h1, h1s⟩ | ⟨h1, h1s⟩ <;>
      rcases habs_n with ⟨h2, h2s⟩ | ⟨h2, h2s⟩ <;> omega)
    (by
      show (d - (m + t)) % 2 = 0
      rcases habs_m with ⟨h1, h1s⟩ | ⟨h1, h1s⟩ <;> omega)
  have hfrv := hfr.2 d hf1 hf2
    (by
      show (d - (n + t)) % 2 = 0
      rcases habs_n with ⟨h2, h2s⟩ | ⟨h2, h2s⟩ <;> omega)
  rcases hffv with hv1 | ⟨hd1, hx1, hv1⟩ <;>
    rcases hfrv with hv2 | ⟨hd2, hx2, hv2⟩ <;>
    rcases habs_m with ⟨h1, h1s⟩ | ⟨h1, h1s⟩ <;>
    rcases habs_n with ⟨h2, h2s⟩ | ⟨h2, h2s⟩ <;> omega

/-- Before round `n + m`, no diagonal examined in an odd round passes
the fire test. -/
lemma no_fire_odd (n m nm u : ℤ) (hn1 : 1 ≤ n) (hm1 : 1 ≤ m) (hu0 : 0 ≤ u)
    (hc : 2 * u + 1 < n + m) (hnm : 0 < nm) (ff fr : List ℤ)
    (hff : frontF n m nm (u + 1) ff) (hfr : frontR n m nm u fr) :
    ∀ d ∈ pyRange2 (|n - u|) ((n + m - |m - u|) + 2),
      ¬ fireTest nm (|m - (u + 1)|) (n + m - |n - (u + 1)|) ff fr d := by
  intro d hd hft
  obtain ⟨k, hdk, hdlt⟩ := (mem_pyRange2 _ _ _).mp hd
  obtain ⟨hf1, hf2, hf3, hf4⟩ := hft
  have hf3' : (d - |m - (u + 1)|) % 2 = 0 := hf3
  have habs_m : (|m - u| = m - u ∧ u ≤ m) ∨ (|m - u| = u - m ∧ m ≤ u) := by
    rcases abs_cases (m - u) with ⟨h1, h2⟩ | ⟨h1, h2⟩
    · exact Or.inl ⟨h1, by omega⟩
    · exact Or.inr ⟨by omega, by omega⟩
  have habs_n : (|n - u| = n - u ∧ u ≤ n) ∨ (|n - u| = u - n ∧ n ≤ u) := by
    rcases abs_cases (n - u) with ⟨h1, h2⟩ | ⟨h1, h2⟩
    · exact Or.inl ⟨h1, by omega⟩
    · exact Or.inr ⟨by omega, by omega⟩
  have habs_m1 : (|m - (u + 1)| = m - (u + 1) ∧ u + 1 ≤ m) ∨
      (|m - (u + 1)| = u + 1 - m ∧ m ≤ u + 1) := by
    rcases abs_cases (m - (u + 1)) with ⟨h1, h2⟩ | ⟨h1, h2⟩
    · exact Or.inl ⟨h1, by omega⟩
    · exact Or.inr ⟨by omega, by omega⟩
  have habs_n1 : (|n - (u + 1)| = n - (u + 1) ∧ u + 1 ≤ n) ∨
      (|n - (u + 1)| = u + 1 - n ∧ n ≤ u + 1) := by
    rcases abs_cases (n - (u + 1)) with ⟨h1, h2⟩ | ⟨h1, h2⟩
    · exact Or.inl ⟨h1, by omega⟩
    · exact Or.inr ⟨by omega, by omega⟩
  have hffv := hff.2 d
    (by rcases habs_m1 with ⟨h1, h1s⟩ | ⟨h1, h1s⟩ <;> omega)
    (by rcases habs_n1 with ⟨h1, h1s⟩ | ⟨h1, h1s⟩ <;> omega)
    (by
      show (d - (m + (u + 1))) % 2 = 0
      rcases habs_m1 with ⟨h1, h1s⟩ | ⟨h1, h1s⟩ <;> omega)
  have hfrv := hfr.2 d
    (by rcases habs_n with ⟨h2, h2s⟩ | ⟨h2, h2s⟩ <;> omega)
    (by rcases habs_m with ⟨h2, h2s⟩ | ⟨h2, h2s⟩ <;>
      rcases habs_n with ⟨h3, h3s⟩ | ⟨h3, h3s⟩ <;> omega)
    (by
      show (d - (n + u)) % 2 = 0
      rcases habs_n with ⟨h2, h2s⟩ | ⟨h2, h2s⟩ <;> omega)
  rcases hffv with hv1 | ⟨hd1, hx1, hv1⟩ <;>
    rcases hfrv with hv2 | ⟨hd2, hx2, hv2⟩ <;>
    rcases habs_m1 with ⟨h1, h1s⟩ | ⟨h1, h1s⟩ <;>
    rcases habs_n1 with ⟨h5, h5s⟩ | ⟨h5, h5s⟩ <;>
    rcases habs_m with ⟨h6, h6s⟩ | ⟨h6, h6s⟩ <;>
    rcases habs_n with ⟨h7, h7s⟩ | ⟨h7, h7s⟩ <;> omega

/-- At the final even round the first examined diagonal passes the fire
test, and both fronts hold `(n + m) / 2` there. -/
lemma fire_head_even (n m nm t : ℤ) (hn1 : 1 ≤ n) (hm1 : 1 ≤ m)
    (hc : 2 * t = n + m) (hnm : 0 < nm) (ff fr : List ℤ)
    (hff : frontF n m nm t ff) (hfr : frontR n m nm t fr) :
    fireTest nm (|n - t|) (n + m - |m - t|) ff fr (|m - t|) ∧
    pyGet ff (ixOf nm (|m - t|)) = t := by
  have habs_m : (|m - t| = m - t ∧ t ≤ m) ∨ (|m - t| = t - m ∧ m ≤ t) := by
    rcases abs_cases (m - t) with ⟨h1, h2⟩ | ⟨h1, h2⟩
    · exact Or.inl ⟨h1, by omega⟩
    · exact Or.inr ⟨by omega, by omega⟩
  have habs_n : (|n - t| = n - t ∧ t ≤ n) ∨ (|n - t| = t - n ∧ n ≤ t) := by
    rcases abs_cases (n - t) with ⟨h1, h2⟩ | ⟨h1, h2⟩
    · exact Or.inl ⟨h1, by omega⟩
    · exact Or.inr ⟨by omega, by omega⟩
  have hffv := hff.2 (|m - t|) (le_refl _)
    (by rcases habs_m with ⟨h1, h1s⟩ | ⟨h1, h1s⟩ <;>
      rcases habs_n with ⟨h2, h2s⟩ | ⟨h2, h2s⟩ <;> omega)
    (by
      show (|m - t| - (m + t)) % 2 = 0
      rcases habs_m with ⟨h1, h1s⟩ | ⟨h1, h1s⟩ <;> omega)
  have hfft : pyGet ff (ixOf nm (|m - t|)) = t := by
    rcases hffv with hv | ⟨hd1, hx1, hv⟩
    · exact hv
    · exfalso
      rcases habs_m with ⟨h1, h1s⟩ | ⟨h1, h1s⟩ <;>
        rcases habs_n with ⟨h2, h2s⟩ | ⟨h2, h2s⟩ <;> omega
  have hfrv := hfr.2 (|m - t|)
    (by rcases habs_m with ⟨h1, h1s⟩ | ⟨h1, h1s⟩ <;>
      rcases habs_n with ⟨h2, h2s⟩ | ⟨h2, h2s⟩ <;> omega)
    (by rcases habs_m with ⟨h1, h1s⟩ | ⟨h1, h1s⟩ <;>
      rcases habs_n with ⟨h2, h2s⟩ | ⟨h2, h2s⟩ <;> omega)
    (by
      show (|m - t| - (n + t)) % 2 = 0
      rcases habs_m with ⟨h1, h1s⟩ | ⟨h1, h1s⟩ <;>
        rcases habs_n with ⟨h2, h2s⟩ | ⟨h2, h2s⟩ <;> omega)
  have hfrt : pyGet fr (ixOf nm (|m - t|)) = t := by
    rcases hfrv with hv | ⟨hd1, hx1, hv⟩
    · rw [hv]
      omega
    · exfalso
      rcases habs_m with ⟨h1, h1s⟩ | ⟨h1, h1s⟩ <;>
        rcases habs_n with ⟨h2, h2s⟩ | ⟨h2, h2s⟩ <;> omega
  refine ⟨⟨?_, ?_, ?_, ?_⟩, hfft⟩
  · rcases habs_m with ⟨h1, h1s⟩ | ⟨h1, h1s⟩ <;>
      rcases habs_n with ⟨h2, h2s⟩ | ⟨h2, h2s⟩ <;> omega
  · rcases habs_m with ⟨h1, h1s⟩ | ⟨h1, h1s⟩ <;>
      rcases habs_n with ⟨h2, h2s⟩ | ⟨h2, h2s⟩ <;> omega
  · show (|m - t| - |n - t|) % 2 = 0
    rcases habs_m with ⟨h1, h1s⟩ | ⟨h1, h1s⟩ <;>
      rcases habs_n with ⟨h2, h2s⟩ | ⟨h2, h2s⟩ <;> omega
  · rw [hfrt, hfft]

/-- At the final odd round the first examined diagonal passes the fire
test, and the reverse front holds `(n + m + 1) / 2` there. -/
lemma fire_head_odd (n m nm u : ℤ) (hn1 : 1 ≤ n) (hm1 : 1 ≤ m) (hu0 : 0 ≤ u)
    (hc : 2 * u + 1 = n + m) (hnm : 0 < nm) (ff fr : List ℤ)
    (hff : frontF n m nm (u + 1) ff) (hfr : frontR n m nm u fr) :
    fireTest nm (|m - (u + 1)|) (n + m - |n - (u + 1)|) ff fr (|n - u|) ∧
    pyGet fr (ixOf nm (|n - u|)) = u + 1 := by
  have habs_m : (|m - u| = m - u ∧ u ≤ m) ∨ (|m - u| = u - m ∧ m ≤ u) := by
    rcases abs_cases (m - u) with ⟨h1, h2⟩ | ⟨h1, h2⟩
    · exact Or.inl ⟨h1, by omega⟩
    · exact Or.inr ⟨by omega, by omega⟩
  have habs_n : (|n - u| = n - u ∧ u ≤ n) ∨ (|n - u| = u - n ∧ n ≤ u) := by
    rcases abs_cases (n - u) with ⟨h1, h2⟩ | ⟨h1, h2⟩
    · exact Or.inl ⟨h1, by omega⟩
    · exact Or.inr ⟨by omega, by omega⟩
  have habs_m1 : (|m - (u + 1)| = m - (u + 1) ∧ u + 1 ≤ m) ∨
      (|m - (u + 1)| = u + 1 - m ∧ m ≤ u + 1) := by
    rcases abs_cases (m - (u + 1)) with ⟨h1, h2⟩ | ⟨h1, h2⟩
    · exact Or.inl ⟨h1, by omega⟩
    · exact Or.inr ⟨by omega, by omega⟩
  have habs_n1 : (|n - (u + 1)| = n - (u + 1) ∧ u + 1 ≤ n) ∨
      (|n - (u + 1)| = u + 1 - n ∧ n ≤ u + 1) := by
    rcases abs_cases (n - (u + 1)) with ⟨h1, h2⟩ | ⟨h1, h2⟩
    · exact Or.inl ⟨h1, by omega⟩
    · exact Or.inr ⟨by omega, by omega⟩
  have hffv := hff.2 (|n - u|)
    (by rcases habs_m1 with ⟨h1, h1s⟩ | ⟨h1, h1s⟩ <;>
      rcases habs_n with ⟨h2, h2s⟩ | ⟨h2, h2s⟩ <;> omega)
    (by rcases habs_n1 with ⟨h1, h1s⟩ | ⟨h1, h1s⟩ <;>
      rcases habs_n with ⟨h2, h2s⟩ | ⟨h2, h2s⟩ <;> omega)
    (by
      show (|n - u| - (m + (u + 1))) % 2 = 0
      rcases habs_n with ⟨h2, h2s⟩ | ⟨h2, h2s⟩ <;> omega)
  have hfft : pyGet ff (ixOf nm (|n - u|)) = u + 1 := by
    rcases hffv with hv | ⟨hd1, hx1, hv⟩
    · exact hv
    · exfalso
      rcases habs_n1 with ⟨h1, h1s⟩ | ⟨h1, h1s⟩ <;>
        rcases habs_n with ⟨h2, h2s⟩ | ⟨h2, h2s⟩ <;> omega
  have hfrv := hfr.2 (|n - u|) (le_refl _)
    (by rcases habs_m with ⟨h1, h1s⟩ | ⟨h1, h1s⟩ <;>
      rcases habs_n with ⟨h2, h2s⟩ | ⟨h2, h2s⟩ <;> omega)
    (by
      show (|n - u| - (n + u)) % 2 = 0
      rcases habs_n with ⟨h2, h2s⟩ | ⟨h2, h2s⟩ <;> omega)
  have hfrt : pyGet fr (ixOf nm (|n - u|)) = u + 1 := by
    rcases hfrv with hv | ⟨hd1, hx1, hv⟩
    · rw [hv]
      omega
    · exfalso
      rcases habs_m with ⟨h1, h1s⟩ | ⟨h1, h1s⟩ <;>
        rcases habs_n with ⟨h2, h2s⟩ | ⟨h2, h2s⟩ <;> omega
  refine ⟨⟨?_, ?_, ?_, ?_⟩, hfrt⟩
  · rcases habs_m1 with ⟨h1, h1s⟩ | ⟨h1, h1s⟩ <;>
      rcases habs_n with ⟨h2, h2s⟩ | ⟨h2, h2s⟩ <;> omega
  · rcases habs_m1 with ⟨h1, h1s⟩ | ⟨h1, h1s⟩ <;>
      rcases habs_n1 with ⟨h3, h3s⟩ | ⟨h3, h3s⟩ <;>
      rcases habs_n with ⟨h2, h2s⟩ | ⟨h2, h2s⟩ <;> omega
  · show (|n - u| - |m - (u + 1)|) % 2 = 0
    rcases habs_m1 with ⟨h1, h1s⟩ | ⟨h1, h1s⟩ <;>
      rcases habs_n with ⟨h2, h2s⟩ | ⟨h2, h2s⟩ <;> omega
  · rw [hfrt, hfft]

lemma snakeIdx_self (isRev : Bool) (p : ℤ) : snakeIdx isRev p p = [] := by
  rw [snakeIdx]
  simp

set_option maxHeartbeats 1600000 in
/-- The overlap branch with an empty middle snake and equal split points:
the two recursive calls rewrite the two halves of the window. -/
lemma fireWrites_zero (search : SearchArgs → ℤ × Option (List ℤ))
    (accept : ℚ) (n m i j cost d0 v x y : ℤ) (isRev : Bool) (buf : List ℤ)
    (hacc2 : 0 < accept)
    (hsearch : ∀ a : SearchArgs, 0 < a.accept → 0 ≤ a.n → 0 ≤ a.m →
      0 ≤ a.max_cost → a.n + a.m < n + m →
      ∀ buf' : List ℤ, a.out = some buf' → 0 ≤ a.i + a.j →
      a.i + a.j + a.n + a.m ≤ (buf'.length : ℤ) →
      ∃ mid : List ℤ,
        search a = (a.n + a.m, some (buf'.take (a.i + a.j).toNat ++ mid ++
          buf'.drop ((a.i + a.j).toNat + (a.n + a.m).toNat))) ∧
        mid.length = (a.n + a.m).toNat ∧ mid.count 1 = a.n.toNat ∧
        mid.count 2 = a.m.toNat)
    (hxdef : 2 * x = v + d0 - m) (hydef : 2 * y = v - d0 + m)
    (hx0 : 0 ≤ x) (hxn : x ≤ n) (hy0 : 0 ≤ y) (hym : y ≤ m)
    (hv1 : 0 < x + y) (hv2 : x + y < n + m)
    (hb1 : 0 ≤ cost.fdiv 2 + cost.emod 2) (hb2 : 0 ≤ cost.fdiv 2)
    (ho : 0 ≤ i + j) (hb : i + j + n + m ≤ (buf.length : ℤ)) :
    ∃ mid : List ℤ,
      fireWrites search isRev accept n m i j cost ⟨d0, v, v⟩ (some buf) =
        some (buf.take (i + j).toNat ++ mid ++
          buf.drop ((i + j).toNat + (n + m).toNat)) ∧
      mid.length = (n + m).toNat ∧ mid.count 1 = n.toNat ∧
      mid.count 2 = m.toNat := by
  rw [fireWrites]
  simp only [snakeIdx_self, List.foldl_nil]
  have hxe : (v + d0 - m).fdiv 2 = x := by
    rw [fdiv2_eq]
    omega
  have hye : (v - d0 + m).fdiv 2 = y := by
    rw [fdiv2_eq]
    omega
  simp only [hxe, hye, ite_self]
  obtain ⟨mid1, hs1, hl1, hc11, hc12⟩ := hsearch
    ⟨x, y, some buf, accept, cost.fdiv 2 + cost.emod 2, max_calls_default,
      i, j⟩ hacc2 hx0 hy0 hb1 hv2 buf rfl ho
    (show i + j + x + y ≤ (buf.length : ℤ) by omega)
  have hs1' : search ⟨x, y, some buf, accept,
      cost.fdiv 2 + cost.emod 2, max_calls_default, i, j⟩ =
      (x + y, some (buf.take (i + j).toNat ++ mid1 ++
        buf.drop ((i + j).toNat + (x + y).toNat))) := hs1
  have hl1' : mid1.length = (x + y).toNat := hl1
  have hc11' : mid1.count 1 = x.toNat := hc11
  have hc12' : mid1.count 2 = y.toNat := hc12
  rw [hs1']
  have hA1 : (buf.take (i + j).toNat ++ mid1).length = (i + j).toNat +
      (x + y).toNat := by
    rw [List.length_append, List.length_take, hl1']
    omega
  have hB1len : ((buf.take (i + j).toNat ++ mid1 ++
      buf.drop ((i + j).toNat + (x + y).toNat)).length : ℤ) =
      (buf.length : ℤ) := by
    rw [List.length_append, List.length_append, List.length_take,
      List.length_drop, hl1']
    push_cast
    omega
  obtain ⟨mid2, hs2, hl2, hc21, hc22⟩ := hsearch
    ⟨n - x, m - y, some (buf.take (i + j).toNat ++ mid1 ++
        buf.drop ((i + j).toNat + (x + y).toNat)), accept, cost.fdiv 2,
      max_calls_default, i + x, j + y⟩ hacc2 (show (0:ℤ) ≤ n - x by omega)
    (show (0:ℤ) ≤ m - y by omega) hb2
    (show n - x + (m - y) < n + m by omega) _ rfl
    (show (0:ℤ) ≤ i + x + (j + y) by omega)
    (show i + x + (j + y) + (n - x) + (m - y) ≤
        ((buf.take (i + j).toNat ++ mid1 ++
          buf.drop ((i + j).toNat + (x + y).toNat)).length : ℤ) by
      rw [hB1len]
      omega)
  have hs2' : search ⟨n - x, m - y, some (buf.take (i + j).toNat ++ mid1 ++
      buf.drop ((i + j).toNat + (x + y).toNat)), accept, cost.fdiv 2,
      max_calls_default, i + x, j + y⟩ =
      (n - x + (m - y), some ((buf.take (i + j).toNat ++ mid1 ++
        buf.drop ((i + j).toNat + (x + y).toNat)).take
          (i + x + (j + y)).toNat ++ mid2 ++
        (buf.take (i + j).toNat ++ mid1 ++
          buf.drop ((i + j).toNat + (x + y).toNat)).drop
          ((i + x + (j + y)).toNat + (n - x + (m - y)).toNat))) := hs2
  have hl2' : mid2.length = (n - x + (m - y)).toNat := hl2
  have hc21' : mid2.count 1 = (n - x).toNat := hc21
  have hc22' : mid2.count 2 = (m - y).toNat := hc22
  rw [hs2']
  have ho2 : (i + x + (j + y)).toNat = (i + j).toNat + (x + y).toNat := by
    omega
  have htk : (buf.take (i + j).toNat ++ mid1 ++
      buf.drop ((i + j).toNat + (x + y).toNat)).take
        (i + x + (j + y)).toNat = buf.take (i + j).toNat ++ mid1 := by
    rw [ho2]
    exact take_len (buf.take (i + j).toNat ++ mid1)
      (buf.drop ((i + j).toNat + (x + y).toNat))
      ((i + j).toNat + (x + y).toNat) hA1
  have hdr : (buf.take (i + j).toNat ++ mid1 ++
      buf.drop ((i + j).toNat + (x + y).toNat)).drop
        ((i + x + (j + y)).toNat + (n - x + (m - y)).toNat) =
      buf.drop ((i + j).toNat + (n + m).toNat) := by
    have ho3 : (i + x + (j + y)).toNat + (n - x + (m - y)).toNat =
        ((i + j).toNat + (x + y).toNat) + (n - x + (m - y)).toNat := by
      omega
    rw [ho3]
    rw [drop_len_add (buf.take (i + j).toNat ++ mid1)
      (buf.drop ((i + j).toNat + (x + y).toNat))
      ((i + j).toNat + (x + y).toNat) ((n - x + (m - y)).toNat) hA1]
    rw [List.drop_drop]
    congr 1
    omega
  rw [htk, hdr]
  refine ⟨mid1 ++ mid2, ?_, ?_, ?_, ?_⟩
  · simp only [List.append_assoc]
  · rw [List.length_append, hl1', hl2']
    omega
  · rw [List.count_append, hc11', hc21']
    omega
  · rw [List.count_append, hc12', hc22']
    omega

set_option maxHeartbeats 3200000 in
/-- With the always-rejecting oracle the cost loop either reaches the
meeting round `n + m`, whose overlap branch rewrites the whole window
through the two recursive calls, or exits early through the call-budget
or round-budget fallbacks, which write the trivial script; in every case
the returned cost is `n + m` and the window holds `n` ones and `m` twos
in some order. -/
lemma rounds_zero (sim : ℤ → ℤ → ℚ) (accept : ℚ)
    (hsim : ∀ x y, sim x y = 0) (hacc : 0 < accept)
    (n m i j nm max_calls : ℤ) (hn1 : 1 ≤ n) (hm1 : 1 ≤ m)
    (hnm_eq : nm = min n m + 1)
    (buf : List ℤ) (ho : 0 ≤ i + j) (hb : i + j + n + m ≤ (buf.length : ℤ))
    (search : SearchArgs → ℤ × Option (List ℤ))
    (hsearch : ∀ a : SearchArgs, 0 < a.accept → 0 ≤ a.n → 0 ≤ a.m →
      0 ≤ a.max_cost → a.n + a.m < n + m →
      ∀ buf' : List ℤ, a.out = some buf' → 0 ≤ a.i + a.j →
      a.i + a.j + a.n + a.m ≤ (buf'.length : ℤ) →
      ∃ mid : List ℤ,
        search a = (a.n + a.m, some (buf'.take (a.i + a.j).toNat ++ mid ++
          buf'.drop ((a.i + a.j).toNat + (a.n + a.m).toNat))) ∧
        mid.length = (a.n + a.m).toNat ∧ mid.count 1 = a.n.toNat ∧
        mid.count 2 = a.m.toNat) :
    ∀ (rfuel : ℕ) (cost : ℤ) (ff fr : List ℤ) (nc : ℤ),
      0 ≤ cost → cost ≤ n + m →
      frontF n m nm ((cost + 1).fdiv 2) ff →
      frontR n m nm (cost.fdiv 2) fr →
      ∃ mid : List ℤ,
        rounds search sim accept n m i j nm (n + m) max_calls (some buf)
          (rfuel + 1) cost ff fr nc =
          (n + m, some (buf.take (i + j).toNat ++ mid ++
            buf.drop ((i + j).toNat + (n + m).toNat))) ∧
        mid.length = (n + m).toNat ∧ mid.count 1 = n.toNat ∧
        mid.count 2 = m.toNat := by
  have hnm : 0 < nm := by omega
  have htriv : ∃ mid : List ℤ,
      write_trivial (some buf) n m i j =
        some (buf.take (i + j).toNat ++ mid ++
          buf.drop ((i + j).toNat + (n + m).toNat)) ∧
      mid.length = (n + m).toNat ∧ mid.count 1 = n.toNat ∧
      mid.count 2 = m.toNat := by
    refine ⟨List.replicate n.toNat 1 ++ List.replicate m.toNat 2,
      write_trivial_spec buf n m i j (by omega) (by omega) ho (by omega),
      ?_, ?_, ?_⟩
    · rw [List.length_append, List.length_replicate, List.length_replicate]
      omega
    · rw [List.count_append, List.count_replicate, List.count_replicate]
      norm_num
    · rw [List.count_append, List.count_replicate, List.count_replicate]
      norm_num
  have hstep : ∀ (cost : ℤ) (ff fr : List ℤ) (nc : ℤ), 0 ≤ cost →
      cost ≤ n + m →
      frontF n m nm ((cost + 1).fdiv 2) ff →
      frontR n m nm (cost.fdiv 2) fr →
      (∃ res : ℤ × Option (List ℤ),
        round_step search sim accept n m i j nm (n + m) max_calls (some buf)
          cost ff fr nc = Sum.inl res ∧
        ∃ mid : List ℤ,
          res = (n + m, some (buf.take (i + j).toNat ++ mid ++
            buf.drop ((i + j).toNat + (n + m).toNat))) ∧
          mid.length = (n + m).toNat ∧ mid.count 1 = n.toNat ∧
          mid.count 2 = m.toNat) ∨
      (cost < n + m ∧ ∃ st : List ℤ × List ℤ × ℤ,
        round_step search sim accept n m i j nm (n + m) max_calls (some buf)
          cost ff fr nc = Sum.inr st ∧
        frontF n m nm ((cost + 1 + 1).fdiv 2) st.1 ∧
        frontR n m nm ((cost + 1).fdiv 2) st.2.1) := by
    intro cost ff fr nc h0 hle hff hfr
    obtain ⟨t, ht⟩ : ∃ t : ℤ, cost = 2 * t ∨ cost = 2 * t + 1 :=
      ⟨cost / 2, by omega⟩
    have habs_mt : ∀ w : ℤ, (|m - w| = m - w ∧ w ≤ m) ∨
        (|m - w| = w - m ∧ m ≤ w) := by
      intro w
      rcases abs_cases (m - w) with ⟨h1, h2⟩ | ⟨h1, h2⟩
      · exact Or.inl ⟨h1, by omega⟩
      · exact Or.inr ⟨by omega, by omega⟩
    have habs_nt : ∀ w : ℤ, (|n - w| = n - w ∧ w ≤ n) ∨
        (|n - w| = w - n ∧ n ≤ w) := by
      intro w
      rcases abs_cases (n - w) with ⟨h1, h2⟩ | ⟨h1, h2⟩
      · exact Or.inl ⟨h1, by omega⟩
      · exact Or.inr ⟨by omega, by omega⟩
    rcases ht with rfl | rfl
    · -- even round
      have ht0 : 0 ≤ t := by omega
      have hfdiv1 : (2 * t + 1).fdiv 2 = t := by
        rw [fdiv2_eq]
        omega
      have hfdiv0 : (2 * t).fdiv 2 = t := by
        rw [fdiv2_eq]
        omega
      have hfdivm : (2 * t - 1).fdiv 2 + 1 = t := by
        rw [fdiv2_eq]
        omega
      rw [hfdiv1] at hff
      rw [hfdiv0] at hfr
      have hrev : (decide ((2 * t).emod 2 = 1)) = false := by
        apply decide_eq_false
        show ¬ (2 * t) % 2 = 1
        omega
      rw [round_step]
      simp only [hrev, Bool.false_eq_true, if_false, hfdiv0, hfdivm]
      obtain ⟨hp1, hp2a, hp3, hp4⟩ := phase1_zero sim accept hsim hacc
        n m i j nm hnm false (|n - t|) (n + m - |m - t|)
        (pyRange2 (|m - t|) (n + m - |n - t| + 2)) ff fr nc hff.1 hfr.1
      have hwin : |m - t| ≤ n + m - |n - t| := by
        rcases habs_mt t with ⟨h1, h1s⟩ | ⟨h1, h1s⟩ <;>
          rcases habs_nt t with ⟨h2, h2s⟩ | ⟨h2, h2s⟩ <;> omega
      by_cases hcost : 2 * t = n + m
      · -- meeting round: the head diagonal fires
        left
        obtain ⟨hft, hval⟩ := fire_head_even n m nm t hn1 hm1 hcost hnm
          ff fr hff hfr
        have hcons : pyRange2 (|m - t|) (n + m - |n - t| + 2) =
            |m - t| :: pyRange2 (|m - t| + 2) (n + m - |n - t| + 2) :=
          pyRange2_cons _ _ (by omega)
        have hsome := hp4 (|m - t|) _ hcons hft
        simp only [Bool.false_eq_true, if_false, hval] at hsome
        simp only [hsome]
        rw [if_pos (show (some buf : Option (List ℤ)) ≠ none from
          Option.some_ne_none _)]
        have hb1 : (0:ℤ) ≤ (2 * t).fdiv 2 + (2 * t).emod 2 := by
          rw [fdiv2_eq]
          show (0:ℤ) ≤ 2 * t / 2 + (2 * t) % 2
          omega
        have hb2 : (0:ℤ) ≤ (2 * t).fdiv 2 := by
          rw [hfdiv0]
          omega
        rcases le_or_lt t m with hcase | hcase
        · obtain ⟨mid, hfw, hml, hmc1, hmc2⟩ := fireWrites_zero search accept
            n m i j (2 * t) (|m - t|) t 0 t false buf hacc hsearch
            (by rcases habs_mt t with ⟨h1, h1s⟩ | ⟨h1, h1s⟩ <;> omega)
            (by rcases habs_mt t with ⟨h1, h1s⟩ | ⟨h1, h1s⟩ <;> omega)
            (le_refl 0) (by omega) ht0 hcase (by omega) (by omega)
            hb1 hb2 ho hb
          exact ⟨_, rfl, mid, by rw [hfw, hcost], hml, hmc1, hmc2⟩
        · obtain ⟨mid, hfw, hml, hmc1, hmc2⟩ := fireWrites_zero search accept
            n m i j (2 * t) (|m - t|) t (t - m) m false buf hacc hsearch
            (by rcases habs_mt t with ⟨h1, h1s⟩ | ⟨h1, h1s⟩ <;> omega)
            (by rcases habs_mt t with ⟨h1, h1s⟩ | ⟨h1, h1s⟩ <;> omega)
            (by omega) (by omega) (by omega) (le_refl m) (by omega) (by omega)
            hb1 hb2 ho hb
          exact ⟨_, rfl, mid, by rw [hfw, hcost], hml, hmc1, hmc2⟩
      · -- ordinary round: no fire, fronts advance
        have hlt : 2 * t < n + m := by omega
        have hnone := hp3 (no_fire_even n m nm t hn1 hm1 ht0 hlt hnm
          ff fr hff hfr)
        simp only [hnone]
        by_cases hmc : max_calls <
            (phase1 sim accept n m i j nm false (|n - t|) (n + m - |m - t|)
              (pyRange2 (|m - t|) (n + m - |n - t| + 2)) ff fr nc).2.2.1
        · left
          rw [if_pos hmc]
          obtain ⟨mid, h1, h2, h3, h4⟩ := htriv
          exact ⟨_, rfl, mid, by rw [h1], h2, h3, h4⟩
        · right
          rw [if_neg hmc]
          refine ⟨hlt, _, rfl, ?_, ?_⟩
          · have he : (2 * t + 1 + 1).fdiv 2 = t + 1 := by
              rw [fdiv2_eq]
              omega
            rw [he]
            simp only [hp1]
            exact phase2_fwd n m nm t hn1 hm1 ht0 (by omega) hnm_eq ff hff
          · have he : (2 * t + 1).fdiv 2 = t := hfdiv1
            rw [he]
            simp only [hp2a]
            exact hfr
    · -- odd round
      have ht0 : 0 ≤ t := by omega
      have hfdiv1 : (2 * t + 1 + 1).fdiv 2 = t + 1 := by
        rw [fdiv2_eq]
        omega
      have hfdiv0 : (2 * t + 1).fdiv 2 = t := by
        rw [fdiv2_eq]
        omega
      have hfdivm : (2 * t + 1 - 1).fdiv 2 + 1 = t + 1 := by
        rw [fdiv2_eq]
        omega
      rw [hfdiv1] at hff
      rw [hfdiv0] at hfr
      have hrev : (decide ((2 * t + 1).emod 2 = 1)) = true := by
        apply decide_eq_true
        show (2 * t + 1) % 2 = 1
        omega
      rw [round_step]
      simp only [hrev, if_true, hfdiv0, hfdivm]
      obtain ⟨hp1, hp2a, hp3, hp4⟩ := phase1_zero sim accept hsim hacc
        n m i j nm hnm true (|m - (t + 1)|) (n + m - |n - (t + 1)|)
        (pyRange2 (|n - t|) (n + m - |m - t| + 2)) ff fr nc hff.1 hfr.1
      have hwin : |n - t| ≤ n + m - |m - t| := by
        rcases habs_mt t with ⟨h1, h1s⟩ | ⟨h1, h1s⟩ <;>
          rcases habs_nt t with ⟨h2, h2s⟩ | ⟨h2, h2s⟩ <;> omega
      by_cases hcost : 2 * t + 1 = n + m
      · left
        obtain ⟨hft, hval⟩ := fire_head_odd n m nm t hn1 hm1 ht0 hcost hnm
          ff fr hff hfr
        have hcons : pyRange2 (|n - t|) (n + m - |m - t| + 2) =
            |n - t| :: pyRange2 (|n - t| + 2) (n + m - |m - t| + 2) :=
          pyRange2_cons _ _ (by omega)
        have hsome := hp4 (|n - t|) _ hcons hft
        simp only [if_true, hval] at hsome
        simp only [hsome]
        rw [if_pos (show (some buf : Option (List ℤ)) ≠ none from
          Option.some_ne_none _)]
        have hb1 : (0:ℤ) ≤ (2 * t + 1).fdiv 2 + (2 * t + 1).emod 2 := by
          rw [fdiv2_eq]
          show (0:ℤ) ≤ (2 * t + 1) / 2 + (2 * t + 1) % 2
          omega
        have hb2 : (0:ℤ) ≤ (2 * t + 1).fdiv 2 := by
          rw [hfdiv0]
          omega
        rcases le_or_lt n t with hcase | hcase
        · obtain ⟨mid, hfw, hml, hmc1, hmc2⟩ := fireWrites_zero search accept
            n m i j (2 * t + 1) (|n - t|) (t + 1) 0 (t + 1) true buf hacc
            hsearch
            (by rcases habs_nt t with ⟨h1, h1s⟩ | ⟨h1, h1s⟩ <;> omega)
            (by rcases habs_nt t with ⟨h1, h1s⟩ | ⟨h1, h1s⟩ <;> omega)
            (le_refl 0) (by omega) (by omega) (by omega) (by omega) (by omega)
            hb1 hb2 ho hb
          exact ⟨_, rfl, mid, by rw [hfw, hcost], hml, hmc1, hmc2⟩
        · obtain ⟨mid, hfw, hml, hmc1, hmc2⟩ := fireWrites_zero search accept
            n m i j (2 * t + 1) (|n - t|) (t + 1) (n - t) m true buf hacc
            hsearch
            (by rcases habs_nt t with ⟨h1, h1s⟩ | ⟨h1, h1s⟩ <;> omega)
            (by rcases habs_nt t with ⟨h1, h1s⟩ | ⟨h1, h1s⟩ <;> omega)
            (by omega) (by omega) (by omega) (le_refl m) (by omega) (by omega)
            hb1 hb2 ho hb
          exact ⟨_, rfl, mid, by rw [hfw, hcost], hml, hmc1, hmc2⟩
      · have hlt : 2 * t + 1 < n + m := by omega
        have hnone := hp3 (no_fire_odd n m nm t hn1 hm1 ht0 hlt hnm
          ff fr hff hfr)
        simp only [hnone]
        by_cases hmc : max_calls <
            (phase1 sim accept n m i j nm true (|m - (t + 1)|)
              (n + m - |n - (t + 1)|)
              (pyRange2 (|n - t|) (n + m - |m - t| + 2)) ff fr nc).2.2.1
        · left
          rw [if_pos hmc]
          obtain ⟨mid, h1, h2, h3, h4⟩ := htriv
          exact ⟨_, rfl, mid, by rw [h1], h2, h3, h4⟩
        · right
          rw [if_neg hmc]
          refine ⟨hlt, _, rfl, ?_, ?_⟩
          · have he : (2 * t + 1 + 1 + 1).fdiv 2 = t + 1 := by
              rw [fdiv2_eq]
              omega
            rw [he]
            simp only [hp1]
            exact hff
          · have he : (2 * t + 1 + 1).fdiv 2 = t + 1 := by
              rw [fdiv2_eq]
              omega
            rw [he]
            simp only [hp2a]
            exact phase2_rev n m nm t hn1 hm1 ht0 (by omega) hnm_eq fr hfr
  intro rfuel
  induction rfuel with
  | zero =>
    intro cost ff fr nc h0 hle hff hfr
    rcases hstep cost ff fr nc h0 hle hff hfr with
      ⟨res, hres, mid, hres2, h2, h3, h4⟩ | ⟨hlt, st, hst, hstF, hstR⟩
    · rw [rounds]
      simp only [hres]
      exact ⟨mid, by rw [hres2], h2, h3, h4⟩
    · rw [rounds]
      simp only [hst]
      have h0e : rounds search sim accept n m i j nm (n + m) max_calls
          (some buf) 0 (cost + 1) st.1 st.2.1 st.2.2 =
          (n + m, write_trivial (some buf) n m i j) := rfl
      rw [h0e]
      obtain ⟨mid, h1, h2, h3, h4⟩ := htriv
      exact ⟨mid, by rw [h1], h2, h3, h4⟩
  | succ rf ih =>
    intro cost ff fr nc h0 hle hff hfr
    rcases hstep cost ff fr nc h0 hle hff hfr with
      ⟨res, hres, mid, hres2, h2, h3, h4⟩ | ⟨hlt, st, hst, hstF, hstR⟩
    · rw [rounds]
      simp only [hres]
      exact ⟨mid, by rw [hres2], h2, h3, h4⟩
    · rw [rounds]
      simp only [hst]
      exact ih (cost + 1) st.1 st.2.1 st.2.2 (by omega) (by omega) hstF hstR

set_option maxHeartbeats 3200000 in
/-- The full engine with an always-rejecting oracle, on a real buffer:
both strip loops are identities, the empty-dimension exit and all cost
loop exits return cost `n + m` and fill the window with `n` ones and `m`
twos in some order. -/
lemma search_zero (sim : ℤ → ℤ → ℚ) (hsim : ∀ x y, sim x y = 0) :
    ∀ (fuel : ℕ) (a : SearchArgs), 0 < a.accept → 0 ≤ a.n → 0 ≤ a.m →
      0 ≤ a.max_cost → (a.n + a.m).toNat < fuel →
      ∀ buf : List ℤ, a.out = some buf → 0 ≤ a.i + a.j →
      a.i + a.j + a.n + a.m ≤ (buf.length : ℤ) →
      ∃ mid : List ℤ,
        search_fuel sim fuel a = (a.n + a.m,
          some (buf.take (a.i + a.j).toNat ++ mid ++
            buf.drop ((a.i + a.j).toNat + (a.n + a.m).toNat))) ∧
        mid.length = (a.n + a.m).toNat ∧ mid.count 1 = a.n.toNat ∧
        mid.count 2 = a.m.toNat := by
  intro fuel
  induction fuel with
  | zero =>
    intro a hacc hn hm hmc hfl
    exact absurd hfl (by omega)
  | succ F ih =>
    intro a hacc hn hm hmc hfl buf hout ho hb
    rw [search_fuel]
    simp only [strip_forward_zero sim a.accept hsim hacc,
      strip_reverse_zero sim a.accept hsim hacc]
    rw [hout]
    by_cases hzero : a.n * a.m = 0
    · rw [if_pos hzero]
      refine ⟨List.replicate a.n.toNat 1 ++ List.replicate a.m.toNat 2,
        ?_, ?_, ?_, ?_⟩
      · rw [write_trivial_spec buf a.n a.m a.i a.j hn hm ho (by omega)]
      · rw [List.length_append, List.length_replicate, List.length_replicate]
        omega
      · rw [List.count_append, List.count_replicate, List.count_replicate]
        norm_num
      · rw [List.count_append, List.count_replicate, List.count_replicate]
        norm_num
    · rw [if_neg hzero]
      have hn1 : 1 ≤ a.n := by
        have hne : a.n ≠ 0 := by
          intro h
          exact hzero (by rw [h]; ring)
        omega
      have hm1 : 1 ≤ a.m := by
        have hne : a.m ≠ 0 := by
          intro h
          exact hzero (by rw [h]; ring)
        omega
      have hfe : (min a.max_cost (a.n + a.m) + 1).toNat =
          (min a.max_cost (a.n + a.m)).toNat + 1 := by omega
      rw [hfe]
      have h01 : ((0:ℤ) + 1).fdiv 2 = 0 := by
        rw [fdiv2_eq]
        decide
      have h00 : (0:ℤ).fdiv 2 = 0 := by
        rw [fdiv2_eq]
        decide
      exact rounds_zero sim a.accept hsim hacc a.n a.m a.i a.j
        (min a.n a.m + 1) a.max_calls hn1 hm1 rfl buf ho (by omega)
        (fun a' => search_fuel sim F a')
        (fun a' hacc' h1 h2 h3 hsz buf' hout' ho' hb' =>
          ih a' hacc' h1 h2 h3 (by omega) buf' hout' ho' hb')
        (min a.max_cost (a.n + a.m)).toNat 0
        (List.replicate (min a.n a.m + 1).toNat 0)
        (List.replicate (min a.n a.m + 1).toNat (a.n + a.m)) 2
        (le_refl 0) (by omega)
        (by
          rw [h01]
          exact frontF_init a.n a.m (min a.n a.m + 1) (by omega))
        (by
          rw [h00]
          exact frontR_init a.n a.m (min a.n a.m + 1) (by omega))

lemma count_cons_one (c : ℤ) (rest : List ℤ) :
    (c :: rest).count 1 = rest.count 1 + (if c = 1 then 1 else 0) := by
  by_cases h : c = 1 <;> simp [List.count_cons, h]

lemma count_cons_two (c : ℤ) (rest : List ℤ) :
    (c :: rest).count 2 = rest.count 2 + (if c = 2 then 1 else 0) := by
  by_cases h : c = 2 <;> simp [List.count_cons, h]

lemma count_onetwo_le (l : List ℤ) : l.count 1 + l.count 2 ≤ l.length := by
  induction l with
  | nil => simp
  | cons c rest ih =>
    rw [count_cons_one, count_cons_two, List.length_cons]
    by_cases h1 : c = 1
    · rw [if_pos h1, if_neg (by rw [h1]; decide)]
      omega
    · by_cases h2 : c = 2
      · rw [if_neg h1, if_pos h2]
        omega
      · rw [if_neg h1, if_neg h2]
        omega

lemma count_mem_onetwo (l : List ℤ) (hc : l.count 1 + l.count 2 = l.length) :
    ∀ x ∈ l, x = 1 ∨ x = 2 := by
  induction l with
  | nil =>
    intro x hx
    cases hx
  | cons c rest ih =>
    intro x hx
    have haux := count_onetwo_le rest
    rw [count_cons_one, count_cons_two, List.length_cons] at hc
    have hrest : rest.count 1 + rest.count 2 = rest.length := by
      by_cases h1 : c = 1
      · rw [if_pos h1, if_neg (by rw [h1]; decide)] at hc
        omega
      · by_cases h2 : c = 2
        · rw [if_neg h1, if_pos h2] at hc
          omega
        · rw [if_neg h1, if_neg h2] at hc
          omega
    rcases List.mem_cons.mp hx with rfl | hx'
    · by_contra hcon
      push_neg at hcon
      obtain ⟨hc1, hc2⟩ := hcon
      rw [if_neg hc1, if_neg hc2] at hc
      omega
    · exact ih hrest x hx'

lemma canonize_go_onetwos : ∀ (l : List ℤ), (∀ x ∈ l, x = 1 ∨ x = 2) →
    ∀ h v : ℕ, canonize_go l h v =
      List.replicate (h + l.count 1) 1 ++ List.replicate (v + l.count 2) 2 := by
  intro l
  induction l with
  | nil =>
    intro _ h v
    rw [canonize_go]
    simp
  | cons c rest ih =>
    intro hmem h v
    rcases hmem c (List.mem_cons_self c rest) with rfl | rfl
    · rw [canonize_go, if_pos (by decide),
        ih (fun x hx => hmem x (List.mem_cons_of_mem _ hx)) (h + 1) v,
        count_cons_one, count_cons_two, if_pos rfl,
        if_neg (by decide : ¬ (1:ℤ) = 2)]
      congr 1 <;> congr 1 <;> omega
    · rw [canonize_go, if_neg (by decide), if_pos (by decide),
        ih (fun x hx => hmem x (List.mem_cons_of_mem _ hx)) h (v + 1),
        count_cons_one, count_cons_two, if_neg (by decide : ¬ (2:ℤ) = 1),
        if_pos rfl]
      congr 1 <;> congr 1 <;> omega

/-- A code list holding only `1`s and `2`s canonizes to all its `1`s
followed by all its `2`s. -/
lemma canonize_onetwos (l : List ℤ) (hc : l.count 1 + l.count 2 = l.length) :
    canonize l = List.replicate (l.count 1) 1 ++
      List.replicate (l.count 2) 2 := by
  rw [canonize, canonize_go_onetwos l (count_mem_onetwo l hc) 0 0]
  simp

/-- Claim C2, counterexample: with an always-`0` similarity oracle and
default parameters the engine does return cost `n + m`, but the raw
output buffer is not `n` ones followed by `m` twos: at `n = m = 1` the
run leaves the buffer as `[2, 1]`, not `[1, 2]`. -/
theorem search_zero_script_counterexample :
    search_graph_recursive 1 1 (fun _ _ => 0) (some [-1, -1]) =
      (2, some [2, 1]) ∧ ([2, 1] : List ℤ) ≠ [1, 2] :=
  ⟨rfl, by decide⟩

/-- Claim C2 (amended): `search_graph_recursive(n, m, always-0 oracle)`
with default accept and cost/call budgets and an output buffer of length
`n + m` returns cost `n + m` and fills the buffer with exactly `n` codes
`1` and `m` codes `2` (in engine order; `canonize` then yields the `n`
ones followed by the `m` twos). -/
theorem search_zero_script_counts (n m : ℤ) (hn : 0 ≤ n) (hm : 0 ≤ m)
    (buf : List ℤ) (hlen : buf.length = (n + m).toNat) :
    ∃ mid : List ℤ,
      search_graph_recursive n m (fun _ _ => 0) (some buf) =
        (n + m, some mid) ∧
      mid.length = (n + m).toNat ∧ mid.count 1 = n.toNat ∧
      mid.count 2 = m.toNat ∧
      canonize mid = List.replicate n.toNat 1 ++
        List.replicate m.toNat 2 := by
  obtain ⟨mid, hres, hl, h1, h2⟩ := search_zero (fun _ _ => 0)
    (fun _ _ => rfl) (n + m + 1).toNat
    ⟨n, m, some buf, 1, max_cost_default, max_calls_default, 0, 0⟩
    (show (0:ℚ) < 1 by norm_num) hn hm
    (show (0:ℤ) ≤ max_cost_default by rw [max_cost_default]; norm_num)
    (show (n + m).toNat < (n + m + 1).toNat by omega)
    buf rfl (show (0:ℤ) ≤ 0 + 0 by norm_num)
    (show (0:ℤ) + 0 + n + m ≤ (buf.length : ℤ) by omega)
  have hres' : search_fuel (fun _ _ => 0) (n + m + 1).toNat
      ⟨n, m, some buf, 1, max_cost_default, max_calls_default, 0, 0⟩ =
      (n + m, some (buf.take ((0:ℤ) + 0).toNat ++ mid ++
        buf.drop (((0:ℤ) + 0).toNat + (n + m).toNat))) := hres
  have hz : ((0:ℤ) + 0).toNat = 0 := rfl
  rw [hz, List.take_zero, List.nil_append, Nat.zero_add, ← hlen,
    List.drop_length, List.append_nil] at hres'
  have hl' : mid.length = (n + m).toNat := hl
  have h1' : mid.count 1 = n.toNat := h1
  have h2' : mid.count 2 = m.toNat := h2
  refine ⟨mid, hres', hl', h1', h2', ?_⟩
  have hsum : mid.count 1 + mid.count 2 = mid.length := by omega
  rw [canonize_onetwos mid hsum, h1', h2']

/-- Claim C2 witness: the amended theorem at `n = m = 1` on the buffer
`[-1, -1]`, with all hypotheses discharged by evaluation. -/
theorem search_zero_script_counts_witness :
    (0:ℤ) ≤ 1 ∧ ([(-1:ℤ), -1] : List ℤ).length = ((1:ℤ) + 1).toNat ∧
    (∃ mid : List ℤ,
      search_graph_recursive 1 1 (fun _ _ => 0) (some [-1, -1]) =
        (1 + 1, some mid) ∧
      mid.length = ((1:ℤ) + 1).toNat ∧ mid.count 1 = (1:ℤ).toNat ∧
      mid.count 2 = (1:ℤ).toNat ∧
      canonize mid = List.replicate (1:ℤ).toNat 1 ++
        List.replicate (1:ℤ).toNat 2) :=
  ⟨by decide, by decide, search_zero_script_counts 1 1 (by decide)
    (by decide) [-1, -1] (by decide)⟩

end Rdiff
